import Mathlib

/-!
SpamDetector: the separate-chaining hash table of `HashMap.hpp` and the
functions of `SpamDetector.cpp` that use it

A shallow embedding of the class template `HashMap<KeyT, ValueT>`, of its
iterator, and of `readFileIntoVectors` and `isSpam`.

* The object state is the record `HashMap K V`; every member function is a
  function from the state (and the arguments) to `Except Err _`, and a
  member function that assigns to a data member also returns the new state.
* `std::hash<KeyT>` is a parameter `hash : K → Nat` of every function that
  hashes; its values are `size_t`, reduced modulo `2 ^ 64`.
* `int` data members are kept in `Int`.  Signed overflow of `_size++` and of
  `_capacity *= RESIZE_FACTOR` is undefined behaviour and is modelled as the
  failure `Err.undefined_behaviour`; so is an index outside a vector or
  outside the bucket array.
* The two `double` load factors are only ever the constants 0.75 and 0.25.
  They are kept as exact fractions and `(double) size() / capacity()` is
  compared with them exactly: for `int` operands the rounding of the quotient
  cannot cross a fraction with denominator 4, and division by zero gives an
  infinity or a NaN as in IEEE arithmetic.
* A `while` loop runs on `LOOP_FUEL` iterations; a loop over an `int` that is
  doubled or halved has ended, overflowed or reached the fixed point 0 long
  before the fuel is used up, so running out of fuel is `Err.nontermination`
  (`upsizeLoop_fuel`, `upsizeLoop_zero_diverges`, `downsizeLoop_fuel`).
* An iterator of a bucket is the pair of the bucket index and the position in
  the bucket; a range-based `for` and the counting loop of `isSpam` take the
  number of rounds as an argument, and the theorems about them hold for every
  number of rounds that is large enough, or for every number of rounds.
* A `std::string` is the list of its characters and a file is the list of its
  lines; `std::getline`, `std::stoi` and `std::string::find` follow the C++
  standard.
-/

set_option autoImplicit false
set_option linter.unusedSectionVars false

namespace SpamDetector

/-- The ways a member function can fail to return. -/
inductive Err where
  /-- The exception `std::invalid_argument(what)`. -/
  | invalid_argument (what : String)
  /-- The exception `std::bad_alloc` (here: `new T[n]` with negative `n`). -/
  | bad_alloc
  /-- An out-of-range index or a signed overflow. -/
  | undefined_behaviour
  /-- A loop whose condition never becomes false. -/
  | nontermination
  /-- The exception `std::out_of_range(what)`. -/
  | out_of_range (what : String)
deriving DecidableEq, Repr

/-- The text of `#define KEYS_AND_VALUES_SIZE_DIFF`. -/
def KEYS_AND_VALUES_SIZE_DIFF : String := "Number of keys must match number of value"

/-- The text of `#define NONEXISTANT_KEY_ERR`. -/
def NONEXISTANT_KEY_ERR : String := "This key does not exist in the map"

/-- A `double` constant that is an exact fraction `num / den` with `0 < den`. -/
structure LoadFactor where
  num : Int
  den : Int
deriving DecidableEq, Repr

def START_CAPACITY : Int := 16
def RESIZE_FACTOR : Int := 2
def ELEMENT_NUMBER : Int := 0
/-- The constant 0.75. -/
def DEFAULT_UPPER_LOAD_FACTOR : LoadFactor := ⟨3, 4⟩
/-- The constant 0.25. -/
def DEFAULT_LOWER_LOAD_FACTOR : LoadFactor := ⟨1, 4⟩
def ERROR_CODE : Int := -1

def INT_MAX : Int := 2147483647
def INT_MIN : Int := -2147483648

/-- Iterations granted to a `while` loop. -/
def LOOP_FUEL : Nat := 64

/-- The result of an `int` operation: undefined behaviour outside the range. -/
def checkedInt (x : Int) : Except Err Int :=
  if INT_MIN ≤ x ∧ x ≤ INT_MAX then .ok x else .error .undefined_behaviour

/-- Conversion of an unsigned value to `int` (two's complement, 32 bits). -/
def toInt32 (n : Nat) : Int :=
  if n % 4294967296 < 2147483648 then ((n % 4294967296 : Nat) : Int)
  else ((n % 4294967296 : Nat) : Int) - 4294967296

/-- The test `(double) a / b > f`. -/
def ratioGt (a b : Int) (f : LoadFactor) : Bool :=
  if b = 0 then decide (0 < a)
  else if 0 < b then decide (f.num * b < a * f.den)
  else decide (a * f.den < f.num * b)

/-- The test `(double) a / b < f`. -/
def ratioLt (a b : Int) (f : LoadFactor) : Bool :=
  if b = 0 then decide (a < 0)
  else if 0 < b then decide (a * f.den < f.num * b)
  else decide (f.num * b < a * f.den)

/-- The element `xs[i]` of a vector or array; undefined outside `0 .. size-1`. -/
def indexAt {α : Type} (xs : List α) (i : Int) : Except Err α :=
  if 0 ≤ i then
    match xs[i.toNat]? with
    | some x => .ok x
    | none => .error .undefined_behaviour
  else .error .undefined_behaviour

/-- The statement `table[i].push_back(p)`. -/
def pushBackAt {α : Type} (table : List (List α)) (i : Int) (p : α) :
    Except Err (List (List α)) := do
  let bucket ← indexAt table i
  pure (table.set i.toNat (bucket ++ [p]))

/-- The data members of `HashMap<KeyT, ValueT>`; `_buckets` is the array of
`_capacity` vectors of pairs. -/
structure HashMap (K V : Type) where
  _size : Int
  _capacity : Int
  _upperLoadFactor : LoadFactor
  _lowerLoadFactor : LoadFactor
  _buckets : List (List (K × V))
deriving DecidableEq, Repr

/-- A `ValueT&` into the table: the entry `_buckets[bucket][inner].second`. -/
structure ValueRef where
  bucket : Int
  inner : Int
deriving DecidableEq, Repr

section Operations

variable {K V : Type} [DecidableEq K]

def size (m : HashMap K V) : Int := m._size

def capacity (m : HashMap K V) : Int := m._capacity

def empty (m : HashMap K V) : Bool := size m == 0

/-- The member `_getHashCode`: `std::hash<KeyT>{}(key) & (capacity() - 1)`, the
`int` mask converted to `size_t` and the result converted back to `int`.  The
subtraction overflows only for the capacity `INT_MIN`, which no operation stores. -/
def _getHashCode (hash : K → Nat) (m : HashMap K V) (key : K) : Int :=
  toInt32 ((hash key % 18446744073709551616) &&&
    ((capacity m - 1) % 18446744073709551616).toNat)

/-- The loop of `_getInnerKeyIdx` from position `vecIdx` on. -/
def innerKeyIdxLoop (key : K) : List (K × V) → Nat → Int
  | [], _ => ERROR_CODE
  | p :: rest, vecIdx =>
    if p.1 = key then toInt32 vecIdx else innerKeyIdxLoop key rest (vecIdx + 1)

def _getInnerKeyIdx (hash : K → Nat) (m : HashMap K V) (key : K) : Except Err Int := do
  let relevantVec ← indexAt m._buckets (_getHashCode hash m key)
  pure (innerKeyIdxLoop key relevantVec 0)

def containsKey (hash : K → Nat) (m : HashMap K V) (key : K) : Except Err Bool := do
  let idx ← _getInnerKeyIdx hash m key
  pure (idx != ERROR_CODE)

/-- The pushes of `_rehash` and of the copy constructor for the pairs of one
source bucket. -/
def placeBucket (hash : K → Nat) (m : HashMap K V) (bucket : List (K × V))
    (table : List (List (K × V))) : Except Err (List (List (K × V))) :=
  bucket.foldlM (fun t pair => pushBackAt t (_getHashCode hash m pair.1) pair) table

/-- The buckets `source[0], ..., source[n - 1]` a loop `bucketIdx < n` reads. -/
def firstBuckets (source : List (List (K × V))) (n : Int) :
    Except Err (List (List (K × V))) :=
  if n ≤ source.length then .ok (source.take n.toNat) else .error .undefined_behaviour

/-- The array `new std::vector<std::pair<KeyT, ValueT>>[n]`. -/
def newTable (n : Int) : Except Err (List (List (K × V))) :=
  if n < 0 then .error .bad_alloc else .ok (List.replicate n.toNat [])

/-- The member `_rehash`; `m._capacity` is already the new capacity. -/
def _rehash (hash : K → Nat) (m : HashMap K V) (previousCapacity : Int) :
    Except Err (HashMap K V) := do
  let table ← newTable m._capacity
  let old ← firstBuckets m._buckets previousCapacity
  let table ← old.foldlM (fun t bucket => placeBucket hash m bucket t) table
  pure { m with _buckets := table }

/-- The loop `while ((double) size() / capacity() > _upperLoadFactor)`. -/
def upsizeLoop : Nat → Int → Int → LoadFactor → Except Err Int
  | 0, _, _, _ => .error .nontermination
  | fuel + 1, sz, cap, f =>
    if ratioGt sz cap f then do
      let cap ← checkedInt (cap * RESIZE_FACTOR)
      upsizeLoop fuel sz cap f
    else .ok cap

/-- The loop `while ((double) size() / capacity() < _lowerLoadFactor)`. -/
def downsizeLoop : Nat → Int → Int → LoadFactor → Except Err Int
  | 0, _, _, _ => .error .nontermination
  | fuel + 1, sz, cap, f =>
    if ratioLt sz cap f then downsizeLoop fuel sz (Int.tdiv cap RESIZE_FACTOR) f
    else .ok cap

def _resize (hash : K → Nat) (m : HashMap K V) (upsize : Bool) : Except Err (HashMap K V) := do
  let previousCapacity := capacity m
  let cap ←
    (if upsize then upsizeLoop LOOP_FUEL (size m) (capacity m) m._upperLoadFactor
      else downsizeLoop LOOP_FUEL (size m) (capacity m) m._lowerLoadFactor)
  _rehash hash { m with _capacity := cap } previousCapacity

def _checkResize (hash : K → Nat) (m : HashMap K V) : Except Err (HashMap K V) := do
  let m ← (if ratioGt (size m) (capacity m) m._upperLoadFactor then _resize hash m true
    else pure m)
  if ratioLt (size m) (capacity m) m._lowerLoadFactor then _resize hash m false
  else pure m

/-- The default constructor `HashMap()`. -/
def HashMap_default : HashMap K V :=
  { _size := ELEMENT_NUMBER
    _capacity := START_CAPACITY
    _upperLoadFactor := DEFAULT_UPPER_LOAD_FACTOR
    _lowerLoadFactor := DEFAULT_LOWER_LOAD_FACTOR
    _buckets := List.replicate START_CAPACITY.toNat [] }

def insert (hash : K → Nat) (m : HashMap K V) (key : K) (value : V) :
    Except Err (Bool × HashMap K V) := do
  if (← containsKey hash m key) then
    return (false, m)
  let valHashCode := _getHashCode hash m key
  let sz ← checkedInt (m._size + 1)
  let buckets ← pushBackAt m._buckets valHashCode (key, value)
  let m ← _checkResize hash { m with _size := sz, _buckets := buckets }
  return (true, m)

/-- The const member `at`. -/
def at_const (hash : K → Nat) (m : HashMap K V) (key : K) : Except Err V := do
  if (← containsKey hash m key) then
    let bucket ← indexAt m._buckets (_getHashCode hash m key)
    let pair ← indexAt bucket (← _getInnerKeyIdx hash m key)
    return pair.2
  else
    throw (.invalid_argument NONEXISTANT_KEY_ERR)

/-- The reference `_buckets[h][i].second`, formed only for an existing entry. -/
def refTo (m : HashMap K V) (h i : Int) : Except Err ValueRef := do
  let bucket ← indexAt m._buckets h
  let _ ← indexAt bucket i
  pure ⟨h, i⟩

/-- Reading through a `ValueT&`. -/
def readRef (m : HashMap K V) (r : ValueRef) : Except Err V := do
  let bucket ← indexAt m._buckets r.bucket
  let pair ← indexAt bucket r.inner
  pure pair.2

/-- The non-const member `at`, which returns a `ValueT&`. -/
def at_mut (hash : K → Nat) (m : HashMap K V) (key : K) : Except Err ValueRef := do
  if (← containsKey hash m key) then
    refTo m (_getHashCode hash m key) (← _getInnerKeyIdx hash m key)
  else
    throw (.invalid_argument NONEXISTANT_KEY_ERR)

def bucketIndex (hash : K → Nat) (m : HashMap K V) (key : K) : Except Err Int := do
  if (← containsKey hash m key) then
    return _getHashCode hash m key
  else
    throw (.invalid_argument NONEXISTANT_KEY_ERR)

/-- The statement `keyVec.erase(keyVec.begin() + i)`. -/
def vectorErase {α : Type} (xs : List α) (i : Int) : Except Err (List α) :=
  if 0 ≤ i ∧ i < xs.length then .ok (xs.eraseIdx i.toNat) else .error .undefined_behaviour

/-- The `try` block of `erase`. -/
def eraseBody (hash : K → Nat) (m : HashMap K V) (key : K) :
    Except Err (Bool × HashMap K V) := do
  if (← containsKey hash m key) then
    let bucketIdx ← bucketIndex hash m key
    let keyVec ← indexAt m._buckets bucketIdx
    let keyVec ← vectorErase keyVec (← _getInnerKeyIdx hash m key)
    let sz ← checkedInt (m._size - 1)
    let m ← _checkResize hash
      { m with _size := sz, _buckets := m._buckets.set bucketIdx.toNat keyVec }
    return (true, m)
  return (false, m)

def erase (hash : K → Nat) (m : HashMap K V) (key : K) : Except Err (Bool × HashMap K V) :=
  match eraseBody hash m key with
  | .error (.invalid_argument _) => .ok (false, m)
  | r => r

/-- One iteration of the loop of `HashMap(keys, values)`. -/
def bulkStep (hash : K → Nat) (m : HashMap K V) (kv : K × V) : Except Err (HashMap K V) := do
  let present ← containsKey hash m kv.1
  let m ← (if present then (fun r => r.2) <$> erase hash m kv.1 else pure m)
  let r ← insert hash m kv.1 kv.2
  pure r.2

/-- The constructor `HashMap(std::vector<KeyT> keys, std::vector<ValueT> values)`. -/
def HashMap_keys_values (hash : K → Nat) (keys : List K) (values : List V) :
    Except Err (HashMap K V) := do
  let this : HashMap K V := HashMap_default
  if keys.length ≠ values.length then
    throw (.invalid_argument KEYS_AND_VALUES_SIZE_DIFF)
  (keys.zip values).foldlM (bulkStep hash) this

/-- The copy constructor `HashMap(const HashMap &other)`. -/
def HashMap_copy (hash : K → Nat) (other : HashMap K V) : Except Err (HashMap K V) := do
  let this : HashMap K V :=
    { _size := other._size
      _capacity := other._capacity
      _lowerLoadFactor := other._lowerLoadFactor
      _upperLoadFactor := other._upperLoadFactor
      _buckets := [] }
  let table ← newTable this._capacity
  let source ← firstBuckets other._buckets (capacity this)
  let table ← source.foldlM (fun t bucket => placeBucket hash this bucket t) table
  pure { this with _buckets := table }

/-- The inner loop of `operator=` over the elements of `other._buckets[bucketIdx]`:
each round assigns the whole bucket and increments `_size`. -/
def assignBucketLoop (source : List (K × V)) (bucketIdx : Nat) :
    List (K × V) → Int × List (List (K × V)) → Except Err (Int × List (List (K × V)))
  | [], st => .ok st
  | _ :: rest, (sz, table) => do
    let sz ← checkedInt (sz + 1)
    assignBucketLoop source bucketIdx rest (sz, table.set bucketIdx source)

/-- The copy assignment `operator=` (`this` and `other` distinct objects). -/
def operator_assign (this other : HashMap K V) : Except Err (HashMap K V) := do
  let this := { this with _capacity := other._capacity }
  let table ← newTable this._capacity
  let source ← firstBuckets other._buckets this._capacity
  let st ← source.enum.foldlM
    (fun st ib => assignBucketLoop ib.2 ib.1 ib.2 st) (this._size, table)
  pure { this with _size := st.1, _buckets := st.2 }

/-- The scan of the const `operator==` over the elements of one bucket. -/
def allKeysIn (hash : K → Nat) (other : HashMap K V) : List (K × V) → Except Err Bool
  | [] => .ok true
  | element :: rest => do
    if !(← containsKey hash other element.1) then
      return false
    allKeysIn hash other rest

/-- The outer loop of the const `operator==`. -/
def allBucketsIn (hash : K → Nat) (other : HashMap K V) :
    List (List (K × V)) → Except Err Bool
  | [] => .ok true
  | bucket :: rest => do
    if !(← allKeysIn hash other bucket) then
      return false
    allBucketsIn hash other rest

/-- The const member `operator==`. -/
def operator_eq (hash : K → Nat) (this other : HashMap K V) : Except Err Bool := do
  if size other == this._size then
    let buckets ← firstBuckets this._buckets this._capacity
    allBucketsIn hash other buckets
  else
    return false

/-- The non-const `operator[]`: inserts `ValueT()` for an absent key. -/
def operator_index [Inhabited V] (hash : K → Nat) (m : HashMap K V) (key : K) :
    Except Err (ValueRef × HashMap K V) := do
  let present ← containsKey hash m key
  let m ← (if !present then (fun r => r.2) <$> insert hash m key default else pure m)
  let r ← refTo m (_getHashCode hash m key) (← _getInnerKeyIdx hash m key)
  pure (r, m)

/-- The const `operator[]`. -/
def operator_index_const (hash : K → Nat) (m : HashMap K V) (key : K) : Except Err V := do
  if (← containsKey hash m key) then
    let bucket ← indexAt m._buckets (_getHashCode hash m key)
    let pair ← indexAt bucket (← _getInnerKeyIdx hash m key)
    return pair.2
  else
    throw (.invalid_argument NONEXISTANT_KEY_ERR)

/-- The member `clear`. -/
def clear (m : HashMap K V) : Except Err (HashMap K V) := do
  let cleared ← firstBuckets m._buckets (capacity m)
  pure { m with
    _buckets := cleared.map (fun _ => []) ++ m._buckets.drop (capacity m).toNat
    _size := 0 }

/-- The member `getLoadFactor` compared with a bound: `getLoadFactor() <= f`. -/
def loadFactorAtMost (m : HashMap K V) (f : LoadFactor) : Bool :=
  if capacity m = 0 then decide (size m < 0)
  else if 0 < capacity m then decide (size m * f.den ≤ f.num * capacity m)
  else decide (f.num * capacity m ≤ size m * f.den)

/-- The member `getLoadFactor` compared with a bound: `getLoadFactor() >= f`. -/
def loadFactorAtLeast (m : HashMap K V) (f : LoadFactor) : Bool :=
  if capacity m = 0 then decide (0 < size m)
  else if 0 < capacity m then decide (f.num * capacity m ≤ size m * f.den)
  else decide (size m * f.den ≤ f.num * capacity m)

end Operations

/-! ## The nested class `hashMapIterator` -/

/-- A `std::vector<std::pair<KeyT, ValueT>>::iterator`: the position `pos` of the
vector `_bucketsPtr[bucket]`.  Two of them are equal when they are the same
position of the same vector. -/
structure VectorIt where
  bucket : Int
  pos : Nat
deriving DecidableEq, Repr

/-- The data members of `hashMapIterator`; `_bucketsPtr` is the bucket array the
pointer designates (the table is not modified while an iterator is in use). -/
structure hashMapIterator (K V : Type) where
  _bucketsPtr : List (List (K × V))
  _capacity : Int
  _bucketIdx : Int
  currBucketIt : VectorIt
deriving DecidableEq, Repr

section Iterator

variable {K V : Type} [DecidableEq K]

/-- The iterator `buckets[i].begin()`. -/
def vectorBegin (buckets : List (List (K × V))) (i : Int) : Except Err VectorIt := do
  let _ ← indexAt buckets i
  pure ⟨i, 0⟩

/-- The iterator `buckets[i].end()`. -/
def vectorEnd (buckets : List (List (K × V))) (i : Int) : Except Err VectorIt := do
  let bucket ← indexAt buckets i
  pure ⟨i, bucket.length⟩

/-- The increment `++currBucketIt` of an iterator that is not at the end of its
vector. -/
def vectorInc (buckets : List (List (K × V))) (cur : VectorIt) : Except Err VectorIt := do
  let bucket ← indexAt buckets cur.bucket
  if cur.pos < bucket.length then pure { cur with pos := cur.pos + 1 }
  else .error .undefined_behaviour

/-- The condition of the loop of `_updateCurrBucket`. -/
def updateCond (it : hashMapIterator K V) : Except Err Bool :=
  if it._bucketIdx < it._capacity - 1 then do
    let e ← vectorEnd it._bucketsPtr it._bucketIdx
    pure (it.currBucketIt == e)
  else pure false

/-- The loop of `_updateCurrBucket`, for at most `n` rounds. -/
def updateLoop : Nat → hashMapIterator K V → Except Err (hashMapIterator K V)
  | 0, it => do
    if (← updateCond it) then .error .nontermination else pure it
  | n + 1, it => do
    if (← updateCond it) then
      let b ← vectorBegin it._bucketsPtr (it._bucketIdx + 1)
      updateLoop n { it with _bucketIdx := it._bucketIdx + 1, currBucketIt := b }
    else pure it

/-- The member `_updateCurrBucket`: every round increments `_bucketIdx`, which
stays below `_capacity - 1`, so the loop makes at most `_capacity - 1 - _bucketIdx`
rounds. -/
def hashMapIterator._updateCurrBucket (it : hashMapIterator K V) :
    Except Err (hashMapIterator K V) :=
  updateLoop (it._capacity - 1 - it._bucketIdx).toNat it

/-- The constructor `hashMapIterator(bucketPtr, mapSize, bucketIdx)`. -/
def hashMapIterator_new (bucketPtr : List (List (K × V))) (mapSize : Int) (bucketIdx : Int) :
    Except Err (hashMapIterator K V) := do
  let first ← vectorBegin bucketPtr 0
  let cur ← (if bucketIdx = mapSize - 1 then vectorEnd bucketPtr (mapSize - 1) else pure first)
  hashMapIterator._updateCurrBucket
    { _bucketsPtr := bucketPtr, _capacity := mapSize, _bucketIdx := bucketIdx,
      currBucketIt := cur }

/-- The member `operator!=` of the iterator. -/
def hashMapIterator.operator_ne (it rhs : hashMapIterator K V) : Bool :=
  it.currBucketIt != rhs.currBucketIt

/-- The member `operator*` of the iterator. -/
def hashMapIterator.operator_deref (it : hashMapIterator K V) : Except Err (K × V) := do
  let bucket ← indexAt it._bucketsPtr it.currBucketIt.bucket
  indexAt bucket it.currBucketIt.pos

/-- The prefix `operator++` of the iterator. -/
def hashMapIterator.operator_inc (it : hashMapIterator K V) :
    Except Err (hashMapIterator K V) := do
  let cur ← (if it._bucketIdx = it._capacity then vectorEnd it._bucketsPtr (it._capacity - 1)
    else pure it.currBucketIt)
  let e ← vectorEnd it._bucketsPtr it._bucketIdx
  let cur ← (if cur != e then vectorInc it._bucketsPtr cur else pure cur)
  hashMapIterator._updateCurrBucket { it with currBucketIt := cur }

/-- The member `begin`. -/
def begin_ (m : HashMap K V) : Except Err (hashMapIterator K V) :=
  hashMapIterator_new m._buckets (capacity m) 0

/-- The member `end`. -/
def end_ (m : HashMap K V) : Except Err (hashMapIterator K V) :=
  hashMapIterator_new m._buckets (capacity m) (capacity m - 1)

/-- The loop `for (; it != last; ++it)` of a range-based `for` whose body turns a
state and the element `*it` into a new state (`Sum.inl`) or returns a value from
the enclosing function (`Sum.inr`). -/
def rangeForLoop {σ β : Type} (body : σ → K × V → Except Err (σ ⊕ β)) :
    Nat → hashMapIterator K V → hashMapIterator K V → σ → Except Err (σ ⊕ β)
  | 0, it, last, s =>
    if it.operator_ne last then .error .nontermination else .ok (.inl s)
  | fuel + 1, it, last, s =>
    if it.operator_ne last then do
      let element ← it.operator_deref
      match ← body s element with
      | .inl s =>
        let it ← it.operator_inc
        rangeForLoop body fuel it last s
      | .inr b => pure (.inr b)
    else .ok (.inl s)

/-- The statement `for (auto &element : m) body`, on `fuel` rounds. -/
def rangeFor {σ β : Type} (fuel : Nat) (m : HashMap K V)
    (body : σ → K × V → Except Err (σ ⊕ β)) (s : σ) : Except Err (σ ⊕ β) := do
  let first ← begin_ m
  let last ← end_ m
  rangeForLoop body fuel first last s

/-- The entries that `for (auto &element : m)` visits, in the order of the visit. -/
def iterate (fuel : Nat) (m : HashMap K V) : Except Err (List (K × V)) := do
  match ← rangeFor fuel m (fun (acc : List (K × V)) element =>
      (pure (.inl (acc ++ [element])) : Except Err (List (K × V) ⊕ Unit))) [] with
  | .inl acc => pure acc
  | .inr _ => pure []

/-- The non-const member `operator==`, which walks `*this` with the iterator. -/
def operator_eq_mut (fuel : Nat) (hash : K → Nat) (this other : HashMap K V) :
    Except Err Bool := do
  if size this == size other then
    match ← rangeFor fuel this (fun (_ : Unit) element => do
        if !(← containsKey hash other element.1) then
          return (.inr false : Unit ⊕ Bool)
        return .inl ()) () with
    | .inl _ => return true
    | .inr b => return b
  else
    return false

end Iterator

/-! ### The functions of `SpamDetector.cpp`

A `std::string` is the list of its characters, a file is the list of the lines
that `std::getline` reads from it, and the vectors `words` and `scores`, which
`readFileIntoVectors` receives by reference, are returned together with the
outcome of the call. -/

section Detector

def GENERAL_ERROR : String := "Invalid input"
def WORD_LINE_IDX : Int := 0
def SCORE_LINE_IDX : Int := 1
def LINE_LENGTH : Int := 2
def START_SCORE : Int := 0

/-- The function `lowerString`: `std::tolower` on every character. -/
def lowerString (convertedString : List Char) : List Char :=
  convertedString.map Char.toLower

/-- The `for` loop of `isNonNegNumber`. -/
def isNonNegNumberLoop : List Char → Bool
  | [] => true
  | c :: cs => if c < '0' ∨ c > '9' then false else isNonNegNumberLoop cs

/-- The function `isNonNegNumber`; `checkedString[0]` of the empty string is the
null character. -/
def isNonNegNumber (checkedString : List Char) : Bool :=
  if checkedString.headD (Char.ofNat 0) = '-' then false
  else isNonNegNumberLoop checkedString

/-- The loop `while (std::getline(stringStream, item, delimeter))` of
`splitString` on the characters left in the stream; `item` holds the characters
that the current call of `std::getline` has extracted. A call ends at the
delimiter, which it removes, or at the end of the stream; a call that finds the
stream at its end fails and ends the loop. -/
def getlineLoop (delimeter : Char) : List Char → List Char → List (List Char)
  | [], item => if item.length = 0 then [] else [item]
  | c :: cs, item =>
    if c = delimeter then item :: getlineLoop delimeter cs []
    else getlineLoop delimeter cs (item ++ [c])

/-- The function `splitString`. -/
def splitString (strToSplit : List Char) (delimeter : Char) : List (List Char) :=
  getlineLoop delimeter strToSplit []

/-- The function `validCommaAmount`. -/
def validCommaAmount (checkedString : List Char) : Bool :=
  ((checkedString.filter (fun strIdx => strIdx == ',')).length : Int) == LINE_LENGTH - 1

/-- The white space that `std::stoi` skips. -/
def isSpace (c : Char) : Bool :=
  c == ' ' || (9 ≤ c.toNat && c.toNat ≤ 13)

/-- The decimal digits. -/
def isDigit (c : Char) : Bool :=
  decide ('0' ≤ c) && decide (c ≤ '9')

/-- The number that a sequence of decimal digits denotes. -/
def decimalValue (digits : List Char) : Int :=
  digits.foldl (fun acc c => acc * 10 + ((c.toNat - '0'.toNat : Nat) : Int)) 0

/-- The optional sign that `std::stoi` reads in front of the digits: whether it is
a minus sign, and the characters after it. -/
def stoiSign : List Char → Bool × List Char
  | '-' :: r => (true, r)
  | '+' :: r => (false, r)
  | body => (false, body)

/-- The library function `std::stoi(str)`: white space, an optional sign and the
longest run of decimal digits; `std::invalid_argument` without a digit,
`std::out_of_range` for a value that is not an `int`. -/
def stoi (str : List Char) : Except Err Int :=
  let signed := stoiSign (str.dropWhile isSpace)
  let digits := signed.2.takeWhile isDigit
  if digits.length = 0 then .error (.invalid_argument "stoi")
  else
    let value := if signed.1 then - decimalValue digits else decimalValue digits
    if INT_MIN ≤ value ∧ value ≤ INT_MAX then .ok value else .error (.out_of_range "stoi")

/-- The body of the loop of `readFileIntoVectors` up to the two `push_back`
calls: the word and the score of `line`. -/
def readLine (line : List Char) : Except Err (List Char × Int) := do
  let lineSplit := splitString line ','
  let valid ← (if validCommaAmount line && ((lineSplit.length : Int) == LINE_LENGTH) then
    isNonNegNumber <$> indexAt lineSplit SCORE_LINE_IDX else pure false)
  if !valid then
    throw (.invalid_argument GENERAL_ERROR)
  let currWords := lowerString (← indexAt lineSplit WORD_LINE_IDX)
  let score ← stoi (← indexAt lineSplit SCORE_LINE_IDX)
  if score < 0 then
    throw (.invalid_argument GENERAL_ERROR)
  pure (currWords, score)

/-- The function `readFileIntoVectors` on the lines of the file: the vectors
`words` and `scores` at the end of the call, and the exception that ended it, if
any. -/
def readFileIntoVectors (words : List (List Char)) (scores : List Int) :
    List (List Char) → (List (List Char) × List Int) × Except Err Unit
  | [] => ((words, scores), .ok ())
  | line :: rest =>
    match readLine line with
    | .error e => ((words, scores), .error e)
    | .ok (currWords, score) =>
      readFileIntoVectors (words ++ [currWords]) (scores ++ [score]) rest

/-- The search of `std::string::find` from position `xpos` on, at which `s` is
the rest of the string. -/
def findFrom (str : List Char) : List Char → Nat → Option Nat
  | [], xpos => if str.length = 0 then some xpos else none
  | c :: cs, xpos =>
    if str.isPrefixOf (c :: cs) then some xpos else findFrom str cs (xpos + 1)

/-- The library function `s.find(str, pos)`; `none` is `std::string::npos`. -/
def find (s str : List Char) (pos : Nat) : Option Nat :=
  if pos ≤ s.length then findFrom str (s.drop pos) pos else none

/-- The loop `while (start != end)` of `isSpam`, on `fuel` rounds. -/
def countLoop (line word : List Char) : Nat → Option Nat → Int → Except Err Int
  | _, none, timesFound => .ok timesFound
  | 0, some _, _ => .error .nontermination
  | fuel + 1, some start, timesFound => do
    let timesFound ← checkedInt (timesFound + 1)
    countLoop line word fuel (find line word (start + word.length)) timesFound

/-- The body of the loop `for (const auto &pair : scoreMap)` of `isSpam`. -/
def scoreStep (fuel : Nat) (line : List Char) (message_score : Int) (pair : List Char × Int) :
    Except Err (Int ⊕ Empty) := do
  let timesFound ← countLoop line pair.1 fuel (find line pair.1 0) 0
  let product ← checkedInt (timesFound * pair.2)
  let message_score ← checkedInt (message_score + product)
  pure (.inl message_score)

/-- The function `isSpam` on the lines of the message; every loop runs for at
most `fuel` rounds. -/
def isSpam (fuel : Nat) (scoreMap : HashMap (List Char) Int) (message : List (List Char))
    (threshold : Int) : Except Err Bool := do
  let message_score ← message.foldlM (fun message_score line => do
    let line := lowerString line
    match ← rangeFor fuel scoreMap (scoreStep fuel line) message_score with
    | .inl message_score => pure message_score
    | .inr e => nomatch e) START_SCORE
  pure (decide (message_score ≥ threshold))

/-- The text of a line in front of its first comma. -/
def beforeComma (line : List Char) : List Char :=
  line.takeWhile (fun c => c != ',')

/-- The text of a line after its first comma. -/
def afterComma (line : List Char) : List Char :=
  (line.dropWhile (fun c => c != ',')).drop 1

/-- A non-empty sequence of decimal digits. -/
def isDecimal (text : List Char) : Bool :=
  decide (0 < text.length) && text.all isDigit

end Detector

section Invariants

variable {K V : Type} [DecidableEq K]

/-- All the entries of the table, bucket after bucket. -/
def entries (m : HashMap K V) : List (K × V) := m._buckets.flatten

/-- The keys of all the entries of the table. -/
def keys (m : HashMap K V) : List K := (entries m).map Prod.fst

/-- Every pair stored in `table[i]` has hash code `i` under the capacity of `m`. -/
def Placed (hash : K → Nat) (m : HashMap K V) (table : List (List (K × V))) : Prop :=
  ∀ ib ∈ table.enum, ∀ p ∈ ib.2, _getHashCode hash m p.1 = (ib.1 : Int)

instance (hash : K → Nat) (m : HashMap K V) (table : List (List (K × V))) :
    Decidable (Placed hash m table) := by
  unfold Placed
  infer_instance

/-- The invariants of the data model that the operations rely on: the counters
are `int` values, there are exactly `capacity` buckets and at least one, `size`
is the number of stored entries, every entry sits in the bucket of its hash
code, no key occurs twice, and the load factors are the two constants. -/
structure Invariants (hash : K → Nat) (m : HashMap K V) : Prop where
  size_range : m._size ≤ INT_MAX
  capacity_pos : 1 ≤ m._capacity
  capacity_range : m._capacity ≤ INT_MAX
  buckets_length : (m._buckets.length : Int) = m._capacity
  size_eq : m._size = ((entries m).length : Int)
  placed : Placed hash m m._buckets
  unique : (keys m).Nodup
  upper : m._upperLoadFactor = DEFAULT_UPPER_LOAD_FACTOR
  lower : m._lowerLoadFactor = DEFAULT_LOWER_LOAD_FACTOR

instance (hash : K → Nat) (m : HashMap K V) : Decidable (Invariants hash m) :=
  decidable_of_iff
    (m._size ≤ INT_MAX ∧ 1 ≤ m._capacity ∧ m._capacity ≤ INT_MAX ∧
      (m._buckets.length : Int) = m._capacity ∧ m._size = ((entries m).length : Int) ∧
      Placed hash m m._buckets ∧ (keys m).Nodup ∧
      m._upperLoadFactor = DEFAULT_UPPER_LOAD_FACTOR ∧
      m._lowerLoadFactor = DEFAULT_LOWER_LOAD_FACTOR)
    ⟨fun ⟨a, b, c, d, e, f, g, h, i⟩ => ⟨a, b, c, d, e, f, g, h, i⟩,
     fun w => ⟨w.size_range, w.capacity_pos, w.capacity_range, w.buckets_length, w.size_eq,
       w.placed, w.unique, w.upper, w.lower⟩⟩

/-- The iterator `it` over the bucket array `bs` stands at a stored pair or at the
end of the last bucket, and `rest` are the pairs from its position on, bucket
after bucket. -/
def IterAt (bs : List (List (K × V))) (it : hashMapIterator K V) (rest : List (K × V)) :
    Prop :=
  it._bucketsPtr = bs ∧ it._capacity = (bs.length : Int) ∧
    ∃ (idx pos : Nat) (b : List (K × V)), it._bucketIdx = (idx : Int) ∧
      it.currBucketIt = ⟨(idx : Int), pos⟩ ∧ bs[idx]? = some b ∧ pos ≤ b.length ∧
      (pos < b.length ∨ idx + 1 = bs.length) ∧
      rest = b.drop pos ++ (bs.drop (idx + 1)).flatten

/-- The loop of a range-based `for` run over a list of elements. -/
def foldSteps {σ β : Type} (body : σ → K × V → Except Err (σ ⊕ β)) :
    List (K × V) → σ → Except Err (σ ⊕ β)
  | [], s => .ok (.inl s)
  | p :: ps, s => do
    match ← body s p with
    | .inl s => foldSteps body ps s
    | .inr b => pure (.inr b)

/-- The tables built from a default-constructed table by calls of `insert` and
`erase` that return. -/
inductive Reachable (hash : K → Nat) : HashMap K V → Prop where
  | default : Reachable hash HashMap_default
  | insert (m m' : HashMap K V) (k : K) (v : V) (b : Bool) :
      Reachable hash m → insert hash m k v = .ok (b, m') → Reachable hash m'
  | erase (m m' : HashMap K V) (k : K) (b : Bool) :
      Reachable hash m → erase hash m k = .ok (b, m') → Reachable hash m'

/-- The tables built from a default-constructed table by calls of `insert`,
`erase` and the non-const `operator[]` that return. -/
inductive Built [Inhabited V] (hash : K → Nat) : HashMap K V → Prop where
  | default : Built hash HashMap_default
  | insert (m m' : HashMap K V) (k : K) (v : V) (b : Bool) :
      Built hash m → insert hash m k v = .ok (b, m') → Built hash m'
  | erase (m m' : HashMap K V) (k : K) (b : Bool) :
      Built hash m → erase hash m k = .ok (b, m') → Built hash m'
  | index (m m' : HashMap K V) (k : K) (r : ValueRef) :
      Built hash m → operator_index hash m k = .ok (r, m') → Built hash m'

/-- Size bookkeeping: there are exactly `capacity()` buckets and `size()` is the
sum of their lengths. -/
def SizeBookkeeping (m : HashMap K V) : Prop :=
  (m._buckets.length : Int) = capacity m ∧
    size m = (((m._buckets.map List.length).sum : Nat) : Int)

instance (m : HashMap K V) : Decidable (SizeBookkeeping m) := by
  unfold SizeBookkeeping
  infer_instance

/-- The calls `insert(k, v)` for the pairs of a list, one after another. -/
def insertAll (hash : K → Nat) (kvs : List (K × V)) (m : HashMap K V) :
    Except Err (HashMap K V) :=
  kvs.foldlM (fun m kv => (fun r => r.2) <$> insert hash m kv.1 kv.2) m

/-- The capacity `c` is a power of two. -/
def IsPow2 (c : Int) : Prop := ∃ n : Nat, c = 2 ^ n

/-- What holds of a table built by `insert` and `erase` as long as the last entry
has not been erased: the invariants hold, the capacity is a power of two and at
least 2, and the load factor is at most 0.75. -/
def Alive (hash : K → Nat) (m : HashMap K V) : Prop :=
  Invariants hash m ∧ IsPow2 m._capacity ∧ 2 ≤ m._capacity ∧
    m._size * 4 ≤ 3 * m._capacity

/-- The table that the erase of the last entry leaves: capacity 0, no bucket. -/
def Dead (m : HashMap K V) : Prop :=
  m._size = 0 ∧ m._capacity = 0 ∧ m._buckets = []

/-- The result is not the exception `std::invalid_argument`. -/
def NoInvalid {α : Type} (r : Except Err α) : Prop :=
  ∀ what, r ≠ .error (.invalid_argument what)

/-- The capacity after `n` inserts of distinct keys, `n ≥ 1`: a power of two that
is at least 4, at which the load factor is at most 0.75, and which is 4 or has a
half at which the load factor is above 0.75. -/
def CapacityState (hash : K → Nat) (m : HashMap K V) : Prop :=
  Invariants hash m ∧ IsPow2 m._capacity ∧ 4 ≤ m._capacity ∧ 1 ≤ m._size ∧
    m._size * 4 ≤ 3 * m._capacity ∧ (m._capacity = 4 ∨ 3 * m._capacity < m._size * 8)

end Invariants

deriving instance DecidableEq for Except

/-! ## Auxiliary facts -/

section Lemmas

variable {K V : Type} [DecidableEq K]

theorem checkedInt_ok {x : Int} (h1 : INT_MIN ≤ x) (h2 : x ≤ INT_MAX) :
    checkedInt x = .ok x := by
  simp [checkedInt, h1, h2]

theorem toInt32_of_lt {n : Nat} (h : n < 2147483648) : toInt32 n = (n : Int) := by
  have h1 : n % 4294967296 = n := Nat.mod_eq_of_lt (by omega)
  simp [toInt32, h1, h]

theorem getHashCode_range (hash : K → Nat) (m : HashMap K V) (key : K)
    (h1 : 1 ≤ m._capacity) (h2 : m._capacity ≤ INT_MAX) :
    0 ≤ _getHashCode hash m key ∧ _getHashCode hash m key < m._capacity := by
  unfold _getHashCode capacity
  have hmask : ((m._capacity - 1) % 18446744073709551616).toNat = (m._capacity - 1).toNat := by
    unfold INT_MAX at h2
    rw [Int.emod_eq_of_lt (by omega) (by omega)]
  rw [hmask]
  have hle : (hash key % 18446744073709551616) &&& (m._capacity - 1).toNat
      ≤ (m._capacity - 1).toNat := Nat.and_le_right
  unfold INT_MAX at h2
  rw [toInt32_of_lt (by omega)]
  omega

theorem getHashCode_congr (hash : K → Nat) {m m' : HashMap K V} (key : K)
    (h : m._capacity = m'._capacity) : _getHashCode hash m key = _getHashCode hash m' key := by
  simp [_getHashCode, capacity, h]

theorem indexAt_ok {α : Type} (xs : List α) (i : Nat) (x : α) (h : xs[i]? = some x) :
    indexAt xs (i : Int) = .ok x := by
  simp [indexAt, h]

theorem indexAt_eq_ok {α : Type} {xs : List α} {i : Int} {x : α} (h : indexAt xs i = .ok x) :
    0 ≤ i ∧ xs[i.toNat]? = some x := by
  unfold indexAt at h
  split at h
  · rename_i hi
    split at h
    · rename_i y hy
      cases h
      exact ⟨hi, hy⟩
    · cases h
  · cases h

theorem placed_iff (hash : K → Nat) (m : HashMap K V) (table : List (List (K × V))) :
    Placed hash m table ↔
      ∀ (i : Nat) (b : List (K × V)), table[i]? = some b →
        ∀ p ∈ b, _getHashCode hash m p.1 = (i : Int) := by
  unfold Placed
  constructor
  · intro h i b hb p hp
    exact h (i, b) (List.mk_mem_enum_iff_getElem?.mpr hb) p hp
  · intro h ib hib p hp
    exact h ib.1 ib.2 (List.mem_enum_iff_getElem?.mp hib) p hp

theorem flatten_set_perm {α : Type} (t : List (List α)) (i : Nat) (b : List α) (p : α)
    (h : t[i]? = some b) : (t.set i (b ++ [p])).flatten.Perm (p :: t.flatten) := by
  induction t generalizing i with
  | nil => simp at h
  | cons c cs ih =>
    cases i with
    | zero =>
      simp at h
      subst h
      simp only [List.set_cons_zero, List.flatten_cons]
      rw [List.append_assoc]
      exact (List.perm_middle).trans (List.Perm.refl _) |>.trans (by simp)
    | succ j =>
      simp at h
      simp only [List.set_cons_succ, List.flatten_cons]
      exact ((ih j h).append_left c).trans List.perm_middle

theorem pushBackAt_ok {α : Type} (t : List (List α)) (i : Nat) (b : List α) (p : α)
    (h : t[i]? = some b) : pushBackAt t (i : Int) p = .ok (t.set i (b ++ [p])) := by
  simp [pushBackAt, indexAt_ok t i b h, bind, Except.bind, pure, Except.pure]

/-- Pushing a pair into the bucket of its hash code keeps the table placed. -/
theorem placed_set (hash : K → Nat) (m : HashMap K V) (t : List (List (K × V))) (i : Nat)
    (b : List (K × V)) (p : K × V) (hb : t[i]? = some b) (hp : _getHashCode hash m p.1 = (i : Int))
    (hpl : Placed hash m t) : Placed hash m (t.set i (b ++ [p])) := by
  rw [placed_iff] at hpl ⊢
  intro j b' hb' q hq
  by_cases hij : i = j
  · subst hij
    have hlt : i < t.length := by
      rcases List.getElem?_eq_some_iff.mp hb with ⟨h, _⟩
      exact h
    rw [List.getElem?_set_self hlt] at hb'
    cases hb'
    rcases List.mem_append.mp hq with hq | hq
    · exact hpl i b hb q hq
    · simp at hq
      subst hq
      exact hp
  · rw [List.getElem?_set_ne hij] at hb'
    exact hpl j b' hb' q hq

theorem placeBucket_spec (hash : K → Nat) (m : HashMap K V) (h1 : 1 ≤ m._capacity)
    (h2 : m._capacity ≤ INT_MAX) (bucket : List (K × V)) :
    ∀ t : List (List (K × V)), (t.length : Int) = m._capacity → Placed hash m t →
      ∃ t', placeBucket hash m bucket t = .ok t' ∧ t'.length = t.length ∧
        t'.flatten.Perm (t.flatten ++ bucket) ∧ Placed hash m t' := by
  induction bucket with
  | nil =>
    intro t _ hpl
    exact ⟨t, rfl, rfl, by simp, hpl⟩
  | cons p rest ih =>
    intro t hlen hpl
    obtain ⟨hr1, hr2⟩ := getHashCode_range hash m p.1 h1 h2
    obtain ⟨i, hi⟩ : ∃ i : Nat, _getHashCode hash m p.1 = (i : Int) :=
      ⟨(_getHashCode hash m p.1).toNat, by omega⟩
    have hlt : i < t.length := by omega
    have hb : t[i]? = some t[i] := List.getElem?_eq_getElem hlt
    have hpush := pushBackAt_ok t i t[i] p hb
    obtain ⟨t', e1, e2, e3, e4⟩ := ih (t.set i (t[i] ++ [p])) (by simpa using hlen)
      (placed_set hash m t i t[i] p hb hi hpl)
    refine ⟨t', ?_, ?_, ?_, e4⟩
    · unfold placeBucket at e1 ⊢
      rw [List.foldlM_cons, hi, hpush]
      exact e1
    · simpa using e2
    · refine e3.trans ?_
      refine ((flatten_set_perm t i t[i] p hb).append_right rest).trans ?_
      simpa using (List.perm_middle :
        (t.flatten ++ p :: rest).Perm (p :: (t.flatten ++ rest))).symm

theorem placeBuckets_spec (hash : K → Nat) (m : HashMap K V) (h1 : 1 ≤ m._capacity)
    (h2 : m._capacity ≤ INT_MAX) (bs : List (List (K × V))) :
    ∀ t : List (List (K × V)), (t.length : Int) = m._capacity → Placed hash m t →
      ∃ t', bs.foldlM (fun t bucket => placeBucket hash m bucket t) t = .ok t' ∧
        t'.length = t.length ∧ t'.flatten.Perm (t.flatten ++ bs.flatten) ∧ Placed hash m t' := by
  induction bs with
  | nil =>
    intro t _ hpl
    exact ⟨t, rfl, rfl, by simp, hpl⟩
  | cons b rest ih =>
    intro t hlen hpl
    obtain ⟨t1, a1, a2, a3, a4⟩ := placeBucket_spec hash m h1 h2 b t hlen hpl
    obtain ⟨t', e1, e2, e3, e4⟩ := ih t1 (by rw [a2]; exact hlen) a4
    refine ⟨t', ?_, by rw [e2, a2], ?_, e4⟩
    · rw [List.foldlM_cons, a1]
      exact e1
    · refine e3.trans ?_
      simpa [List.append_assoc] using a3.append_right rest.flatten

theorem placed_replicate (hash : K → Nat) (m : HashMap K V) (n : Nat) :
    Placed hash m (List.replicate n ([] : List (K × V))) := by
  rw [placed_iff]
  intro i b hb p hp
  rw [List.getElem?_replicate] at hb
  split at hb
  · cases hb
    simp at hp
  · cases hb

theorem placed_congr (hash : K → Nat) {m m' : HashMap K V} (t : List (List (K × V)))
    (h : m._capacity = m'._capacity) (hpl : Placed hash m t) : Placed hash m' t := by
  rw [placed_iff] at hpl ⊢
  intro i b hb p hp
  rw [← getHashCode_congr hash p.1 h]
  exact hpl i b hb p hp

/-- A rehash to a capacity between 1 and `INT_MAX` succeeds, keeps the entries
up to their order and places every entry in the bucket of its hash code. -/
theorem rehash_spec (hash : K → Nat) (m : HashMap K V) (prev : Int)
    (h1 : 1 ≤ m._capacity) (h2 : m._capacity ≤ INT_MAX)
    (hlen : (m._buckets.length : Int) = prev) :
    ∃ t, _rehash hash m prev = .ok { m with _buckets := t } ∧
      (t.length : Int) = m._capacity ∧ t.flatten.Perm m._buckets.flatten ∧
      Placed hash m t := by
  have hnew : (newTable m._capacity : Except Err (List (List (K × V))))
      = .ok (List.replicate m._capacity.toNat []) := by
    simp [newTable]; omega
  have hold : firstBuckets m._buckets prev = .ok m._buckets := by
    simp [firstBuckets, ← hlen]
  obtain ⟨t, e1, e2, e3, e4⟩ := placeBuckets_spec hash m h1 h2 m._buckets
    (List.replicate m._capacity.toNat []) (by simp; omega) (placed_replicate hash m _)
  refine ⟨t, ?_, ?_, ?_, e4⟩
  · simp only [_rehash, hnew, hold, bind, Except.bind, pure, Except.pure]
    rw [e1]
  · rw [e2]; simp; omega
  · simpa using e3

theorem upsizeLoop_ok (sz : Int) (hs : sz ≤ 536870912) :
    ∀ (fuel k : Nat) (c : Int), 1 ≤ c → c ≤ INT_MAX → (2 : Int) ^ k ≤ c → 32 ≤ k + fuel →
      ∃ c', upsizeLoop fuel sz c DEFAULT_UPPER_LOAD_FACTOR = .ok c' ∧ 1 ≤ c' ∧ c' ≤ INT_MAX := by
  intro fuel
  induction fuel with
  | zero =>
    intro k c _ h2 h3 h4
    exfalso
    have : (2 : Int) ^ 32 ≤ 2 ^ k := pow_le_pow_right₀ (by norm_num) (by omega)
    unfold INT_MAX at h2
    norm_num at this
    omega
  | succ n ih =>
    intro k c h1 h2 h3 h4
    unfold upsizeLoop
    by_cases hc : ratioGt sz c DEFAULT_UPPER_LOAD_FACTOR = true
    · rw [if_pos hc]
      have hlt : 3 * c < sz * 4 := by
        have hne : c ≠ 0 := by omega
        have hpos : 0 < c := by omega
        simpa [ratioGt, hne, hpos, DEFAULT_UPPER_LOAD_FACTOR] using hc
      have hck : checkedInt (c * RESIZE_FACTOR) = .ok (c * 2) := by
        unfold RESIZE_FACTOR
        apply checkedInt_ok <;> unfold INT_MIN INT_MAX at * <;> omega
      simp only [hck, bind, Except.bind]
      apply ih (k + 1) (c * 2) (by omega) (by unfold INT_MAX; omega)
      · rw [pow_succ]; omega
      · omega
    · rw [if_neg hc]
      exact ⟨c, rfl, h1, h2⟩

theorem downsizeLoop_ok (sz : Int) (hs : 1 ≤ sz) :
    ∀ (fuel k : Nat) (c : Int), 1 ≤ c → c < (2 : Int) ^ k → k ≤ fuel →
      ∃ c', downsizeLoop fuel sz c DEFAULT_LOWER_LOAD_FACTOR = .ok c' ∧ 1 ≤ c' ∧ c' ≤ c := by
  intro fuel
  induction fuel with
  | zero =>
    intro k c h1 h2 h3
    exfalso
    have hk : k = 0 := by omega
    subst hk
    norm_num at h2
    omega
  | succ n ih =>
    intro k c h1 h2 h3
    unfold downsizeLoop
    by_cases hc : ratioLt sz c DEFAULT_LOWER_LOAD_FACTOR = true
    · rw [if_pos hc]
      have hlt : sz * 4 < c := by
        have hne : c ≠ 0 := by omega
        have hpos : 0 < c := by omega
        simpa [ratioLt, hne, hpos, DEFAULT_LOWER_LOAD_FACTOR] using hc
      have hdiv : Int.tdiv c RESIZE_FACTOR = c / 2 := by
        unfold RESIZE_FACTOR
        exact Int.tdiv_eq_ediv (by omega) (by norm_num)
      rw [hdiv]
      cases k with
      | zero => norm_num at h2; omega
      | succ k' =>
        rw [pow_succ] at h2
        obtain ⟨c', e1, e2, e3⟩ := ih k' (c / 2) (by omega) (by omega) (by omega)
        exact ⟨c', e1, e2, by omega⟩
    · rw [if_neg hc]
      exact ⟨c, rfl, h1, le_refl c⟩

/-- A resize of a non-empty table of fewer than `2 ^ 29` entries succeeds and
keeps the invariants, the entries (up to order) and the size. -/
theorem resize_spec (hash : K → Nat) (m : HashMap K V) (hwf : Invariants hash m)
    (hs1 : 1 ≤ m._size) (hs2 : m._size ≤ 536870912) (upsize : Bool) :
    ∃ m', _resize hash m upsize = .ok m' ∧ Invariants hash m' ∧
      (entries m').Perm (entries m) ∧ m'._size = m._size := by
  have hloop : ∃ c',
      (if upsize then upsizeLoop LOOP_FUEL (size m) (capacity m) m._upperLoadFactor
        else downsizeLoop LOOP_FUEL (size m) (capacity m) m._lowerLoadFactor) = .ok c' ∧
      1 ≤ c' ∧ c' ≤ INT_MAX := by
    cases upsize with
    | true =>
      simp only [if_true, size, capacity, hwf.upper]
      exact upsizeLoop_ok m._size hs2 LOOP_FUEL 0 m._capacity hwf.capacity_pos
        hwf.capacity_range (by simpa using hwf.capacity_pos) (by unfold LOOP_FUEL; omega)
    | false =>
      simp only [size, capacity, hwf.lower]
      obtain ⟨c', e1, e2, e3⟩ := downsizeLoop_ok m._size hs1 LOOP_FUEL 31 m._capacity
        hwf.capacity_pos (by have := hwf.capacity_range; unfold INT_MAX at this; norm_num; omega)
        (by unfold LOOP_FUEL; omega)
      exact ⟨c', by simpa using e1, e2, le_trans e3 hwf.capacity_range⟩
  obtain ⟨c', hc, hc1, hc2⟩ := hloop
  obtain ⟨t, e1, e2, e3, e4⟩ := rehash_spec hash { m with _capacity := c' } m._capacity
    hc1 hc2 hwf.buckets_length
  refine ⟨{ m with _capacity := c', _buckets := t }, ?_, ?_, e3, rfl⟩
  · simp only [_resize, hc, bind, Except.bind]
    exact e1
  · refine ⟨hwf.size_range, hc1, hc2, e2, ?_, placed_congr hash t rfl e4, ?_, hwf.upper, hwf.lower⟩
    · show m._size = ((t.flatten).length : Int)
      rw [e3.length_eq]
      exact hwf.size_eq
    · show (t.flatten.map Prod.fst).Nodup
      exact ((e3.map Prod.fst).nodup_iff).mpr hwf.unique

theorem checkResize_spec (hash : K → Nat) (m : HashMap K V) (hwf : Invariants hash m)
    (hs1 : 1 ≤ m._size) (hs2 : m._size ≤ 536870912) :
    ∃ m', _checkResize hash m = .ok m' ∧ Invariants hash m' ∧
      (entries m').Perm (entries m) ∧ m'._size = m._size := by
  have hfirst : ∃ m1, (if ratioGt (size m) (capacity m) m._upperLoadFactor = true
        then _resize hash m true else pure m) = Except.ok m1 ∧ Invariants hash m1 ∧
      (entries m1).Perm (entries m) ∧ m1._size = m._size := by
    split
    · exact resize_spec hash m hwf hs1 hs2 true
    · exact ⟨m, rfl, hwf, List.Perm.refl _, rfl⟩
  obtain ⟨m1, a1, a2, a3, a4⟩ := hfirst
  have hsecond : ∃ m2, (if ratioLt (size m1) (capacity m1) m1._lowerLoadFactor = true
        then _resize hash m1 false else pure m1) = Except.ok m2 ∧ Invariants hash m2 ∧
      (entries m2).Perm (entries m1) ∧ m2._size = m1._size := by
    split
    · exact resize_spec hash m1 a2 (by omega) (by omega) false
    · exact ⟨m1, rfl, a2, List.Perm.refl _, rfl⟩
  obtain ⟨m2, b1, b2, b3, b4⟩ := hsecond
  refine ⟨m2, ?_, b2, b3.trans a3, by omega⟩
  simp only [_checkResize, a1, bind, Except.bind]
  exact b1

theorem innerKeyIdxLoop_absent (key : K) (l : List (K × V)) :
    ∀ n : Nat, key ∉ l.map Prod.fst → innerKeyIdxLoop key l n = ERROR_CODE := by
  induction l with
  | nil => intro n _; rfl
  | cons p rest ih =>
    intro n h
    simp only [List.map_cons, List.mem_cons, not_or] at h
    unfold innerKeyIdxLoop
    rw [if_neg (fun e => h.1 e.symm)]
    exact ih (n + 1) h.2

theorem innerKeyIdxLoop_present (key : K) (l : List (K × V)) :
    ∀ n : Nat, key ∈ l.map Prod.fst → n + l.length ≤ 2147483648 →
      ∃ (j : Nat) (v : V), l[j]? = some (key, v) ∧
        innerKeyIdxLoop key l n = ((n + j : Nat) : Int) := by
  induction l with
  | nil => intro n h; simp at h
  | cons p rest ih =>
    intro n h hlen
    unfold innerKeyIdxLoop
    by_cases hp : p.1 = key
    · rw [if_pos hp]
      refine ⟨0, p.2, ?_, ?_⟩
      · simp [← hp]
      · simp only [List.length_cons] at hlen
        rw [toInt32_of_lt (by omega)]
        simp
    · rw [if_neg hp]
      have h' : key ∈ rest.map Prod.fst := by
        simp only [List.map_cons, List.mem_cons] at h
        rcases h with h | h
        · exact absurd h.symm hp
        · exact h
      simp only [List.length_cons] at hlen
      obtain ⟨j, v, e1, e2⟩ := ih (n + 1) h' (by omega)
      refine ⟨j + 1, v, by simpa using e1, ?_⟩
      rw [e2]
      congr 1
      omega

theorem value_unique (l : List (K × V)) (hnd : (l.map Prod.fst).Nodup) (k : K) (v v' : V)
    (h : (k, v) ∈ l) (h' : (k, v') ∈ l) : v = v' := by
  have := List.inj_on_of_nodup_map hnd h h' rfl
  exact (Prod.mk.inj this).2

/-- The bucket that the hash code of `k` selects holds every entry of key `k`. -/
theorem bucket_view (hash : K → Nat) (m : HashMap K V) (hwf : Invariants hash m) (k : K) :
    ∃ (i : Nat) (b : List (K × V)), _getHashCode hash m k = (i : Int) ∧
      m._buckets[i]? = some b ∧ b.length ≤ 2147483647 ∧ (b.map Prod.fst).Nodup ∧
      ∀ v, (k, v) ∈ entries m ↔ (k, v) ∈ b := by
  obtain ⟨hr1, hr2⟩ := getHashCode_range hash m k hwf.capacity_pos hwf.capacity_range
  obtain ⟨i, hi⟩ : ∃ i : Nat, _getHashCode hash m k = (i : Int) :=
    ⟨(_getHashCode hash m k).toNat, by omega⟩
  have hlt : i < m._buckets.length := by
    have := hwf.buckets_length
    omega
  have hb : m._buckets[i]? = some m._buckets[i] := List.getElem?_eq_getElem hlt
  have hsub : m._buckets[i].Sublist (entries m) :=
    List.sublist_flatten_of_mem (List.getElem?_mem hb)
  refine ⟨i, m._buckets[i], hi, hb, ?_, ?_, ?_⟩
  · have h1 := hsub.length_le
    have h2 := hwf.size_eq
    have h3 := hwf.size_range
    unfold INT_MAX at h3
    omega
  · exact (hsub.map Prod.fst).nodup hwf.unique
  · intro v
    constructor
    · intro hv
      obtain ⟨b', hb', hv'⟩ := List.mem_flatten.mp hv
      obtain ⟨j, hj⟩ := List.mem_iff_getElem?.mp hb'
      have hpl := (placed_iff hash m m._buckets).mp hwf.placed j b' hj (k, v) hv'
      have hij : j = i := by
        simp only at hpl
        omega
      subst hij
      rw [hb] at hj
      cases hj
      exact hv'
    · intro hv
      exact hsub.subset hv

theorem getInnerKeyIdx_view (hash : K → Nat) (m : HashMap K V) (k : K) (i : Nat)
    (b : List (K × V)) (hi : _getHashCode hash m k = (i : Int)) (hb : m._buckets[i]? = some b) :
    _getInnerKeyIdx hash m k = .ok (innerKeyIdxLoop k b 0) := by
  simp [_getInnerKeyIdx, hi, indexAt_ok _ i b hb, bind, Except.bind, pure, Except.pure]

/-- Under the invariants `containsKey` decides membership in the key set. -/
theorem containsKey_spec (hash : K → Nat) (m : HashMap K V) (hwf : Invariants hash m) (k : K) :
    containsKey hash m k = .ok (decide (k ∈ keys m)) := by
  obtain ⟨i, b, hi, hb, hlen, _, hmem⟩ := bucket_view hash m hwf k
  have hkeys : k ∈ keys m ↔ k ∈ b.map Prod.fst := by
    unfold keys
    simp only [List.mem_map, Prod.exists, exists_and_right, exists_eq_right]
    exact exists_congr hmem
  simp only [containsKey, getInnerKeyIdx_view hash m k i b hi hb, bind, Except.bind, pure,
    Except.pure]
  by_cases hk : k ∈ b.map Prod.fst
  · obtain ⟨j, v, _, e2⟩ := innerKeyIdxLoop_present k b 0 hk (by omega)
    rw [e2]
    have : decide (k ∈ keys m) = true := by simpa using hkeys.mpr hk
    rw [this]
    rfl
  · rw [innerKeyIdxLoop_absent k b 0 hk]
    have : decide (k ∈ keys m) = false := by simpa using fun h => hk (hkeys.mp h)
    rw [this]
    simp

/-- Under the invariants the position that `_getInnerKeyIdx` finds for a stored
entry `(k, v)` is a position of that entry in the bucket of `k`. -/
theorem lookup_view (hash : K → Nat) (m : HashMap K V) (hwf : Invariants hash m) (k : K) (v : V)
    (hv : (k, v) ∈ entries m) :
    ∃ (i j : Nat) (b : List (K × V)), _getHashCode hash m k = (i : Int) ∧
      m._buckets[i]? = some b ∧ _getInnerKeyIdx hash m k = .ok (j : Int) ∧
      b[j]? = some (k, v) := by
  obtain ⟨i, b, hi, hb, hlen, hnd, hmem⟩ := bucket_view hash m hwf k
  have hvb : (k, v) ∈ b := (hmem v).mp hv
  have hk : k ∈ b.map Prod.fst := List.mem_map.mpr ⟨(k, v), hvb, rfl⟩
  obtain ⟨j, v', e1, e2⟩ := innerKeyIdxLoop_present k b 0 hk (by omega)
  have hvv : v' = v := value_unique b hnd k v' v (List.getElem?_mem e1) hvb
  subst hvv
  refine ⟨i, j, b, hi, hb, ?_, e1⟩
  rw [getInnerKeyIdx_view hash m k i b hi hb, e2]
  simp

theorem at_const_spec (hash : K → Nat) (m : HashMap K V) (hwf : Invariants hash m) (k : K)
    (v : V) (hv : (k, v) ∈ entries m) : at_const hash m k = .ok v := by
  obtain ⟨i, j, b, hi, hb, hj, hbj⟩ := lookup_view hash m hwf k v hv
  have hk : k ∈ keys m := List.mem_map.mpr ⟨(k, v), hv, rfl⟩
  simp [at_const, containsKey_spec hash m hwf k, hk, hi, hj, indexAt_ok _ i b hb,
    indexAt_ok _ j (k, v) hbj, bind, Except.bind, pure, Except.pure]

theorem at_mut_spec (hash : K → Nat) (m : HashMap K V) (hwf : Invariants hash m) (k : K)
    (v : V) (hv : (k, v) ∈ entries m) :
    ∃ r, at_mut hash m k = .ok r ∧ readRef m r = .ok v := by
  obtain ⟨i, j, b, hi, hb, hj, hbj⟩ := lookup_view hash m hwf k v hv
  have hk : k ∈ keys m := List.mem_map.mpr ⟨(k, v), hv, rfl⟩
  refine ⟨⟨i, j⟩, ?_, ?_⟩
  · simp [at_mut, refTo, containsKey_spec hash m hwf k, hk, hi, hj, indexAt_ok _ i b hb,
      indexAt_ok _ j (k, v) hbj, bind, Except.bind, pure, Except.pure]
  · simp [readRef, indexAt_ok _ i b hb, indexAt_ok _ j (k, v) hbj, bind, Except.bind, pure,
      Except.pure]

theorem invariants_default (hash : K → Nat) : Invariants hash (HashMap_default : HashMap K V) := by
  refine ⟨?_, ?_, ?_, ?_, ?_, ?_, ?_, rfl, rfl⟩
  · simp [HashMap_default, ELEMENT_NUMBER, INT_MAX]
  · simp [HashMap_default, START_CAPACITY]
  · simp [HashMap_default, START_CAPACITY, INT_MAX]
  · simp [HashMap_default, START_CAPACITY]
  · simp [entries, HashMap_default, START_CAPACITY, ELEMENT_NUMBER]
  · exact placed_replicate hash _ _
  · simp [keys, entries, HashMap_default, START_CAPACITY]

theorem entries_default : entries (HashMap_default : HashMap K V) = [] := by
  simp [entries, HashMap_default, START_CAPACITY]

theorem absent_of_containsKey (hash : K → Nat) (m : HashMap K V) (hwf : Invariants hash m)
    (k : K) (h : containsKey hash m k = .ok false) : k ∉ keys m := by
  rw [containsKey_spec hash m hwf k] at h
  simpa using h

theorem present_of_containsKey (hash : K → Nat) (m : HashMap K V) (hwf : Invariants hash m)
    (k : K) (h : containsKey hash m k = .ok true) : k ∈ keys m := by
  rw [containsKey_spec hash m hwf k] at h
  simpa using h

/-- An insert of an absent key into a table of fewer than `2 ^ 29` entries
returns true, keeps the invariants and adds exactly the new entry. -/
theorem insert_spec (hash : K → Nat) (m : HashMap K V) (hwf : Invariants hash m)
    (hfit : m._size < 536870912) (k : K) (v : V) (habs : containsKey hash m k = .ok false) :
    ∃ m', insert hash m k v = .ok (true, m') ∧ Invariants hash m' ∧
      (entries m').Perm ((k, v) :: entries m) ∧ m'._size = m._size + 1 := by
  have hk : k ∉ keys m := absent_of_containsKey hash m hwf k habs
  obtain ⟨i, b, hi, hb, _, _, _⟩ := bucket_view hash m hwf k
  have hsz0 : 0 ≤ m._size := by rw [hwf.size_eq]; omega
  have hck : checkedInt (m._size + 1) = .ok (m._size + 1) := by
    apply checkedInt_ok
    · unfold INT_MIN; omega
    · unfold INT_MAX; omega
  have hpush := pushBackAt_ok m._buckets i b (k, v) hb
  have hperm := flatten_set_perm m._buckets i b (k, v) hb
  have hwf1 : Invariants hash
      { m with _size := m._size + 1, _buckets := m._buckets.set i (b ++ [(k, v)]) } := by
    refine ⟨?_, hwf.capacity_pos, hwf.capacity_range, ?_, ?_, ?_, ?_, hwf.upper, hwf.lower⟩
    · show m._size + 1 ≤ INT_MAX
      unfold INT_MAX; omega
    · simpa using hwf.buckets_length
    · show m._size + 1 = (((m._buckets.set i (b ++ [(k, v)])).flatten).length : Int)
      rw [hperm.length_eq, List.length_cons]
      have := hwf.size_eq
      unfold entries at this
      omega
    · exact placed_congr hash _ rfl (placed_set hash m m._buckets i b (k, v) hb hi hwf.placed)
    · show (((m._buckets.set i (b ++ [(k, v)])).flatten).map Prod.fst).Nodup
      rw [(hperm.map Prod.fst).nodup_iff]
      simp only [List.map_cons, List.nodup_cons]
      exact ⟨hk, hwf.unique⟩
  obtain ⟨m', e1, e2, e3, e4⟩ := checkResize_spec hash _ hwf1
    (by show 1 ≤ m._size + 1; omega) (by show m._size + 1 ≤ 536870912; omega)
  refine ⟨m', ?_, e2, e3.trans hperm, e4⟩
  simp only [insert, habs, hck, hi, hpush, e1, bind, Except.bind, pure, Except.pure]
  simp

theorem eraseIdx_perm {α : Type} (b : List α) :
    ∀ (j : Nat) (p : α), b[j]? = some p → b.Perm (p :: b.eraseIdx j) := by
  induction b with
  | nil => intro j p h; simp at h
  | cons x xs ih =>
    intro j p h
    cases j with
    | zero =>
      simp at h
      subst h
      simp
    | succ j' =>
      simp at h
      simp only [List.eraseIdx_cons_succ]
      exact ((ih j' p h).cons x).trans (List.Perm.swap p x _)

/-- Replacing a bucket by the same bucket without one of its pairs removes that
pair from the flattened table. -/
theorem flatten_set_perm_remove {α : Type} (t : List (List α)) :
    ∀ (i : Nat) (b b' : List α) (p : α), t[i]? = some b → b.Perm (p :: b') →
      t.flatten.Perm (p :: (t.set i b').flatten) := by
  induction t with
  | nil => intro i b b' p h; simp at h
  | cons c cs ih =>
    intro i b b' p h hb
    cases i with
    | zero =>
      simp at h
      subst h
      simp only [List.set_cons_zero, List.flatten_cons]
      exact hb.append_right cs.flatten
    | succ j =>
      simp at h
      simp only [List.set_cons_succ, List.flatten_cons]
      exact ((ih j b b' p h hb).append_left c).trans List.perm_middle

theorem placed_set_sub (hash : K → Nat) (m : HashMap K V) (t : List (List (K × V))) (i : Nat)
    (b b' : List (K × V)) (hb : t[i]? = some b) (hsub : ∀ p ∈ b', p ∈ b)
    (hpl : Placed hash m t) : Placed hash m (t.set i b') := by
  rw [placed_iff] at hpl ⊢
  intro j c hc q hq
  by_cases hij : i = j
  · subst hij
    have hlt : i < t.length := (List.getElem?_eq_some_iff.mp hb).1
    rw [List.getElem?_set_self hlt] at hc
    cases hc
    exact hpl i b hb q (hsub q hq)
  · rw [List.getElem?_set_ne hij] at hc
    exact hpl j c hc q hq

/-- The part of `erase` of a present key before the resize check: the entry of
the key is removed, the invariants hold, and `erase` returns what the resize
check returns. -/
theorem erase_pre (hash : K → Nat) (m : HashMap K V) (hwf : Invariants hash m) (k : K)
    (hpres : containsKey hash m k = .ok true) :
    ∃ (v : V) (m1 : HashMap K V), Invariants hash m1 ∧ m1._size = m._size - 1 ∧
      m1._capacity = m._capacity ∧ (entries m).Perm ((k, v) :: entries m1) ∧
      ∀ m', _checkResize hash m1 = .ok m' → erase hash m k = .ok (true, m') := by
  have hk : k ∈ keys m := present_of_containsKey hash m hwf k hpres
  obtain ⟨⟨k', v⟩, hv, hkk⟩ := List.mem_map.mp hk
  simp only at hkk
  subst hkk
  obtain ⟨i, j, b, hi, hb, hj, hbj⟩ := lookup_view hash m hwf k' v hv
  have hjlt : j < b.length := (List.getElem?_eq_some_iff.mp hbj).1
  have hperm := flatten_set_perm_remove m._buckets i b (b.eraseIdx j) (k', v) hb
    (eraseIdx_perm b j (k', v) hbj)
  have hlen1 : (entries m).length = (m._buckets.set i (b.eraseIdx j)).flatten.length + 1 := by
    have := hperm.length_eq
    simpa [entries] using this
  have hsz := hwf.size_eq
  have hsr := hwf.size_range
  have hck : checkedInt (m._size - 1) = .ok (m._size - 1) := by
    apply checkedInt_ok
    · unfold INT_MIN; omega
    · unfold INT_MAX at *; omega
  refine ⟨v, { m with _size := m._size - 1, _buckets := m._buckets.set i (b.eraseIdx j) },
    ?_, rfl, rfl, hperm, ?_⟩
  · refine ⟨?_, hwf.capacity_pos, hwf.capacity_range, ?_, ?_, ?_, ?_, hwf.upper, hwf.lower⟩
    · show m._size - 1 ≤ INT_MAX
      omega
    · simpa using hwf.buckets_length
    · show m._size - 1 = (((m._buckets.set i (b.eraseIdx j)).flatten).length : Int)
      omega
    · exact placed_congr hash _ rfl (placed_set_sub hash m m._buckets i b (b.eraseIdx j) hb
        (fun p hp => (List.eraseIdx_sublist b j).subset hp) hwf.placed)
    · show (((m._buckets.set i (b.eraseIdx j)).flatten).map Prod.fst).Nodup
      have h1 : ((m._buckets.flatten).map Prod.fst).Nodup := hwf.unique
      rw [(hperm.map Prod.fst).nodup_iff] at h1
      exact (List.nodup_cons.mp h1).2
  · intro m' hm'
    have hve : vectorErase b (j : Int) = .ok (b.eraseIdx j) := by
      simp [vectorErase, hjlt]
    simp only [erase, eraseBody, bucketIndex, hpres, hi, hj, indexAt_ok _ i b hb, hve, hck,
      bind, Except.bind, pure, Except.pure, if_true, Int.toNat_ofNat]
    rw [hm']

theorem downsizeLoop_zero :
    ∀ (fuel k : Nat) (c : Int), 0 ≤ c → c < (2 : Int) ^ k → k < fuel →
      downsizeLoop fuel 0 c DEFAULT_LOWER_LOAD_FACTOR = .ok 0 := by
  intro fuel
  induction fuel with
  | zero => intro k c _ _ h; omega
  | succ n ih =>
    intro k c h1 h2 h3
    unfold downsizeLoop
    by_cases hc : c = 0
    · subst hc
      simp [ratioLt]
    · have hpos : 0 < c := by omega
      have hlt : ratioLt 0 c DEFAULT_LOWER_LOAD_FACTOR = true := by
        simp [ratioLt, hc, hpos, DEFAULT_LOWER_LOAD_FACTOR]
      rw [if_pos hlt]
      have hdiv : Int.tdiv c RESIZE_FACTOR = c / 2 := by
        unfold RESIZE_FACTOR
        exact Int.tdiv_eq_ediv (by omega) (by norm_num)
      rw [hdiv]
      cases k with
      | zero => norm_num at h2; omega
      | succ k' =>
        rw [pow_succ] at h2
        exact ih k' (c / 2) (by omega) (by omega) (by omega)

theorem placeBuckets_nil (hash : K → Nat) (m : HashMap K V) (bs : List (List (K × V)))
    (h : ∀ b ∈ bs, b = []) (t : List (List (K × V))) :
    bs.foldlM (fun t bucket => placeBucket hash m bucket t) t = .ok t := by
  induction bs with
  | nil => rfl
  | cons b rest ih =>
    have hb : b = [] := h b (List.mem_cons_self _ _)
    subst hb
    rw [List.foldlM_cons]
    simp only [placeBucket, List.foldlM_nil, bind, Except.bind, pure, Except.pure]
    exact ih (fun b hb => h b (List.mem_cons_of_mem _ hb))

/-- The resize check on an empty table halves the capacity down to 0. -/
theorem checkResize_empty (hash : K → Nat) (m : HashMap K V) (hwf : Invariants hash m)
    (hs : m._size = 0) :
    _checkResize hash m = .ok { m with _capacity := 0, _buckets := [] } := by
  have hc1 := hwf.capacity_pos
  have hc2 := hwf.capacity_range
  have hne : m._capacity ≠ 0 := by omega
  have hpos : 0 < m._capacity := by omega
  have hgt : ratioGt (size m) (capacity m) m._upperLoadFactor = false := by
    simp [ratioGt, size, capacity, hs, hne, hpos, hwf.upper, DEFAULT_UPPER_LOAD_FACTOR]
    omega
  have hlt : ratioLt (size m) (capacity m) m._lowerLoadFactor = true := by
    simp [ratioLt, size, capacity, hs, hne, hpos, hwf.lower, DEFAULT_LOWER_LOAD_FACTOR]
  have hloop : downsizeLoop LOOP_FUEL (size m) (capacity m) m._lowerLoadFactor = .ok 0 := by
    simp only [size, capacity, hs, hwf.lower]
    exact downsizeLoop_zero LOOP_FUEL 31 m._capacity (by omega)
      (by unfold INT_MAX at hc2; norm_num; omega) (by unfold LOOP_FUEL; omega)
  have hempty : ∀ b ∈ m._buckets, b = [] := by
    have h0 : (entries m).length = 0 := by
      have := hwf.size_eq
      omega
    have h1 : m._buckets.flatten = [] := List.length_eq_zero.mp h0
    intro b hb
    exact List.flatten_eq_nil_iff.mp h1 b hb
  have hold : firstBuckets m._buckets (capacity m) = .ok m._buckets := by
    simp [firstBuckets, capacity, ← hwf.buckets_length]
  unfold _checkResize
  rw [hgt]
  simp only [Bool.false_eq_true, if_false, pure, Except.pure, bind, Except.bind]
  rw [hlt]
  simp only [if_true, _resize, Bool.false_eq_true, if_false, bind, Except.bind]
  rw [hloop]
  simp only [_rehash, newTable, hold, lt_irrefl, if_false, Int.toNat_zero, List.replicate_zero,
    bind, Except.bind, pure, Except.pure]
  rw [placeBuckets_nil hash _ m._buckets hempty]

/-- An erase of a present key from a table of 2 to `2 ^ 29` entries returns true,
keeps the invariants and removes exactly the entry of the key. -/
theorem erase_spec (hash : K → Nat) (m : HashMap K V) (hwf : Invariants hash m) (k : K)
    (hpres : containsKey hash m k = .ok true) (hs1 : 2 ≤ m._size) (hs2 : m._size ≤ 536870912) :
    ∃ (v : V) (m' : HashMap K V), erase hash m k = .ok (true, m') ∧ Invariants hash m' ∧
      (entries m).Perm ((k, v) :: entries m') ∧ m'._size = m._size - 1 := by
  obtain ⟨v, m1, a1, a2, a3, a4, a5⟩ := erase_pre hash m hwf k hpres
  obtain ⟨m', e1, e2, e3, e4⟩ := checkResize_spec hash m1 a1 (by omega) (by omega)
  exact ⟨v, m', a5 m' e1, e2, a4.trans (e3.symm.cons _), by omega⟩

/-- An erase of the only entry of a table returns true and leaves a table of
capacity 0 with no bucket at all. -/
theorem erase_last_spec (hash : K → Nat) (m : HashMap K V) (hwf : Invariants hash m) (k : K)
    (hpres : containsKey hash m k = .ok true) (hs : m._size = 1) :
    ∃ m' : HashMap K V, erase hash m k = .ok (true, m') ∧ m'._size = 0 ∧ m'._capacity = 0 ∧
      m'._buckets = [] := by
  obtain ⟨v, m1, a1, a2, a3, a4, a5⟩ := erase_pre hash m hwf k hpres
  have h0 : m1._size = 0 := by omega
  exact ⟨_, a5 _ (checkResize_empty hash m1 a1 h0), h0, rfl, rfl⟩

/-- On a table without buckets every lookup indexes outside the bucket array. -/
theorem containsKey_no_buckets (hash : K → Nat) (m : HashMap K V) (k : K)
    (h : m._buckets = []) : containsKey hash m k = .error .undefined_behaviour := by
  have hidx : indexAt ([] : List (List (K × V))) (_getHashCode hash m k)
      = .error .undefined_behaviour := by
    unfold indexAt
    split <;> rfl
  simp only [containsKey, _getInnerKeyIdx, h, hidx, bind, Except.bind]

theorem indexAt_error {α : Type} (xs : List α) (i : Int) (e : Err)
    (h : indexAt xs i = .error e) : e = .undefined_behaviour := by
  unfold indexAt at h
  split at h
  · split at h
    · cases h
    · cases h; rfl
  · cases h; rfl

theorem getInnerKeyIdx_error (hash : K → Nat) (m : HashMap K V) (k : K) (e : Err)
    (h : _getInnerKeyIdx hash m k = .error e) : e = .undefined_behaviour := by
  unfold _getInnerKeyIdx at h
  cases hi : indexAt m._buckets (_getHashCode hash m k) with
  | error e' =>
    simp only [hi, bind, Except.bind] at h
    cases h
    exact indexAt_error _ _ _ hi
  | ok b =>
    simp only [hi, bind, Except.bind, pure, Except.pure] at h
    cases h

theorem containsKey_error (hash : K → Nat) (m : HashMap K V) (k : K) (e : Err)
    (h : containsKey hash m k = .error e) : e = .undefined_behaviour := by
  unfold containsKey at h
  cases hi : _getInnerKeyIdx hash m k with
  | error e' =>
    simp only [hi, bind, Except.bind] at h
    cases h
    exact getInnerKeyIdx_error hash m k _ hi
  | ok b =>
    simp only [hi, bind, Except.bind, pure, Except.pure] at h
    cases h

/-- The lookup `_buckets[_getHashCode(key)][_getInnerKeyIdx(key)]` never raises
`std::invalid_argument`. -/
theorem entryLookup_error (hash : K → Nat) (m : HashMap K V) (k : K) (e : Err) {β : Type}
    (f : K × V → β)
    (h : (do
      let bucket ← indexAt m._buckets (_getHashCode hash m k)
      let pair ← indexAt bucket (← _getInnerKeyIdx hash m k)
      pure (f pair) : Except Err β) = .error e) : e = .undefined_behaviour := by
  cases h1 : indexAt m._buckets (_getHashCode hash m k) with
  | error e1 =>
    simp only [h1, bind, Except.bind] at h
    cases h
    exact indexAt_error _ _ _ h1
  | ok b =>
    cases h2 : _getInnerKeyIdx hash m k with
    | error e2 =>
      simp only [h1, h2, bind, Except.bind] at h
      cases h
      exact getInnerKeyIdx_error hash m k _ h2
    | ok j =>
      cases h3 : indexAt b j with
      | error e3 =>
        simp only [h1, h2, h3, bind, Except.bind] at h
        cases h
        exact indexAt_error _ _ _ h3
      | ok p =>
        simp only [h1, h2, h3, bind, Except.bind, pure, Except.pure] at h
        cases h

theorem at_const_fails_iff (hash : K → Nat) (m : HashMap K V) (k : K) :
    at_const hash m k = .error (.invalid_argument NONEXISTANT_KEY_ERR) ↔
      containsKey hash m k = .ok false := by
  cases hc : containsKey hash m k with
  | error e =>
    have he := containsKey_error hash m k e hc
    subst he
    simp [at_const, hc, bind, Except.bind]
  | ok b =>
    cases b with
    | false => simp [at_const, hc, bind, Except.bind, throw, throwThe, MonadExceptOf.throw]
    | true =>
      simp only [at_const, hc, bind, Except.bind, if_true]
      constructor
      · intro h
        have := entryLookup_error hash m k _ (fun p => p.2) h
        cases this
      · intro h
        cases h

theorem at_mut_fails_iff (hash : K → Nat) (m : HashMap K V) (k : K) :
    at_mut hash m k = .error (.invalid_argument NONEXISTANT_KEY_ERR) ↔
      containsKey hash m k = .ok false := by
  cases hc : containsKey hash m k with
  | error e =>
    have he := containsKey_error hash m k e hc
    subst he
    simp [at_mut, hc, bind, Except.bind]
  | ok b =>
    cases b with
    | false => simp [at_mut, hc, bind, Except.bind, throw, throwThe, MonadExceptOf.throw]
    | true =>
      simp only [at_mut, refTo, hc, bind, Except.bind, if_true]
      constructor
      · intro h
        exfalso
        cases h2 : _getInnerKeyIdx hash m k with
        | error e2 =>
          have := getInnerKeyIdx_error hash m k _ h2
          subst this
          simp [h2] at h
        | ok j =>
          cases h1 : indexAt m._buckets (_getHashCode hash m k) with
          | error e1 =>
            have := indexAt_error _ _ _ h1
            subst this
            simp [h1, h2] at h
          | ok b =>
            cases h3 : indexAt b j with
            | error e3 =>
              have := indexAt_error _ _ _ h3
              subst this
              simp [h1, h2, h3] at h
            | ok p =>
              simp [h1, h2, h3, pure, Except.pure] at h
      · intro h
        cases h

/-- The tail of the non-const `operator[]`: the reference to the entry of a stored
key is formed and reads the stored value. -/
theorem refTo_stored (hash : K → Nat) (m : HashMap K V) (hwf : Invariants hash m) (k : K)
    (v : V) (hv : (k, v) ∈ entries m) :
    ∃ r, (do
        let r ← refTo m (_getHashCode hash m k) (← _getInnerKeyIdx hash m k)
        pure (r, m) : Except Err (ValueRef × HashMap K V)) = .ok (r, m) ∧
      readRef m r = .ok v := by
  obtain ⟨i, j, b, hi, hb, hj, hbj⟩ := lookup_view hash m hwf k v hv
  refine ⟨⟨i, j⟩, ?_, ?_⟩
  · simp [refTo, hi, hj, indexAt_ok _ i b hb, indexAt_ok _ j (k, v) hbj, bind, Except.bind,
      pure, Except.pure]
  · simp [readRef, indexAt_ok _ i b hb, indexAt_ok _ j (k, v) hbj, bind, Except.bind, pure,
      Except.pure]

theorem bulkStep_absent (hash : K → Nat) (m m' : HashMap K V) (k : K) (v : V) (b : Bool)
    (habs : containsKey hash m k = .ok false) (hins : insert hash m k v = .ok (b, m')) :
    bulkStep hash m (k, v) = .ok m' := by
  simp [bulkStep, habs, hins, bind, Except.bind, pure, Except.pure]

theorem bulkStep_present (hash : K → Nat) (m m1 : HashMap K V) (k : K) (v : V) (b : Bool)
    (hpres : containsKey hash m k = .ok true) (hers : erase hash m k = .ok (b, m1)) :
    bulkStep hash m (k, v) = (fun r => r.2) <$> insert hash m1 k v := by
  simp only [bulkStep, hpres, hers, bind, Except.bind, pure, Except.pure, if_true, Functor.map,
    Except.map]

theorem insert_no_buckets (hash : K → Nat) (m : HashMap K V) (k : K) (v : V)
    (h : m._buckets = []) : insert hash m k v = .error .undefined_behaviour := by
  simp only [insert, containsKey_no_buckets hash m k h, bind, Except.bind]

theorem noInvalid_ok {α : Type} (a : α) : NoInvalid (.ok a : Except Err α) := by
  intro s h; cases h

theorem noInvalid_bind {α β : Type} (x : Except Err α) (f : α → Except Err β)
    (hx : NoInvalid x) (hf : ∀ a, NoInvalid (f a)) : NoInvalid (x >>= f) := by
  cases x with
  | error e =>
    intro s h
    simp only [bind, Except.bind] at h
    cases h
    exact hx s rfl
  | ok a => exact hf a

theorem noInvalid_map {α β : Type} (x : Except Err α) (f : α → β)
    (hx : NoInvalid x) : NoInvalid (f <$> x) := by
  cases x with
  | error e =>
    intro s h
    simp only [Functor.map, Except.map] at h
    cases h
    exact hx s rfl
  | ok a => exact noInvalid_ok _

theorem noInvalid_foldlM {α β : Type} (f : β → α → Except Err β)
    (hf : ∀ b a, NoInvalid (f b a)) (l : List α) : ∀ b, NoInvalid (l.foldlM f b) := by
  induction l with
  | nil => intro b; exact noInvalid_ok b
  | cons a rest ih =>
    intro b
    rw [List.foldlM_cons]
    exact noInvalid_bind _ _ (hf b a) ih

theorem noInvalid_checkedInt (x : Int) : NoInvalid (checkedInt x) := by
  unfold checkedInt
  split
  · exact noInvalid_ok _
  · intro s h; cases h

theorem noInvalid_indexAt {α : Type} (xs : List α) (i : Int) : NoInvalid (indexAt xs i) := by
  intro s h
  have := indexAt_error xs i _ h
  cases this

theorem noInvalid_pushBackAt {α : Type} (t : List (List α)) (i : Int) (p : α) :
    NoInvalid (pushBackAt t i p) :=
  noInvalid_bind _ _ (noInvalid_indexAt t i) (fun _ => noInvalid_ok _)

theorem noInvalid_containsKey (hash : K → Nat) (m : HashMap K V) (k : K) :
    NoInvalid (containsKey hash m k) := by
  intro s h
  have := containsKey_error hash m k _ h
  cases this

theorem noInvalid_placeBucket (hash : K → Nat) (m : HashMap K V) (bucket : List (K × V))
    (t : List (List (K × V))) : NoInvalid (placeBucket hash m bucket t) :=
  noInvalid_foldlM _ (fun _ _ => noInvalid_pushBackAt _ _ _) bucket t

theorem noInvalid_rehash (hash : K → Nat) (m : HashMap K V) (prev : Int) :
    NoInvalid (_rehash hash m prev) := by
  unfold _rehash
  refine noInvalid_bind _ _ ?_ (fun table => noInvalid_bind _ _ ?_ (fun old =>
    noInvalid_bind _ _ (noInvalid_foldlM _ (fun t b => noInvalid_placeBucket hash m b t) old table)
      (fun _ => noInvalid_ok _)))
  · unfold newTable
    split
    · intro s h; cases h
    · exact noInvalid_ok _
  · unfold firstBuckets
    split
    · exact noInvalid_ok _
    · intro s h; cases h

theorem noInvalid_upsizeLoop (sz : Int) (f : LoadFactor) :
    ∀ (fuel : Nat) (c : Int), NoInvalid (upsizeLoop fuel sz c f) := by
  intro fuel
  induction fuel with
  | zero => intro c s h; cases h
  | succ n ih =>
    intro c
    unfold upsizeLoop
    split
    · exact noInvalid_bind _ _ (noInvalid_checkedInt _) (fun c' => ih c')
    · exact noInvalid_ok _

theorem noInvalid_downsizeLoop (sz : Int) (f : LoadFactor) :
    ∀ (fuel : Nat) (c : Int), NoInvalid (downsizeLoop fuel sz c f) := by
  intro fuel
  induction fuel with
  | zero => intro c s h; cases h
  | succ n ih =>
    intro c
    unfold downsizeLoop
    split
    · exact ih _
    · exact noInvalid_ok _

theorem noInvalid_resize (hash : K → Nat) (m : HashMap K V) (upsize : Bool) :
    NoInvalid (_resize hash m upsize) := by
  unfold _resize
  refine noInvalid_bind _ _ ?_ (fun c => noInvalid_rehash hash _ _)
  split
  · exact noInvalid_upsizeLoop _ _ _ _
  · exact noInvalid_downsizeLoop _ _ _ _

theorem noInvalid_checkResize (hash : K → Nat) (m : HashMap K V) :
    NoInvalid (_checkResize hash m) := by
  unfold _checkResize
  refine noInvalid_bind _ _ ?_ (fun m1 => ?_)
  · split
    · exact noInvalid_resize hash m true
    · exact noInvalid_ok _
  · split
    · exact noInvalid_resize hash m1 false
    · exact noInvalid_ok _

theorem noInvalid_insert (hash : K → Nat) (m : HashMap K V) (k : K) (v : V) :
    NoInvalid (insert hash m k v) := by
  unfold insert
  refine noInvalid_bind _ _ (noInvalid_containsKey hash m k) (fun c => ?_)
  split
  · exact noInvalid_ok _
  · exact noInvalid_bind _ _ (noInvalid_ok _) (fun _ =>
      noInvalid_bind _ _ (noInvalid_checkedInt _) (fun _ =>
        noInvalid_bind _ _ (noInvalid_pushBackAt _ _ _) (fun _ =>
          noInvalid_bind _ _ (noInvalid_checkResize hash _) (fun _ => noInvalid_ok _))))

theorem noInvalid_erase (hash : K → Nat) (m : HashMap K V) (k : K) :
    NoInvalid (erase hash m k) := by
  intro s h
  unfold erase at h
  split at h
  · cases h
  · rename_i r hr
    exact hr s h

theorem noInvalid_bulkStep (hash : K → Nat) (m : HashMap K V) (kv : K × V) :
    NoInvalid (bulkStep hash m kv) := by
  unfold bulkStep
  refine noInvalid_bind _ _ (noInvalid_containsKey hash m kv.1) (fun c =>
    noInvalid_bind _ _ ?_ (fun m1 =>
      noInvalid_bind _ _ (noInvalid_insert hash m1 kv.1 kv.2) (fun _ => noInvalid_ok _)))
  split
  · exact noInvalid_map _ _ (noInvalid_erase hash m kv.1)
  · exact noInvalid_ok _

/-- Pushing the pairs of a bucket whose hash codes are all `i` appends the bucket
to `table[i]`. -/
theorem placeBucket_same (hash : K → Nat) (m : HashMap K V) (i : Nat) (bucket : List (K × V)) :
    ∀ (t : List (List (K × V))) (b0 : List (K × V)), t[i]? = some b0 →
      (∀ p ∈ bucket, _getHashCode hash m p.1 = (i : Int)) →
      placeBucket hash m bucket t = .ok (t.set i (b0 ++ bucket)) := by
  induction bucket with
  | nil =>
    intro t b0 hb _
    have hlt : i < t.length := (List.getElem?_eq_some_iff.mp hb).1
    have : t.set i (b0 ++ []) = t := by
      rw [List.append_nil]
      apply List.ext_getElem? 
      intro j
      by_cases hij : i = j
      · subst hij
        rw [List.getElem?_set_self hlt, hb]
      · rw [List.getElem?_set_ne hij]
    rw [this]
    rfl
  | cons p rest ih =>
    intro t b0 hb hall
    have hp : _getHashCode hash m p.1 = (i : Int) := hall p (List.mem_cons_self _ _)
    have hlt : i < t.length := (List.getElem?_eq_some_iff.mp hb).1
    unfold placeBucket
    rw [List.foldlM_cons, hp, pushBackAt_ok t i b0 p hb]
    have := ih (t.set i (b0 ++ [p])) (b0 ++ [p]) (List.getElem?_set_self hlt)
      (fun q hq => hall q (List.mem_cons_of_mem _ hq))
    unfold placeBucket at this
    simp only [bind, Except.bind]
    rw [this, List.set_set, List.append_assoc]
    rfl

theorem getElem?_append_cons_length {α : Type} (pre : List α) (x : α) (rest : List α) :
    (pre ++ x :: rest)[pre.length]? = some x := by
  induction pre with
  | nil => simp
  | cons a as ih => simpa using ih

theorem set_append_cons_length {α : Type} (pre : List α) (x y : α) (rest : List α) :
    (pre ++ x :: rest).set pre.length y = pre ++ y :: rest := by
  induction pre with
  | nil => rfl
  | cons a as ih => simp [ih]

/-- Re-placing the buckets of a placed table into an empty table of the same
length rebuilds the same buckets. -/
theorem placeBuckets_same (hash : K → Nat) (m : HashMap K V) :
    ∀ (post pre : List (List (K × V))), Placed hash m (pre ++ post) →
      post.foldlM (fun t bucket => placeBucket hash m bucket t)
        (pre ++ List.replicate post.length []) = .ok (pre ++ post) := by
  intro post
  induction post with
  | nil =>
    intro pre _
    simp [pure, Except.pure]
  | cons b rest ih =>
    intro pre hpl
    have hget : (pre ++ List.replicate (b :: rest).length ([] : List (K × V)))[pre.length]?
        = some [] := by
      rw [List.length_cons, List.replicate_succ]
      exact getElem?_append_cons_length pre [] _
    have hall : ∀ p ∈ b, _getHashCode hash m p.1 = (pre.length : Int) := by
      exact (placed_iff hash m (pre ++ b :: rest)).mp hpl pre.length b
        (getElem?_append_cons_length pre b rest)
    rw [List.foldlM_cons, placeBucket_same hash m pre.length b _ [] hget hall]
    have hset : (pre ++ List.replicate (b :: rest).length ([] : List (K × V))).set pre.length
        ([] ++ b) = (pre ++ [b]) ++ List.replicate rest.length [] := by
      rw [List.length_cons, List.replicate_succ, set_append_cons_length]
      simp
    simp only [bind, Except.bind]
    rw [hset, ih (pre ++ [b]) (by simpa using hpl)]
    simp

/-- The copy constructor applied to a table that satisfies the invariants returns
a table with the same data members. -/
theorem copy_spec (hash : K → Nat) (t : HashMap K V) (hwf : Invariants hash t) :
    HashMap_copy hash t = .ok t := by
  have hc1 := hwf.capacity_pos
  have hlen := hwf.buckets_length
  have hnew : (newTable t._capacity : Except Err (List (List (K × V))))
      = .ok (List.replicate t._buckets.length []) := by
    have : t._capacity.toNat = t._buckets.length := by omega
    simp [newTable, this]
    omega
  have hold : firstBuckets t._buckets t._capacity = .ok t._buckets := by
    simp [firstBuckets, ← hlen]
  have hfold := placeBuckets_same hash
    ({ _size := t._size, _capacity := t._capacity, _lowerLoadFactor := t._lowerLoadFactor,
       _upperLoadFactor := t._upperLoadFactor, _buckets := [] } : HashMap K V)
    t._buckets [] (by simpa using placed_congr hash t._buckets rfl hwf.placed)
  simp only [List.nil_append] at hfold
  simp only [HashMap_copy, capacity, hnew, hold, hfold, bind, Except.bind, pure, Except.pure]

theorem assignBucketLoop_spec (source : List (K × V)) (idx : Nat) :
    ∀ (rest : List (K × V)) (sz : Int) (table : List (List (K × V))),
      INT_MIN ≤ sz → sz + rest.length ≤ INT_MAX →
      assignBucketLoop source idx rest (sz, table) =
        .ok (sz + rest.length, if rest.length = 0 then table else table.set idx source) := by
  intro rest
  induction rest with
  | nil =>
    intro sz table _ _
    simp [assignBucketLoop]
  | cons p rest ih =>
    intro sz table h1 h2
    simp only [List.length_cons, Nat.cast_add, Nat.cast_one] at h2
    have hck : checkedInt (sz + 1) = .ok (sz + 1) := checkedInt_ok (by omega) (by omega)
    simp only [assignBucketLoop, hck, bind, Except.bind]
    rw [ih (sz + 1) (table.set idx source) (by omega) (by omega)]
    simp only [List.set_set, ite_self, List.length_cons, Nat.cast_add, Nat.cast_one]
    simp
    omega

/-- The loops of `operator=` copy every bucket of the source and add the number
of its entries to the size they start from. -/
theorem assign_fold_spec :
    ∀ (post pre : List (List (K × V))) (sz : Int),
      INT_MIN ≤ sz → sz + post.flatten.length ≤ INT_MAX →
      (post.enumFrom pre.length).foldlM
          (fun st ib => assignBucketLoop ib.2 ib.1 ib.2 st)
          (sz, pre ++ List.replicate post.length []) =
        .ok (sz + post.flatten.length, pre ++ post) := by
  intro post
  induction post with
  | nil =>
    intro pre sz _ _
    simp [pure, Except.pure]
  | cons b rest ih =>
    intro pre sz h1 h2
    simp only [List.flatten_cons, List.length_append, Nat.cast_add] at h2
    have hstep := assignBucketLoop_spec b pre.length b sz
      (pre ++ List.replicate (b :: rest).length []) h1 (by omega)
    have htable : (if b.length = 0 then pre ++ List.replicate (b :: rest).length ([] : List (K × V))
        else (pre ++ List.replicate (b :: rest).length ([] : List (K × V))).set pre.length b)
        = (pre ++ [b]) ++ List.replicate rest.length [] := by
      rw [List.length_cons, List.replicate_succ, set_append_cons_length]
      split
      · rename_i hb
        have hb' : b = [] := List.length_eq_zero.mp hb
        simp [hb']
      · simp
    rw [htable] at hstep
    simp only [List.enumFrom_cons, List.foldlM_cons, hstep, bind, Except.bind]
    have := ih (pre ++ [b]) (sz + b.length) (by omega) (by omega)
    simp only [List.length_append, List.length_singleton] at this
    rw [this]
    simp only [List.flatten_cons, List.length_append, Nat.cast_add, List.append_assoc,
      List.singleton_append]
    congr 2
    omega

/-- What `operator=` does: the target takes the capacity and the buckets of the
source, keeps its own load factors, and its size grows by the size of the source. -/
theorem operator_assign_spec (this other : HashMap K V) (hcap : 0 ≤ other._capacity)
    (hlen : (other._buckets.length : Int) = other._capacity) (h1 : INT_MIN ≤ this._size)
    (h2 : this._size + (entries other).length ≤ INT_MAX) :
    operator_assign this other =
      .ok { this with _capacity := other._capacity
                      _size := this._size + (entries other).length
                      _buckets := other._buckets } := by
  have hnew : (newTable other._capacity : Except Err (List (List (K × V))))
      = .ok (List.replicate other._buckets.length []) := by
    have : other._capacity.toNat = other._buckets.length := by omega
    simp [newTable, this]
    omega
  have hold : firstBuckets other._buckets other._capacity = .ok other._buckets := by
    simp [firstBuckets, ← hlen]
  have hfold := assign_fold_spec other._buckets [] this._size h1 h2
  simp only [List.nil_append, List.length_nil] at hfold
  simp only [operator_assign, hnew, hold, List.enum, hfold, bind, Except.bind, pure,
    Except.pure, entries]

/-- The fuel of the growing loop is never the reason it stops, unless the capacity
is 0: a non-zero `int` overflows after fewer than 32 doublings. -/
theorem upsizeLoop_fuel (sz : Int) (f : LoadFactor) :
    ∀ (fuel k : Nat) (c : Int), c ≠ 0 → INT_MIN ≤ c → c ≤ INT_MAX → 2 ^ k ≤ c.natAbs →
      32 < k + fuel → upsizeLoop fuel sz c f ≠ .error .nontermination := by
  intro fuel
  induction fuel with
  | zero =>
    intro k c _ h1 h2 h3 h4
    exfalso
    have : 2 ^ 33 ≤ 2 ^ k := Nat.pow_le_pow_right (by norm_num) (by omega)
    unfold INT_MIN at h1
    unfold INT_MAX at h2
    norm_num at this
    omega
  | succ n ih =>
    intro k c h0 h1 h2 h3 h4
    unfold upsizeLoop
    split
    · unfold checkedInt RESIZE_FACTOR
      split
      · rename_i hr
        simp only [bind, Except.bind]
        apply ih (k + 1) (c * 2) (by omega) hr.1 hr.2
        · rw [pow_succ]; omega
        · omega
      · intro h
        cases h
    · intro h
      cases h

/-- With capacity 0 and a positive size the growing loop never ends in the code
(the quotient is an infinity and doubling 0 gives 0): no fuel is enough. -/
theorem upsizeLoop_zero_diverges (sz : Int) (hs : 0 < sz) (f : LoadFactor) :
    ∀ fuel : Nat, upsizeLoop fuel sz 0 f = .error .nontermination := by
  intro fuel
  induction fuel with
  | zero => rfl
  | succ n ih =>
    unfold upsizeLoop
    have hc : ratioGt sz 0 f = true := by simp [ratioGt, hs]
    have hk : checkedInt (0 * RESIZE_FACTOR) = .ok 0 := by decide
    rw [if_pos hc, hk]
    exact ih

/-- The fuel of the shrinking loop is never the reason it stops when the size is
not negative: an `int` reaches 0 after at most 32 halvings, and there the quotient
is a NaN or an infinity, which is not below the load factor. -/
theorem downsizeLoop_fuel (sz : Int) (hs : 0 ≤ sz) (f : LoadFactor) :
    ∀ (fuel k : Nat) (c : Int), c.natAbs < 2 ^ k → k < fuel →
      downsizeLoop fuel sz c f ≠ .error .nontermination := by
  intro fuel
  induction fuel with
  | zero => intro k c _ h; omega
  | succ n ih =>
    intro k c h1 h2
    unfold downsizeLoop
    split
    · rename_i hc
      have hne : c ≠ 0 := by
        intro h0
        subst h0
        simp [ratioLt] at hc
        omega
      cases k with
      | zero =>
        simp at h1
        exact absurd h1 hne
      | succ k' =>
        apply ih k' _ _ (by omega)
        unfold RESIZE_FACTOR
        rw [Int.natAbs_tdiv]
        rw [pow_succ] at h1
        show c.natAbs / 2 < 2 ^ k'
        omega
    · intro h
      cases h

theorem vectorEnd_ok (bs : List (List (K × V))) (i : Nat) (b : List (K × V))
    (h : bs[i]? = some b) : vectorEnd bs (i : Int) = .ok ⟨(i : Int), b.length⟩ := by
  simp [vectorEnd, indexAt_ok bs i b h, bind, Except.bind, pure, Except.pure]

theorem vectorBegin_ok (bs : List (List (K × V))) (i : Nat) (b : List (K × V))
    (h : bs[i]? = some b) : vectorBegin bs (i : Int) = .ok ⟨(i : Int), 0⟩ := by
  simp [vectorBegin, indexAt_ok bs i b h, bind, Except.bind, pure, Except.pure]

/-- The loop of `_updateCurrBucket` skips the empty buckets and keeps the pairs
that are still to come. -/
theorem updateLoop_spec (bs : List (List (K × V))) :
    ∀ (n idx pos : Nat) (b : List (K × V)) (it : hashMapIterator K V),
      it._bucketsPtr = bs → it._capacity = (bs.length : Int) → it._bucketIdx = (idx : Int) →
      it.currBucketIt = ⟨(idx : Int), pos⟩ → bs[idx]? = some b → pos ≤ b.length →
      bs.length ≤ n + idx + 1 →
      ∃ it', updateLoop n it = .ok it' ∧
        IterAt bs it' (b.drop pos ++ (bs.drop (idx + 1)).flatten) := by
  intro n
  induction n with
  | zero =>
    intro idx pos b it h1 h2 h3 h4 h5 h6 h7
    have hlt : idx < bs.length := (List.getElem?_eq_some_iff.mp h5).1
    have hc : updateCond it = .ok false := by
      unfold updateCond
      rw [if_neg (by rw [h2, h3]; omega)]
      rfl
    refine ⟨it, ?_, h1, h2, idx, pos, b, h3, h4, h5, h6, Or.inr (by omega), rfl⟩
    simp [updateLoop, hc, bind, Except.bind, pure, Except.pure]
  | succ n ih =>
    intro idx pos b it h1 h2 h3 h4 h5 h6 h7
    have hlt : idx < bs.length := (List.getElem?_eq_some_iff.mp h5).1
    by_cases hskip : idx + 1 < bs.length ∧ pos = b.length
    · obtain ⟨hi, hp⟩ := hskip
      have hc : updateCond it = .ok true := by
        unfold updateCond
        rw [if_pos (by rw [h2, h3]; omega), h1, h3, vectorEnd_ok bs idx b h5, h4, hp]
        simp [bind, Except.bind, pure, Except.pure]
      have hb' : bs[idx + 1]? = some bs[idx + 1] := List.getElem?_eq_getElem hi
      have hbeg := vectorBegin_ok bs (idx + 1) _ hb'
      obtain ⟨it', e1, e2⟩ := ih (idx + 1) 0 bs[idx + 1]
        { it with _bucketIdx := it._bucketIdx + 1, currBucketIt := ⟨((idx + 1 : Nat) : Int), 0⟩ }
        h1 h2 (by simp [h3]) rfl hb' (Nat.zero_le _) (by omega)
      refine ⟨it', ?_, ?_⟩
      · simp only [updateLoop, hc, bind, Except.bind, if_true, h1, h3]
        have : ((idx : Int) + 1) = ((idx + 1 : Nat) : Int) := by simp
        rw [this, hbeg]
        simp only [← this, ← h3, ← h1]
        simpa [h1, h3] using e1
      · have hrest : b.drop pos ++ (bs.drop (idx + 1)).flatten =
            (bs[idx + 1]).drop 0 ++ (bs.drop (idx + 1 + 1)).flatten := by
          rw [hp, List.drop_length, List.nil_append, List.drop_zero,
            List.drop_eq_getElem_cons hi, List.flatten_cons]
        rw [hrest]
        exact e2
    · have hc : updateCond it = .ok false := by
        unfold updateCond
        by_cases hi : idx + 1 < bs.length
        · rw [if_pos (by rw [h2, h3]; omega), h1, h3, vectorEnd_ok bs idx b h5, h4]
          have hp : pos ≠ b.length := fun hp => hskip ⟨hi, hp⟩
          simp [bind, Except.bind, pure, Except.pure, hp]
        · rw [if_neg (by rw [h2, h3]; omega)]
          rfl
      refine ⟨it, ?_, h1, h2, idx, pos, b, h3, h4, h5, h6, ?_, rfl⟩
      · simp [updateLoop, hc, bind, Except.bind, pure, Except.pure]
      · by_cases hi : idx + 1 < bs.length
        · left
          have hp : pos ≠ b.length := fun hp => hskip ⟨hi, hp⟩
          omega
        · right
          omega

theorem updateCurrBucket_spec (bs : List (List (K × V))) (idx pos : Nat) (b : List (K × V))
    (it : hashMapIterator K V) (h1 : it._bucketsPtr = bs) (h2 : it._capacity = (bs.length : Int))
    (h3 : it._bucketIdx = (idx : Int)) (h4 : it.currBucketIt = ⟨(idx : Int), pos⟩)
    (h5 : bs[idx]? = some b) (h6 : pos ≤ b.length) :
    ∃ it', it._updateCurrBucket = .ok it' ∧
      IterAt bs it' (b.drop pos ++ (bs.drop (idx + 1)).flatten) := by
  unfold hashMapIterator._updateCurrBucket
  exact updateLoop_spec bs _ idx pos b it h1 h2 h3 h4 h5 h6 (by rw [h2, h3]; omega)

/-- With at least two buckets `begin()` stands in front of all the stored pairs. -/
theorem begin_spec (m : HashMap K V) (hlen : (m._buckets.length : Int) = m._capacity)
    (hcap : 2 ≤ m._capacity) :
    ∃ it, begin_ m = .ok it ∧ IterAt m._buckets it (entries m) := by
  have h0 : 0 < m._buckets.length := by omega
  have hb : m._buckets[0]? = some m._buckets[0] := List.getElem?_eq_getElem h0
  have hbeg := vectorBegin_ok m._buckets 0 _ hb
  obtain ⟨it', e1, e2⟩ := updateCurrBucket_spec m._buckets 0 0 m._buckets[0]
    { _bucketsPtr := m._buckets, _capacity := m._capacity, _bucketIdx := 0,
      currBucketIt := ⟨0, 0⟩ } rfl hlen.symm rfl rfl hb (Nat.zero_le _)
  refine ⟨it', ?_, ?_⟩
  · simp only [Nat.cast_zero] at hbeg
    have hne : ¬ ((0 : Int) = m._capacity - 1) := by omega
    simp only [begin_, hashMapIterator_new, capacity, hbeg, if_neg hne, bind, Except.bind, pure,
      Except.pure]
    exact e1
  · have : entries m = (m._buckets[0]).drop 0 ++ (m._buckets.drop (0 + 1)).flatten := by
      rw [List.drop_zero, ← List.flatten_cons, ← List.drop_eq_getElem_cons h0, List.drop_zero]
      rfl
    rw [this]
    exact e2

/-- With at least one bucket `end()` is the end of the last bucket. -/
theorem end_spec (m : HashMap K V) (hlen : (m._buckets.length : Int) = m._capacity)
    (hcap : 1 ≤ m._capacity) :
    ∃ (it : hashMapIterator K V) (b : List (K × V)), end_ m = .ok it ∧
      m._buckets[m._buckets.length - 1]? = some b ∧
      it.currBucketIt = ⟨((m._buckets.length - 1 : Nat) : Int), b.length⟩ := by
  have h0 : 0 < m._buckets.length := by omega
  have hb : m._buckets[0]? = some m._buckets[0] := List.getElem?_eq_getElem h0
  have hbeg := vectorBegin_ok m._buckets 0 _ hb
  have hl : m._buckets.length - 1 < m._buckets.length := by omega
  have hbl : m._buckets[m._buckets.length - 1]? = some m._buckets[m._buckets.length - 1] :=
    List.getElem?_eq_getElem hl
  have hend := vectorEnd_ok m._buckets _ _ hbl
  have hidx : m._capacity - 1 = ((m._buckets.length - 1 : Nat) : Int) := by omega
  refine ⟨{ _bucketsPtr := m._buckets, _capacity := m._capacity,
            _bucketIdx := m._capacity - 1,
            currBucketIt := ⟨((m._buckets.length - 1 : Nat) : Int),
              (m._buckets[m._buckets.length - 1]).length⟩ }, _, ?_, hbl, rfl⟩
  simp only [Nat.cast_zero] at hbeg
  rw [← hidx] at hend
  simp only [end_, hashMapIterator_new, capacity, hbeg, if_true, hend, bind, Except.bind,
    hashMapIterator._updateCurrBucket, sub_self, Int.toNat_zero, updateLoop, updateCond,
    lt_irrefl, if_false, pure, Except.pure]
  simp [hidx]

/-- One round of the walk: in front of the pair `p` the iterator differs from
`end()`, `*it` is `p`, and `++it` stands in front of the pairs after `p`. -/
theorem iterAt_cons (bs : List (List (K × V))) (it last : hashMapIterator K V) (p : K × V)
    (rest : List (K × V)) (blast : List (K × V)) (h : IterAt bs it (p :: rest))
    (hb : bs[bs.length - 1]? = some blast)
    (hl : last.currBucketIt = ⟨((bs.length - 1 : Nat) : Int), blast.length⟩) :
    it.operator_ne last = true ∧ it.operator_deref = .ok p ∧
      ∃ it', it.operator_inc = .ok it' ∧ IterAt bs it' rest := by
  obtain ⟨h1, h2, idx, pos, b, h3, h4, h5, h6, h7, h8⟩ := h
  have hlt : idx < bs.length := (List.getElem?_eq_some_iff.mp h5).1
  have hpos : pos < b.length := by
    rcases h7 with h7 | h7
    · exact h7
    · by_contra hcon
      have hp : pos = b.length := by omega
      have hd : (bs.drop (idx + 1)) = [] := List.drop_eq_nil_of_le (by omega)
      rw [hp, List.drop_length, hd] at h8
      simp at h8
  have hbp : b[pos]? = some b[pos] := List.getElem?_eq_getElem hpos
  have hdrop : b.drop pos = b[pos] :: b.drop (pos + 1) := List.drop_eq_getElem_cons hpos
  rw [hdrop, List.cons_append] at h8
  have hp : p = b[pos] := (List.cons.inj h8).1
  have hrest : rest = b.drop (pos + 1) ++ (bs.drop (idx + 1)).flatten := (List.cons.inj h8).2
  refine ⟨?_, ?_, ?_⟩
  · simp only [hashMapIterator.operator_ne, h4, hl, bne_iff_ne, ne_eq]
    intro hcon
    injection hcon with hc1 hc2
    have hi : idx = bs.length - 1 := by omega
    subst hi
    rw [hb] at h5
    cases h5
    omega
  · simp [hashMapIterator.operator_deref, h1, h4, indexAt_ok bs idx b h5,
      indexAt_ok b pos _ hbp, hp, bind, Except.bind]
  · obtain ⟨it', e1, e2⟩ := updateCurrBucket_spec bs idx (pos + 1) b
      { it with currBucketIt := ⟨(idx : Int), pos + 1⟩ } h1 h2 h3 rfl h5 (by omega)
    refine ⟨it', ?_, ?_⟩
    · have hne : it._bucketIdx ≠ it._capacity := by rw [h2, h3]; omega
      have hinc : vectorInc bs ⟨(idx : Int), pos⟩ = .ok ⟨(idx : Int), pos + 1⟩ := by
        simp [vectorInc, indexAt_ok bs idx b h5, hpos, bind, Except.bind, pure, Except.pure]
      have hcur : ((⟨(idx : Int), pos⟩ : VectorIt) != ⟨(idx : Int), b.length⟩) = true := by
        simp only [bne_iff_ne, ne_eq]
        intro hcon
        injection hcon with _ hc2
        omega
      unfold hashMapIterator.operator_inc
      rw [if_neg hne, h1, h3, h4, vectorEnd_ok bs idx b h5]
      simp only [bind, Except.bind, pure, Except.pure]
      rw [if_pos hcur, hinc]
      simp only [h1, h3] at e1 ⊢
      exact e1
    · rw [hrest]
      exact e2

/-- When no pair is left the iterator equals `end()`. -/
theorem iterAt_nil (bs : List (List (K × V))) (it last : hashMapIterator K V)
    (blast : List (K × V)) (h : IterAt bs it []) (hb : bs[bs.length - 1]? = some blast)
    (hl : last.currBucketIt = ⟨((bs.length - 1 : Nat) : Int), blast.length⟩) :
    it.operator_ne last = false := by
  obtain ⟨h1, h2, idx, pos, b, h3, h4, h5, h6, h7, h8⟩ := h
  have hlt : idx < bs.length := (List.getElem?_eq_some_iff.mp h5).1
  have hnil := List.append_eq_nil.mp h8.symm
  have hp : pos = b.length := by
    have := List.drop_eq_nil_iff.mp hnil.1
    omega
  have hidx : idx + 1 = bs.length := by
    rcases h7 with h7 | h7
    · omega
    · exact h7
  have hi : idx = bs.length - 1 := by omega
  subst hi
  rw [hb] at h5
  cases h5
  simp [hashMapIterator.operator_ne, h4, hl, hp]

/-- A range-based `for` that starts in front of the pairs `rest` runs its body
over `rest`, if it is granted a round for every pair. -/
theorem rangeForLoop_spec {σ β : Type} (body : σ → K × V → Except Err (σ ⊕ β))
    (bs : List (List (K × V))) (last : hashMapIterator K V) (blast : List (K × V))
    (hb : bs[bs.length - 1]? = some blast)
    (hl : last.currBucketIt = ⟨((bs.length - 1 : Nat) : Int), blast.length⟩) :
    ∀ (rest : List (K × V)) (fuel : Nat) (it : hashMapIterator K V) (s : σ),
      IterAt bs it rest → rest.length ≤ fuel →
      rangeForLoop body fuel it last s = foldSteps body rest s := by
  intro rest
  induction rest with
  | nil =>
    intro fuel it s h _
    have hne := iterAt_nil bs it last blast h hb hl
    cases fuel <;> simp [rangeForLoop, hne, foldSteps]
  | cons p rest ih =>
    intro fuel it s h hf
    obtain ⟨hne, hd, it', hinc, hit'⟩ := iterAt_cons bs it last p rest blast h hb hl
    cases fuel with
    | zero => simp at hf
    | succ n =>
      simp only [rangeForLoop, hne, if_true, hd, bind, Except.bind, foldSteps]
      cases hbody : body s p with
      | error e => rfl
      | ok r =>
        cases r with
        | inl s' =>
          simp only [hinc]
          exact ih n it' s' hit' (by simpa using hf)
        | inr b => rfl

/-- On a table with exactly `capacity()` buckets, at least two, a range-based
`for` runs its body over the entries of the table, bucket after bucket. -/
theorem rangeFor_spec {σ β : Type} (body : σ → K × V → Except Err (σ ⊕ β))
    (m : HashMap K V) (hlen : (m._buckets.length : Int) = m._capacity)
    (hcap : 2 ≤ m._capacity) (fuel : Nat) (hf : (entries m).length ≤ fuel) (s : σ) :
    rangeFor fuel m body s = foldSteps body (entries m) s := by
  obtain ⟨it, e1, e2⟩ := begin_spec m hlen hcap
  obtain ⟨last, blast, l1, l2, l3⟩ := end_spec m hlen (by omega)
  simp only [rangeFor, e1, l1, bind, Except.bind]
  exact rangeForLoop_spec body m._buckets last blast l2 l3 (entries m) fuel it s e2 hf

theorem foldSteps_collect (l : List (K × V)) :
    ∀ acc : List (K × V),
      foldSteps (fun (acc : List (K × V)) element =>
        (.ok (.inl (acc ++ [element])) : Except Err (List (K × V) ⊕ Unit))) l acc
        = .ok (.inl (acc ++ l)) := by
  induction l with
  | nil => intro acc; simp [foldSteps]
  | cons p ps ih =>
    intro acc
    simp only [foldSteps, bind, Except.bind]
    rw [ih]
    simp

theorem iterate_spec (m : HashMap K V) (hlen : (m._buckets.length : Int) = m._capacity)
    (hcap : 2 ≤ m._capacity) (fuel : Nat) (hf : (entries m).length ≤ fuel) :
    iterate fuel m = .ok (entries m) := by
  simp only [iterate, rangeFor_spec _ m hlen hcap fuel hf, bind, Except.bind, pure, Except.pure]
  rw [foldSteps_collect]
  rfl

theorem ratioGt_upper (sz c : Int) (hc : 1 ≤ c) :
    ratioGt sz c DEFAULT_UPPER_LOAD_FACTOR = decide (3 * c < sz * 4) := by
  have hne : c ≠ 0 := by omega
  have hpos : 0 < c := by omega
  simp [ratioGt, hne, hpos, DEFAULT_UPPER_LOAD_FACTOR]

theorem ratioLt_lower (sz c : Int) (hc : 1 ≤ c) :
    ratioLt sz c DEFAULT_LOWER_LOAD_FACTOR = decide (sz * 4 < c) := by
  have hne : c ≠ 0 := by omega
  have hpos : 0 < c := by omega
  simp [ratioLt, hne, hpos, DEFAULT_LOWER_LOAD_FACTOR]

/-- What the growing loop returns, when it returns: a capacity in the `int` range
at which the load factor is at most 0.75, reached by at least one doubling from a
capacity at which it was above 0.75, or the capacity it started from. -/
theorem upsizeLoop_result (sz : Int) :
    ∀ (fuel : Nat) (c c' : Int), 1 ≤ c → c ≤ INT_MAX →
      upsizeLoop fuel sz c DEFAULT_UPPER_LOAD_FACTOR = .ok c' →
      c ≤ c' ∧ c' ≤ INT_MAX ∧ sz * 4 ≤ 3 * c' ∧ (c' = c ∨ 3 * c' < sz * 8) := by
  intro fuel
  induction fuel with
  | zero =>
    intro c c' _ _ h
    cases h
  | succ n ih =>
    intro c c' h1 h2 h
    unfold upsizeLoop at h
    rw [ratioGt_upper sz c h1] at h
    by_cases hc : 3 * c < sz * 4
    · simp only [hc, decide_True, if_true] at h
      unfold checkedInt RESIZE_FACTOR at h
      by_cases hr : INT_MIN ≤ c * 2 ∧ c * 2 ≤ INT_MAX
      · rw [if_pos hr] at h
        simp only [bind, Except.bind] at h
        obtain ⟨a1, a2, a3, a4⟩ := ih (c * 2) c' (by omega) hr.2 h
        refine ⟨by omega, a2, a3, Or.inr ?_⟩
        rcases a4 with a4 | a4
        · omega
        · exact a4
      · rw [if_neg hr] at h
        simp only [bind, Except.bind] at h
        cases h
    · simp only [hc, decide_False, Bool.false_eq_true, if_false] at h
      cases h
      exact ⟨le_refl _, h2, by omega, Or.inl rfl⟩

/-- What the shrinking loop returns for a non-empty table, when it returns: a
capacity of at least 1 at which the load factor is at least 0.25, and at most 0.5
if the capacity was halved at all. -/
theorem downsizeLoop_result (sz : Int) (hs : 1 ≤ sz) :
    ∀ (fuel : Nat) (c c' : Int), 1 ≤ c →
      downsizeLoop fuel sz c DEFAULT_LOWER_LOAD_FACTOR = .ok c' →
      1 ≤ c' ∧ c' ≤ c ∧ c' ≤ sz * 4 ∧ (c' = c ∨ sz * 4 ≤ 2 * c') ∧ (2 ≤ c → 2 ≤ c') := by
  intro fuel
  induction fuel with
  | zero =>
    intro c c' _ h
    cases h
  | succ n ih =>
    intro c c' h1 h
    unfold downsizeLoop at h
    rw [ratioLt_lower sz c h1] at h
    by_cases hc : sz * 4 < c
    · simp only [hc, decide_True, if_true] at h
      have hdiv : Int.tdiv c RESIZE_FACTOR = c / 2 := by
        unfold RESIZE_FACTOR
        exact Int.tdiv_eq_ediv (by omega) (by norm_num)
      rw [hdiv] at h
      obtain ⟨a1, a2, a3, a4, a5⟩ := ih (c / 2) c' (by omega) h
      refine ⟨a1, by omega, a3, Or.inr ?_, fun _ => a5 (by omega)⟩
      rcases a4 with a4 | a4
      · omega
      · exact a4
    · simp only [hc, decide_False, Bool.false_eq_true, if_false] at h
      cases h
      exact ⟨h1, le_refl _, by omega, Or.inl rfl, fun h => h⟩

/-- A resize of a non-empty table that returns keeps the invariants, the entries
and the size, and returns a capacity as the loop it ran describes. -/
theorem resize_result (hash : K → Nat) (m m' : HashMap K V) (hwf : Invariants hash m)
    (hs1 : 1 ≤ m._size) (upsize : Bool) (h : _resize hash m upsize = .ok m') :
    Invariants hash m' ∧ (entries m').Perm (entries m) ∧ m'._size = m._size ∧
      (upsize = true → m._capacity ≤ m'._capacity ∧ m._size * 4 ≤ 3 * m'._capacity ∧
        (m'._capacity = m._capacity ∨ 3 * m'._capacity < m._size * 8)) ∧
      (upsize = false → m'._capacity ≤ m._size * 4 ∧
        (m'._capacity = m._capacity ∨ m._size * 4 ≤ 2 * m'._capacity) ∧
        (2 ≤ m._capacity → 2 ≤ m'._capacity)) := by
  unfold _resize at h
  cases hloop : (if upsize = true then
      upsizeLoop LOOP_FUEL (size m) (capacity m) m._upperLoadFactor
      else downsizeLoop LOOP_FUEL (size m) (capacity m) m._lowerLoadFactor) with
  | error e =>
    rw [hloop] at h
    simp only [bind, Except.bind] at h
    cases h
  | ok c' =>
    rw [hloop] at h
    simp only [bind, Except.bind] at h
    have hc : 1 ≤ c' ∧ c' ≤ INT_MAX ∧
        (upsize = true → m._capacity ≤ c' ∧ m._size * 4 ≤ 3 * c' ∧
          (c' = m._capacity ∨ 3 * c' < m._size * 8)) ∧
        (upsize = false → c' ≤ m._size * 4 ∧
          (c' = m._capacity ∨ m._size * 4 ≤ 2 * c') ∧ (2 ≤ m._capacity → 2 ≤ c')) := by
      cases upsize with
      | true =>
        simp only [if_true, size, capacity, hwf.upper] at hloop
        obtain ⟨a1, a2, a3, a4⟩ := upsizeLoop_result m._size LOOP_FUEL m._capacity c'
          hwf.capacity_pos hwf.capacity_range hloop
        have := hwf.capacity_pos
        exact ⟨by omega, a2, fun _ => ⟨a1, a3, a4⟩, fun h => Bool.noConfusion h⟩
      | false =>
        simp only [Bool.false_eq_true, if_false, size, capacity, hwf.lower] at hloop
        obtain ⟨a1, a2, a3, a4, a5⟩ := downsizeLoop_result m._size hs1 LOOP_FUEL m._capacity c'
          hwf.capacity_pos hloop
        have := hwf.capacity_range
        exact ⟨a1, by omega, fun h => Bool.noConfusion h, fun _ => ⟨a3, a4, a5⟩⟩
    obtain ⟨hc1, hc2, hup, hdown⟩ := hc
    obtain ⟨t, e1, e2, e3, e4⟩ := rehash_spec hash { m with _capacity := c' } m._capacity
      hc1 hc2 hwf.buckets_length
    simp only [capacity] at h
    rw [e1] at h
    cases h
    refine ⟨?_, e3, rfl, hup, hdown⟩
    refine ⟨hwf.size_range, hc1, hc2, e2, ?_, placed_congr hash t rfl e4, ?_, hwf.upper, hwf.lower⟩
    · show m._size = ((t.flatten).length : Int)
      rw [e3.length_eq]
      exact hwf.size_eq
    · show (t.flatten.map Prod.fst).Nodup
      exact ((e3.map Prod.fst).nodup_iff).mpr hwf.unique

/-- The resize check on a non-empty table, when it returns, keeps the invariants,
the entries and the size and leaves the load factor between 0.25 and 0.75. -/
theorem checkResize_result (hash : K → Nat) (m m' : HashMap K V) (hwf : Invariants hash m)
    (hs1 : 1 ≤ m._size) (h : _checkResize hash m = .ok m') :
    Invariants hash m' ∧ (entries m').Perm (entries m) ∧ m'._size = m._size ∧
      m'._size * 4 ≤ 3 * m'._capacity ∧ m'._capacity ≤ m'._size * 4 ∧
      (2 ≤ m._capacity → 2 ≤ m'._capacity) := by
  unfold _checkResize at h
  have hc1 := hwf.capacity_pos
  by_cases hgt : ratioGt (size m) (capacity m) m._upperLoadFactor = true
  · rw [if_pos hgt] at h
    cases h1 : _resize hash m true with
    | error e =>
      rw [h1] at h
      simp only [bind, Except.bind] at h
      cases h
    | ok m1 =>
      rw [h1] at h
      simp only [bind, Except.bind] at h
      obtain ⟨a1, a2, a3, a4, _⟩ := resize_result hash m m1 hwf hs1 true h1
      obtain ⟨b1, b2, b3⟩ := a4 rfl
      have hgt' : 3 * m._capacity < m._size * 4 := by
        simp only [size, capacity, hwf.upper, ratioGt_upper m._size m._capacity hc1,
          decide_eq_true_eq] at hgt
        exact hgt
      have hb3 : 3 * m1._capacity < m._size * 8 := by
        rcases b3 with b3 | b3
        · rw [b3] at b2
          omega
        · exact b3
      have hnlt : ¬ (m1._size * 4 < m1._capacity) := by omega
      have hlt : ratioLt (size m1) (capacity m1) m1._lowerLoadFactor = false := by
        simp only [size, capacity, a1.lower, ratioLt_lower m1._size m1._capacity a1.capacity_pos,
          decide_eq_false_iff_not]
        exact hnlt
      rw [hlt] at h
      simp only [Bool.false_eq_true, if_false, pure, Except.pure] at h
      cases h
      exact ⟨a1, a2, a3, by omega, by omega, fun _ => by omega⟩
  · rw [if_neg hgt] at h
    simp only [bind, Except.bind, pure, Except.pure] at h
    have hgt' : m._size * 4 ≤ 3 * m._capacity := by
      simp only [size, capacity, hwf.upper, ratioGt_upper m._size m._capacity hc1,
        decide_eq_true_eq] at hgt
      omega
    by_cases hlt : ratioLt (size m) (capacity m) m._lowerLoadFactor = true
    · rw [if_pos hlt] at h
      obtain ⟨a1, a2, a3, _, a5⟩ := resize_result hash m m' hwf hs1 false h
      obtain ⟨b1, b2, b3⟩ := a5 rfl
      have hlt' : m._size * 4 < m._capacity := by
        simp only [size, capacity, hwf.lower, ratioLt_lower m._size m._capacity hc1,
          decide_eq_true_eq] at hlt
        exact hlt
      refine ⟨a1, a2, a3, ?_, by omega, b3⟩
      rcases b2 with b2 | b2
      · omega
      · omega
    · rw [if_neg hlt] at h
      cases h
      have hlt' : m._capacity ≤ m._size * 4 := by
        simp only [size, capacity, hwf.lower, ratioLt_lower m._size m._capacity hc1,
          decide_eq_true_eq] at hlt
        omega
      exact ⟨hwf, List.Perm.refl _, rfl, hgt', hlt', fun h => h⟩

/-- The part of `insert` of an absent key before the resize check: the entry is
appended to the bucket of its hash code, the invariants hold, and `insert` returns
what the resize check returns. -/
theorem insert_pre (hash : K → Nat) (m : HashMap K V) (hwf : Invariants hash m) (k : K) (v : V)
    (habs : containsKey hash m k = .ok false) (hsz : m._size + 1 ≤ INT_MAX) :
    ∃ m1 : HashMap K V, Invariants hash m1 ∧ m1._size = m._size + 1 ∧
      m1._capacity = m._capacity ∧ (entries m1).Perm ((k, v) :: entries m) ∧
      insert hash m k v = (fun m' => (true, m')) <$> _checkResize hash m1 := by
  have hk : k ∉ keys m := absent_of_containsKey hash m hwf k habs
  obtain ⟨i, b, hi, hb, _, _, _⟩ := bucket_view hash m hwf k
  have hsz0 : 0 ≤ m._size := by rw [hwf.size_eq]; omega
  have hck : checkedInt (m._size + 1) = .ok (m._size + 1) := by
    apply checkedInt_ok
    · unfold INT_MIN; omega
    · exact hsz
  have hpush := pushBackAt_ok m._buckets i b (k, v) hb
  have hperm := flatten_set_perm m._buckets i b (k, v) hb
  refine ⟨{ m with _size := m._size + 1, _buckets := m._buckets.set i (b ++ [(k, v)]) },
    ?_, rfl, rfl, hperm, ?_⟩
  · refine ⟨hsz, hwf.capacity_pos, hwf.capacity_range, ?_, ?_, ?_, ?_, hwf.upper, hwf.lower⟩
    · simpa using hwf.buckets_length
    · show m._size + 1 = (((m._buckets.set i (b ++ [(k, v)])).flatten).length : Int)
      rw [hperm.length_eq, List.length_cons]
      have := hwf.size_eq
      unfold entries at this
      omega
    · exact placed_congr hash _ rfl (placed_set hash m m._buckets i b (k, v) hb hi hwf.placed)
    · show (((m._buckets.set i (b ++ [(k, v)])).flatten).map Prod.fst).Nodup
      rw [(hperm.map Prod.fst).nodup_iff]
      simp only [List.map_cons, List.nodup_cons]
      exact ⟨hk, hwf.unique⟩
  · simp only [insert, habs, hck, hi, hpush, bind, Except.bind, pure, Except.pure,
      Bool.false_eq_true, if_false, Functor.map, Except.map]

/-- An insert that would make `_size` overflow does not return. -/
theorem insert_overflow (hash : K → Nat) (m : HashMap K V) (k : K) (v : V)
    (habs : containsKey hash m k = .ok false) (hsz : ¬ (m._size + 1 ≤ INT_MAX)) :
    insert hash m k v = .error .undefined_behaviour := by
  have hck : checkedInt (m._size + 1) = .error .undefined_behaviour := by
    unfold checkedInt
    rw [if_neg (fun h => hsz h.2)]
  simp only [insert, habs, hck, bind, Except.bind, pure, Except.pure, Bool.false_eq_true,
    if_false]

/-- The part of `erase` of a present key before the resize check, with the result
of `erase` in terms of the result of the resize check. -/
theorem erase_pre_eq (hash : K → Nat) (m : HashMap K V) (hwf : Invariants hash m) (k : K)
    (hpres : containsKey hash m k = .ok true) :
    ∃ (v : V) (m1 : HashMap K V), Invariants hash m1 ∧ m1._size = m._size - 1 ∧
      m1._capacity = m._capacity ∧ (entries m).Perm ((k, v) :: entries m1) ∧
      erase hash m k = (fun m' => (true, m')) <$> _checkResize hash m1 := by
  have hk : k ∈ keys m := present_of_containsKey hash m hwf k hpres
  obtain ⟨⟨k', v⟩, hv, hkk⟩ := List.mem_map.mp hk
  simp only at hkk
  subst hkk
  obtain ⟨i, j, b, hi, hb, hj, hbj⟩ := lookup_view hash m hwf k' v hv
  have hjlt : j < b.length := (List.getElem?_eq_some_iff.mp hbj).1
  have hperm := flatten_set_perm_remove m._buckets i b (b.eraseIdx j) (k', v) hb
    (eraseIdx_perm b j (k', v) hbj)
  have hlen1 : (entries m).length = (m._buckets.set i (b.eraseIdx j)).flatten.length + 1 := by
    have := hperm.length_eq
    simpa [entries] using this
  have hsz := hwf.size_eq
  have hsr := hwf.size_range
  have hck : checkedInt (m._size - 1) = .ok (m._size - 1) := by
    apply checkedInt_ok
    · unfold INT_MIN; omega
    · unfold INT_MAX at *; omega
  refine ⟨v, { m with _size := m._size - 1, _buckets := m._buckets.set i (b.eraseIdx j) },
    ?_, rfl, rfl, hperm, ?_⟩
  · refine ⟨?_, hwf.capacity_pos, hwf.capacity_range, ?_, ?_, ?_, ?_, hwf.upper, hwf.lower⟩
    · show m._size - 1 ≤ INT_MAX
      omega
    · simpa using hwf.buckets_length
    · show m._size - 1 = (((m._buckets.set i (b.eraseIdx j)).flatten).length : Int)
      omega
    · exact placed_congr hash _ rfl (placed_set_sub hash m m._buckets i b (b.eraseIdx j) hb
        (fun p hp => (List.eraseIdx_sublist b j).subset hp) hwf.placed)
    · show (((m._buckets.set i (b.eraseIdx j)).flatten).map Prod.fst).Nodup
      have h1 : ((m._buckets.flatten).map Prod.fst).Nodup := hwf.unique
      rw [(hperm.map Prod.fst).nodup_iff] at h1
      exact (List.nodup_cons.mp h1).2
  · have hve : vectorErase b (j : Int) = .ok (b.eraseIdx j) := by
      simp [vectorErase, hjlt]
    have hni := noInvalid_checkResize hash
      { m with _size := m._size - 1, _buckets := m._buckets.set i (b.eraseIdx j) }
    simp only [erase, eraseBody, bucketIndex, hpres, hi, hj, indexAt_ok _ i b hb, hve, hck,
      bind, Except.bind, pure, Except.pure, if_true, Int.toNat_ofNat, Functor.map, Except.map]
    cases hr : _checkResize hash
      { m with _size := m._size - 1, _buckets := m._buckets.set i (b.eraseIdx j) } with
    | ok m' => rfl
    | error e =>
      cases e with
      | invalid_argument s => exact absurd hr (hni s)
      | _ => rfl

/-- Every call on the table without buckets fails. -/
theorem erase_no_buckets (hash : K → Nat) (m : HashMap K V) (k : K) (h : m._buckets = []) :
    erase hash m k = .error .undefined_behaviour := by
  simp only [erase, eraseBody, containsKey_no_buckets hash m k h, bind, Except.bind]

/-- What `insert` returns on a table that satisfies the invariants, when it
returns. -/
theorem insert_result (hash : K → Nat) (m m' : HashMap K V) (hwf : Invariants hash m) (k : K)
    (v : V) (b : Bool) (h : insert hash m k v = .ok (b, m')) :
    (b = false ∧ m' = m ∧ k ∈ keys m) ∨
    (b = true ∧ k ∉ keys m ∧ Invariants hash m' ∧ (entries m').Perm ((k, v) :: entries m) ∧
      m'._size = m._size + 1 ∧ m'._size * 4 ≤ 3 * m'._capacity ∧
      m'._capacity ≤ m'._size * 4 ∧ (2 ≤ m._capacity → 2 ≤ m'._capacity)) := by
  by_cases hk : k ∈ keys m
  · left
    have hpres : containsKey hash m k = .ok true := by
      rw [containsKey_spec hash m hwf k]; simp [hk]
    have : insert hash m k v = .ok (false, m) := by
      simp [insert, hpres, bind, Except.bind, pure, Except.pure]
    rw [this] at h
    cases h
    exact ⟨rfl, rfl, hk⟩
  · right
    have habs : containsKey hash m k = .ok false := by
      rw [containsKey_spec hash m hwf k]; simp [hk]
    by_cases hsz : m._size + 1 ≤ INT_MAX
    · obtain ⟨m1, a1, a2, a3, a4, a5⟩ := insert_pre hash m hwf k v habs hsz
      rw [a5] at h
      have hs0 : 0 ≤ m._size := by rw [hwf.size_eq]; omega
      cases hr : _checkResize hash m1 with
      | error e =>
        rw [hr] at h
        cases h
      | ok m2 =>
        rw [hr] at h
        cases h
        obtain ⟨c1, c2, c3, c4, c5, c6⟩ := checkResize_result hash m1 m' a1 (by omega) hr
        exact ⟨rfl, hk, c1, c2.trans a4, by omega, c4, c5, fun h2 => c6 (by omega)⟩
    · rw [insert_overflow hash m k v habs hsz] at h
      cases h

/-- What `erase` returns on a table that satisfies the invariants, when it
returns: nothing changes for an absent key; for a present key the entry is
removed, and either an entry is left and the invariants and the load-factor bounds
hold, or the table has become the table without buckets. -/
theorem erase_result (hash : K → Nat) (m m' : HashMap K V) (hwf : Invariants hash m) (k : K)
    (b : Bool) (h : erase hash m k = .ok (b, m')) :
    (b = false ∧ m' = m ∧ k ∉ keys m) ∨
    (b = true ∧ k ∈ keys m ∧ m'._size = m._size - 1 ∧
      ((2 ≤ m._size ∧ Invariants hash m' ∧ (∃ v, (entries m).Perm ((k, v) :: entries m')) ∧
          m'._size * 4 ≤ 3 * m'._capacity ∧ m'._capacity ≤ m'._size * 4 ∧
          (2 ≤ m._capacity → 2 ≤ m'._capacity)) ∨
        (m._size = 1 ∧ Dead m'))) := by
  by_cases hk : k ∈ keys m
  · right
    have hpres : containsKey hash m k = .ok true := by
      rw [containsKey_spec hash m hwf k]; simp [hk]
    obtain ⟨v, m1, a1, a2, a3, a4, a5⟩ := erase_pre_eq hash m hwf k hpres
    have hlen : 1 ≤ m._size := by
      rw [hwf.size_eq, a4.length_eq]
      simp
    by_cases hs : 2 ≤ m._size
    · rw [a5] at h
      cases hr : _checkResize hash m1 with
      | error e =>
        rw [hr] at h
        cases h
      | ok m2 =>
        rw [hr] at h
        cases h
        obtain ⟨c1, c2, c3, c4, c5, c6⟩ := checkResize_result hash m1 m' a1 (by omega) hr
        exact ⟨rfl, hk, by omega, Or.inl ⟨hs, c1, ⟨v, a4.trans (c2.symm.cons _)⟩, c4, c5,
          fun h2 => c6 (by omega)⟩⟩
    · have h0 : m1._size = 0 := by omega
      rw [a5, checkResize_empty hash m1 a1 h0] at h
      cases h
      exact ⟨rfl, hk, by show m1._size = m._size - 1; omega,
        Or.inr ⟨by omega, h0, rfl, rfl⟩⟩
  · left
    have habs : containsKey hash m k = .ok false := by
      rw [containsKey_spec hash m hwf k]; simp [hk]
    have hno : erase hash m k = .ok (false, m) := by
      simp [erase, eraseBody, habs, bind, Except.bind, pure, Except.pure]
    rw [hno] at h
    cases h
    exact ⟨rfl, rfl, hk⟩

theorem upsizeLoop_pow2 (sz : Int) (f : LoadFactor) :
    ∀ (fuel : Nat) (c c' : Int), IsPow2 c → upsizeLoop fuel sz c f = .ok c' → IsPow2 c' := by
  intro fuel
  induction fuel with
  | zero => intro c c' _ h; cases h
  | succ n ih =>
    intro c c' hp h
    unfold upsizeLoop at h
    split at h
    · unfold checkedInt RESIZE_FACTOR at h
      split at h
      · simp only [bind, Except.bind] at h
        obtain ⟨e, he⟩ := hp
        exact ih (c * 2) c' ⟨e + 1, by rw [he, pow_succ]⟩ h
      · simp only [bind, Except.bind] at h
        cases h
    · cases h
      exact hp

theorem downsizeLoop_pow2 (sz : Int) (hs : 1 ≤ sz) :
    ∀ (fuel : Nat) (c c' : Int), IsPow2 c →
      downsizeLoop fuel sz c DEFAULT_LOWER_LOAD_FACTOR = .ok c' → IsPow2 c' := by
  intro fuel
  induction fuel with
  | zero => intro c c' _ h; cases h
  | succ n ih =>
    intro c c' hp h
    obtain ⟨e, he⟩ := hp
    have h1 : 1 ≤ c := by
      rw [he]
      exact one_le_pow₀ (by norm_num)
    unfold downsizeLoop at h
    rw [ratioLt_lower sz c h1] at h
    by_cases hc : sz * 4 < c
    · simp only [hc, decide_True, if_true] at h
      have hdiv : Int.tdiv c RESIZE_FACTOR = c / 2 := by
        unfold RESIZE_FACTOR
        exact Int.tdiv_eq_ediv (by omega) (by norm_num)
      rw [hdiv] at h
      cases e with
      | zero =>
        simp at he
        omega
      | succ e' =>
        refine ih (c / 2) c' ⟨e', ?_⟩ h
        rw [he, pow_succ]
        simp
    · simp only [hc, decide_False, Bool.false_eq_true, if_false] at h
      cases h
      exact ⟨e, he⟩

theorem rehash_capacity (hash : K → Nat) (m m' : HashMap K V) (prev : Int)
    (h : _rehash hash m prev = .ok m') : m'._capacity = m._capacity := by
  unfold _rehash at h
  cases h1 : (newTable m._capacity : Except Err (List (List (K × V)))) with
  | error e => simp only [h1, bind, Except.bind] at h; cases h
  | ok t =>
    cases h2 : firstBuckets m._buckets prev with
    | error e => simp only [h1, h2, bind, Except.bind] at h; cases h
    | ok old =>
      cases h3 : old.foldlM (fun t bucket => placeBucket hash m bucket t) t with
      | error e => simp only [h1, h2, h3, bind, Except.bind] at h; cases h
      | ok t' =>
        simp only [h1, h2, h3, bind, Except.bind, pure, Except.pure] at h
        cases h
        rfl

theorem resize_pow2 (hash : K → Nat) (m m' : HashMap K V) (hwf : Invariants hash m)
    (hs1 : 1 ≤ m._size) (upsize : Bool) (hp : IsPow2 m._capacity)
    (h : _resize hash m upsize = .ok m') : IsPow2 m'._capacity := by
  unfold _resize at h
  cases hloop : (if upsize = true then
      upsizeLoop LOOP_FUEL (size m) (capacity m) m._upperLoadFactor
      else downsizeLoop LOOP_FUEL (size m) (capacity m) m._lowerLoadFactor) with
  | error e =>
    rw [hloop] at h
    simp only [bind, Except.bind] at h
    cases h
  | ok c' =>
    rw [hloop] at h
    simp only [bind, Except.bind] at h
    rw [rehash_capacity hash _ m' _ h]
    show IsPow2 c'
    cases upsize with
    | true =>
      simp only [if_true] at hloop
      exact upsizeLoop_pow2 _ _ _ _ _ hp hloop
    | false =>
      simp only [Bool.false_eq_true, if_false, size, capacity, hwf.lower] at hloop
      exact downsizeLoop_pow2 _ hs1 _ _ _ hp hloop

theorem checkResize_pow2 (hash : K → Nat) (m m' : HashMap K V) (hwf : Invariants hash m)
    (hs1 : 1 ≤ m._size) (hp : IsPow2 m._capacity) (h : _checkResize hash m = .ok m') :
    IsPow2 m'._capacity := by
  unfold _checkResize at h
  cases h1 : (if ratioGt (size m) (capacity m) m._upperLoadFactor = true
      then _resize hash m true else pure m) with
  | error e =>
    rw [h1] at h
    simp only [bind, Except.bind] at h
    cases h
  | ok m1 =>
    rw [h1] at h
    simp only [bind, Except.bind] at h
    have hm1 : Invariants hash m1 ∧ m1._size = m._size ∧ IsPow2 m1._capacity := by
      split at h1
      · obtain ⟨a1, _, a3, _⟩ := resize_result hash m m1 hwf hs1 true h1
        exact ⟨a1, a3, resize_pow2 hash m m1 hwf hs1 true hp h1⟩
      · cases h1
        exact ⟨hwf, rfl, hp⟩
    split at h
    · exact resize_pow2 hash m1 m' hm1.1 (by omega) false hm1.2.2 h
    · cases h
      exact hm1.2.2

theorem alive_default (hash : K → Nat) : Alive hash (HashMap_default : HashMap K V) :=
  ⟨invariants_default hash, ⟨4, by simp [HashMap_default, START_CAPACITY]⟩,
    by simp [HashMap_default, START_CAPACITY],
    by simp [HashMap_default, START_CAPACITY, ELEMENT_NUMBER]⟩

/-- An insert into a table that is alive returns, if it returns, a table that is
alive. -/
theorem alive_insert (hash : K → Nat) (m m' : HashMap K V) (k : K) (v : V) (b : Bool)
    (ha : Alive hash m) (h : insert hash m k v = .ok (b, m')) : Alive hash m' := by
  obtain ⟨hwf, hp, hc, hl⟩ := ha
  rcases insert_result hash m m' hwf k v b h with ⟨_, hm, _⟩ | ⟨_, hk, c1, c2, c3, c4, c5, c6⟩
  · rw [hm]
    exact ⟨hwf, hp, hc, hl⟩
  · refine ⟨c1, ?_, c6 hc, c4⟩
    have habs : containsKey hash m k = .ok false := by
      rw [containsKey_spec hash m hwf k]; simp [hk]
    have hs0 : 0 ≤ m._size := by rw [hwf.size_eq]; omega
    have hsz : m._size + 1 ≤ INT_MAX := by
      have := c1.size_range
      omega
    obtain ⟨m1, a1, a2, a3, _, a5⟩ := insert_pre hash m hwf k v habs hsz
    rw [a5] at h
    cases hr : _checkResize hash m1 with
    | error e => rw [hr] at h; cases h
    | ok m2 =>
      rw [hr] at h
      cases h
      exact checkResize_pow2 hash m1 m' a1 (by omega) (by rw [a3]; exact hp) hr

/-- An erase on a table that is alive returns, if it returns, a table that is alive
or the table without buckets. -/
theorem alive_erase (hash : K → Nat) (m m' : HashMap K V) (k : K) (b : Bool)
    (ha : Alive hash m) (h : erase hash m k = .ok (b, m')) : Alive hash m' ∨ Dead m' := by
  obtain ⟨hwf, hp, hc, hl⟩ := ha
  rcases erase_result hash m m' hwf k b h with ⟨_, hm, _⟩ | ⟨_, hk, _, hcase⟩
  · left
    rw [hm]
    exact ⟨hwf, hp, hc, hl⟩
  · rcases hcase with ⟨hs, c1, _, c4, _, c6⟩ | ⟨_, hd⟩
    · left
      refine ⟨c1, ?_, c6 hc, c4⟩
      have hpres : containsKey hash m k = .ok true := by
        rw [containsKey_spec hash m hwf k]; simp [hk]
      obtain ⟨v, m1, a1, a2, a3, _, a5⟩ := erase_pre_eq hash m hwf k hpres
      rw [a5] at h
      cases hr : _checkResize hash m1 with
      | error e => rw [hr] at h; cases h
      | ok m2 =>
        rw [hr] at h
        cases h
        exact checkResize_pow2 hash m1 m' a1 (by omega) (by rw [a3]; exact hp) hr
    · right
      exact hd

/-- Every table built by `insert` and `erase` is alive or is the table without
buckets. -/
theorem reachable_alive_or_dead (hash : K → Nat) (m : HashMap K V) (h : Reachable hash m) :
    Alive hash m ∨ Dead m := by
  induction h with
  | default => exact Or.inl (alive_default hash)
  | insert m m' k v b _ hins ih =>
    rcases ih with ha | hd
    · exact Or.inl (alive_insert hash m m' k v b ha hins)
    · rw [insert_no_buckets hash m k v hd.2.2] at hins
      cases hins
  | erase m m' k b _ hers ih =>
    rcases ih with ha | hd
    · exact alive_erase hash m m' k b ha hers
    · rw [erase_no_buckets hash m k hd.2.2] at hers
      cases hers

/-- The capacity of a table built by `insert` and `erase` is a power of two and at
least 2, or it is 0. -/
theorem reachable_capacity (hash : K → Nat) (m : HashMap K V) (h : Reachable hash m) :
    (IsPow2 (capacity m) ∧ 2 ≤ capacity m) ∨ capacity m = 0 := by
  rcases reachable_alive_or_dead hash m h with ⟨_, hp, hc, _⟩ | ⟨_, hd, _⟩
  · exact Or.inl ⟨hp, hc⟩
  · exact Or.inr hd

theorem not_isPow2_zero : ¬ IsPow2 0 := by
  rintro ⟨n, hn⟩
  have : (0 : Int) < 2 ^ n := by positivity
  omega

/-- The table after `insert("x", 1)` and `erase("x")` on an empty table, for every
hash function. -/
theorem insert_erase_only_entry (hash : String → Nat) :
    ∃ m1 m2 : HashMap String Nat,
      insert hash HashMap_default "x" 1 = .ok (true, m1) ∧ Alive hash m1 ∧ m1._size = 1 ∧
      m1._capacity ≤ 4 ∧ erase hash m1 "x" = .ok (true, m2) ∧ Reachable hash m2 ∧ Dead m2 := by
  have hwf0 := invariants_default (V := Nat) hash
  have habs0 : containsKey hash (HashMap_default : HashMap String Nat) "x" = .ok false := by
    rw [containsKey_spec hash _ hwf0]
    simp [keys, entries_default]
  obtain ⟨m1, a1, a2, a3, a4⟩ := insert_spec hash HashMap_default hwf0 (by decide) "x" 1 habs0
  have hs1 : m1._size = 1 := by rw [a4]; rfl
  have hpres : containsKey hash m1 "x" = .ok true := by
    rw [containsKey_spec hash _ a2]
    have : "x" ∈ keys m1 :=
      List.mem_map.mpr ⟨("x", 1), a3.symm.subset (List.mem_cons_self _ _), rfl⟩
    simp [this]
  have halive := alive_insert hash _ m1 "x" 1 true (alive_default hash) a1
  have hcap : m1._capacity ≤ 4 := by
    rcases insert_result hash _ m1 hwf0 "x" 1 true a1 with ⟨h, _⟩ | ⟨_, _, _, _, _, _, c5, _⟩
    · cases h
    · omega
  obtain ⟨m2, e1, e2, e3, e4⟩ := erase_last_spec hash m1 a2 "x" hpres hs1
  have hr1 : Reachable hash m1 := Reachable.insert _ m1 "x" 1 true Reachable.default a1
  exact ⟨m1, m2, a1, halive, hs1, hcap, e1, Reachable.erase m1 m2 "x" true hr1 e1, e2, e3, e4⟩

/-- On the table without buckets `begin()` reads the bucket array outside its
bounds, so no walk starts. -/
theorem iterate_no_buckets (m : HashMap K V) (h : m._buckets = []) (fuel : Nat) :
    iterate fuel m = .error .undefined_behaviour := by
  have hb : begin_ m = .error .undefined_behaviour := by
    simp only [begin_, hashMapIterator_new, vectorBegin, h, bind, Except.bind]
    rfl
  simp only [iterate, rangeFor, hb, bind, Except.bind]

/-- Iteration completeness on a table that is alive: a walk that is granted a
round for every entry visits every key once, and the keys it visits are the keys
for which `containsKey` is true. -/
theorem iterate_complete (hash : K → Nat) (m : HashMap K V) (ha : Alive hash m) (fuel : Nat)
    (hf : m._size ≤ (fuel : Int)) :
    ∃ l, iterate fuel m = .ok l ∧ (l.map Prod.fst).Nodup ∧
      ∀ k, k ∈ l.map Prod.fst ↔ containsKey hash m k = .ok true := by
  obtain ⟨hwf, _, hc, _⟩ := ha
  have hlen : (entries m).length ≤ fuel := by
    have := hwf.size_eq
    omega
  refine ⟨entries m, iterate_spec m hwf.buckets_length hc fuel hlen, hwf.unique, ?_⟩
  intro k
  rw [containsKey_spec hash m hwf k]
  show k ∈ keys m ↔ _
  by_cases hk : k ∈ keys m <;> simp [hk]

theorem pushBackAt_result {α : Type} (t t' : List (List α)) (i : Int) (p : α)
    (h : pushBackAt t i p = .ok t') :
    t'.length = t.length ∧ t'.flatten.Perm (p :: t.flatten) := by
  unfold pushBackAt at h
  cases hi : indexAt t i with
  | error e => simp only [hi, bind, Except.bind] at h; cases h
  | ok b =>
    simp only [hi, bind, Except.bind, pure, Except.pure] at h
    cases h
    obtain ⟨_, hb⟩ := indexAt_eq_ok hi
    exact ⟨by simp, flatten_set_perm t i.toNat b p hb⟩

theorem placeBucket_result (hash : K → Nat) (m : HashMap K V) (bucket : List (K × V)) :
    ∀ t t' : List (List (K × V)), placeBucket hash m bucket t = .ok t' →
      t'.length = t.length ∧ t'.flatten.Perm (t.flatten ++ bucket) := by
  induction bucket with
  | nil =>
    intro t t' h
    cases h
    exact ⟨rfl, by simp⟩
  | cons p rest ih =>
    intro t t' h
    unfold placeBucket at h
    rw [List.foldlM_cons] at h
    cases h1 : pushBackAt t (_getHashCode hash m p.1) p with
    | error e => simp only [h1, bind, Except.bind] at h; cases h
    | ok t1 =>
      simp only [h1, bind, Except.bind] at h
      obtain ⟨a1, a2⟩ := pushBackAt_result t t1 _ p h1
      obtain ⟨b1, b2⟩ := ih t1 t' h
      refine ⟨by rw [b1, a1], b2.trans ?_⟩
      refine (a2.append_right rest).trans ?_
      simpa using (List.perm_middle :
        (t.flatten ++ p :: rest).Perm (p :: (t.flatten ++ rest))).symm

theorem placeBuckets_result (hash : K → Nat) (m : HashMap K V) (bs : List (List (K × V))) :
    ∀ t t' : List (List (K × V)),
      bs.foldlM (fun t bucket => placeBucket hash m bucket t) t = .ok t' →
      t'.length = t.length ∧ t'.flatten.Perm (t.flatten ++ bs.flatten) := by
  induction bs with
  | nil =>
    intro t t' h
    cases h
    exact ⟨rfl, by simp⟩
  | cons b rest ih =>
    intro t t' h
    rw [List.foldlM_cons] at h
    cases h1 : placeBucket hash m b t with
    | error e => simp only [h1, bind, Except.bind] at h; cases h
    | ok t1 =>
      simp only [h1, bind, Except.bind] at h
      obtain ⟨a1, a2⟩ := placeBucket_result hash m b t t1 h1
      obtain ⟨b1, b2⟩ := ih t1 t' h
      refine ⟨by rw [b1, a1], b2.trans ?_⟩
      simpa [List.append_assoc] using a2.append_right rest.flatten

/-- A rehash that reads all the buckets and returns keeps the data members other
than the buckets, makes `_capacity` buckets and keeps the entries up to their
order. -/
theorem rehash_result (hash : K → Nat) (m m' : HashMap K V) (prev : Int)
    (hlen : (m._buckets.length : Int) = prev) (h : _rehash hash m prev = .ok m') :
    m'._size = m._size ∧ m'._capacity = m._capacity ∧
      (m'._buckets.length : Int) = m._capacity ∧ (entries m').Perm (entries m) := by
  unfold _rehash at h
  have hold : firstBuckets m._buckets prev = .ok m._buckets := by
    simp [firstBuckets, ← hlen]
  unfold newTable at h
  by_cases hc : m._capacity < 0
  · rw [if_pos hc] at h
    simp only [bind, Except.bind] at h
    cases h
  · rw [if_neg hc, hold] at h
    simp only [bind, Except.bind] at h
    cases h3 : m._buckets.foldlM (fun t bucket => placeBucket hash m bucket t)
        (List.replicate m._capacity.toNat []) with
    | error e => rw [h3] at h; cases h
    | ok t' =>
      rw [h3] at h
      simp only [pure, Except.pure] at h
      cases h
      obtain ⟨a1, a2⟩ := placeBuckets_result hash m m._buckets _ t' h3
      refine ⟨rfl, rfl, ?_, ?_⟩
      · show (t'.length : Int) = m._capacity
        rw [a1]
        simp
        omega
      · show t'.flatten.Perm m._buckets.flatten
        simpa using a2

theorem keys_nodup_of_dead (m : HashMap K V) (h : Dead m) : (keys m).Nodup := by
  simp [keys, entries, h.2.2]

/-- What the non-const `operator[]` returns on a table that satisfies the
invariants, when it returns: the same table, or the table of an insert. -/
theorem operator_index_result [Inhabited V] (hash : K → Nat) (m m' : HashMap K V)
    (hwf : Invariants hash m) (k : K) (r : ValueRef)
    (h : operator_index hash m k = .ok (r, m')) :
    m' = m ∨ ∃ b, insert hash m k default = .ok (b, m') := by
  unfold operator_index at h
  rw [containsKey_spec hash m hwf k] at h
  simp only [bind, Except.bind] at h
  by_cases hk : k ∈ keys m
  · left
    simp only [hk, decide_True, Bool.not_true, Bool.false_eq_true, if_false, pure,
      Except.pure] at h
    cases h2 : _getInnerKeyIdx hash m k with
    | error e => simp only [h2] at h; cases h
    | ok j =>
      simp only [h2] at h
      cases h3 : refTo m (_getHashCode hash m k) j with
      | error e => simp only [h3] at h; cases h
      | ok r' =>
        simp only [h3] at h
        cases h
        rfl
  · right
    simp only [hk, decide_False, Bool.not_false, if_true, Functor.map, Except.map] at h
    cases h1 : insert hash m k default with
    | error e => simp only [h1] at h; cases h
    | ok bm =>
      obtain ⟨b, m1⟩ := bm
      simp only [h1] at h
      cases h2 : _getInnerKeyIdx hash m1 k with
      | error e => simp only [h2] at h; cases h
      | ok j =>
        simp only [h2] at h
        cases h3 : refTo m1 (_getHashCode hash m1 k) j with
        | error e => simp only [h3] at h; cases h
        | ok r' =>
          simp only [h3, pure, Except.pure] at h
          cases h
          exact ⟨b, rfl⟩

theorem operator_index_no_buckets [Inhabited V] (hash : K → Nat) (m : HashMap K V) (k : K)
    (h : m._buckets = []) : operator_index hash m k = .error .undefined_behaviour := by
  simp only [operator_index, containsKey_no_buckets hash m k h, bind, Except.bind]

/-- Every table built by `insert`, `erase` and the non-const `operator[]` is alive
or is the table without buckets. -/
theorem built_alive_or_dead [Inhabited V] (hash : K → Nat) (m : HashMap K V)
    (h : Built hash m) : Alive hash m ∨ Dead m := by
  induction h with
  | default => exact Or.inl (alive_default hash)
  | insert m m' k v b _ hins ih =>
    rcases ih with ha | hd
    · exact Or.inl (alive_insert hash m m' k v b ha hins)
    · rw [insert_no_buckets hash m k v hd.2.2] at hins
      cases hins
  | erase m m' k b _ hers ih =>
    rcases ih with ha | hd
    · exact alive_erase hash m m' k b ha hers
    · rw [erase_no_buckets hash m k hd.2.2] at hers
      cases hers
  | index m m' k r _ hidx ih =>
    rcases ih with ha | hd
    · rcases operator_index_result hash m m' ha.1 k r hidx with hm | ⟨b, hins⟩
      · rw [hm]
        exact Or.inl ha
      · exact Or.inl (alive_insert hash m m' k default b ha hins)
    · rw [operator_index_no_buckets hash m k hd.2.2] at hidx
      cases hidx

/-- One round of the loop of the bulk constructor keeps a table alive. -/
theorem alive_bulkStep (hash : K → Nat) (m m' : HashMap K V) (kv : K × V)
    (ha : Alive hash m) (h : bulkStep hash m kv = .ok m') : Alive hash m' := by
  unfold bulkStep at h
  rw [containsKey_spec hash m ha.1 kv.1] at h
  simp only [bind, Except.bind] at h
  cases h1 : (if decide (kv.1 ∈ keys m) = true then (fun r => r.2) <$> erase hash m kv.1
      else pure m) with
  | error e => rw [h1] at h; cases h
  | ok m1 =>
    rw [h1] at h
    simp only at h
    cases h2 : insert hash m1 kv.1 kv.2 with
    | error e => rw [h2] at h; cases h
    | ok bm =>
      obtain ⟨b, m2⟩ := bm
      rw [h2] at h
      simp only [pure, Except.pure] at h
      cases h
      have hm1 : Alive hash m1 ∨ Dead m1 := by
        split at h1
        · cases h3 : erase hash m kv.1 with
          | error e => rw [h3] at h1; cases h1
          | ok bm1 =>
            obtain ⟨b1, m1'⟩ := bm1
            rw [h3] at h1
            cases h1
            exact alive_erase hash m m1' kv.1 b1 ha h3
        · cases h1
          exact Or.inl ha
      rcases hm1 with ha1 | hd1
      · exact alive_insert hash m1 m' kv.1 kv.2 b ha1 h2
      · rw [insert_no_buckets hash m1 kv.1 kv.2 hd1.2.2] at h2
        cases h2

theorem alive_bulkLoop (hash : K → Nat) (kvs : List (K × V)) :
    ∀ m m' : HashMap K V, Alive hash m → kvs.foldlM (bulkStep hash) m = .ok m' →
      Alive hash m' := by
  induction kvs with
  | nil =>
    intro m m' ha h
    cases h
    exact ha
  | cons kv rest ih =>
    intro m m' ha h
    rw [List.foldlM_cons] at h
    cases h1 : bulkStep hash m kv with
    | error e => simp only [h1, bind, Except.bind] at h; cases h
    | ok m1 =>
      simp only [h1, bind, Except.bind] at h
      exact ih m1 m' (alive_bulkStep hash m m1 kv ha h1) h

/-- A table that the bulk constructor returns is alive. -/
theorem alive_keys_values (hash : K → Nat) (ks : List K) (vs : List V) (m : HashMap K V)
    (h : HashMap_keys_values hash ks vs = .ok m) : Alive hash m := by
  unfold HashMap_keys_values at h
  by_cases hlen : ks.length = vs.length
  · simp only [hlen, ne_eq, not_true, if_false, bind, Except.bind, pure, Except.pure] at h
    exact alive_bulkLoop hash _ _ m (alive_default hash) h
  · simp only [ne_eq, hlen, not_false_eq_true, if_true, bind, Except.bind, throw, throwThe,
      MonadExceptOf.throw] at h
    cases h

/-- A resize of a table with exactly `capacity()` buckets, when it returns, keeps
the size and the entries and leaves exactly `capacity()` buckets. -/
theorem resize_generic (hash : K → Nat) (m m' : HashMap K V) (upsize : Bool)
    (hlen : (m._buckets.length : Int) = m._capacity) (h : _resize hash m upsize = .ok m') :
    m'._size = m._size ∧ (m'._buckets.length : Int) = m'._capacity ∧
      (entries m').Perm (entries m) := by
  unfold _resize at h
  cases hloop : (if upsize = true then
      upsizeLoop LOOP_FUEL (size m) (capacity m) m._upperLoadFactor
      else downsizeLoop LOOP_FUEL (size m) (capacity m) m._lowerLoadFactor) with
  | error e =>
    rw [hloop] at h
    simp only [bind, Except.bind] at h
    cases h
  | ok c' =>
    rw [hloop] at h
    simp only [bind, Except.bind] at h
    obtain ⟨a1, a2, a3, a4⟩ := rehash_result hash { m with _capacity := c' } m' (capacity m)
      hlen h
    exact ⟨a1, by rw [a3, a2], a4⟩

theorem checkResize_generic (hash : K → Nat) (m m' : HashMap K V)
    (hlen : (m._buckets.length : Int) = m._capacity) (h : _checkResize hash m = .ok m') :
    m'._size = m._size ∧ (m'._buckets.length : Int) = m'._capacity ∧
      (entries m').Perm (entries m) := by
  unfold _checkResize at h
  cases h1 : (if ratioGt (size m) (capacity m) m._upperLoadFactor = true
      then _resize hash m true else pure m) with
  | error e =>
    rw [h1] at h
    simp only [bind, Except.bind] at h
    cases h
  | ok m1 =>
    rw [h1] at h
    simp only [bind, Except.bind] at h
    have hm1 : m1._size = m._size ∧ (m1._buckets.length : Int) = m1._capacity ∧
        (entries m1).Perm (entries m) := by
      split at h1
      · exact resize_generic hash m m1 true hlen h1
      · cases h1
        exact ⟨rfl, hlen, List.Perm.refl _⟩
    obtain ⟨a1, a2, a3⟩ := hm1
    split at h
    · obtain ⟨b1, b2, b3⟩ := resize_generic hash m1 m' false a2 h
      exact ⟨by omega, b2, b3.trans a3⟩
    · cases h
      exact ⟨a1, a2, a3⟩

/-- What `insert` does to the size and the entries of a table with exactly
`capacity()` buckets, when it returns. -/
theorem insert_generic (hash : K → Nat) (m m' : HashMap K V) (k : K) (v : V) (b : Bool)
    (hlen : (m._buckets.length : Int) = m._capacity) (h : insert hash m k v = .ok (b, m')) :
    (b = false ∧ m' = m) ∨
    (b = true ∧ m'._size = m._size + 1 ∧ (m'._buckets.length : Int) = m'._capacity ∧
      (entries m').Perm ((k, v) :: entries m)) := by
  unfold insert at h
  cases hc : containsKey hash m k with
  | error e => simp only [hc, bind, Except.bind] at h; cases h
  | ok c =>
    cases c with
    | true =>
      simp only [hc, bind, Except.bind, if_true, pure, Except.pure] at h
      cases h
      exact Or.inl ⟨rfl, rfl⟩
    | false =>
      right
      simp only [hc, bind, Except.bind, Bool.false_eq_true, if_false, pure, Except.pure] at h
      cases hk : checkedInt (m._size + 1) with
      | error e => simp only [hk] at h; cases h
      | ok sz =>
        have hsz : sz = m._size + 1 := by
          unfold checkedInt at hk
          split at hk
          · cases hk; rfl
          · cases hk
        subst hsz
        simp only [hk] at h
        cases hp : pushBackAt m._buckets (_getHashCode hash m k) (k, v) with
        | error e => simp only [hp] at h; cases h
        | ok t =>
          simp only [hp] at h
          obtain ⟨p1, p2⟩ := pushBackAt_result _ t _ _ hp
          cases hr : _checkResize hash { m with _size := m._size + 1, _buckets := t } with
          | error e => simp only [hr] at h; cases h
          | ok m2 =>
            simp only [hr] at h
            cases h
            obtain ⟨c1, c2, c3⟩ := checkResize_generic hash _ m' (by simpa [p1] using hlen) hr
            exact ⟨rfl, c1, c2, c3.trans p2⟩

/-- What `erase` does to the size and the entries of a table with exactly
`capacity()` buckets, when it returns. -/
theorem erase_generic (hash : K → Nat) (m m' : HashMap K V) (k : K) (b : Bool)
    (hlen : (m._buckets.length : Int) = m._capacity) (h : erase hash m k = .ok (b, m')) :
    (b = false ∧ m' = m) ∨
    (b = true ∧ m'._size = m._size - 1 ∧ (m'._buckets.length : Int) = m'._capacity ∧
      ∃ p, (entries m).Perm (p :: entries m')) := by
  have hbody : eraseBody hash m k = .ok (b, m') ∨ (b = false ∧ m' = m) := by
    unfold erase at h
    split at h
    · cases h
      exact Or.inr ⟨rfl, rfl⟩
    · exact Or.inl h
  rcases hbody with hbody | hno
  · unfold eraseBody at hbody
    cases hc : containsKey hash m k with
    | error e => simp only [hc, bind, Except.bind] at hbody; cases hbody
    | ok c =>
      cases c with
      | false =>
        simp only [hc, bind, Except.bind, Bool.false_eq_true, if_false, pure,
          Except.pure] at hbody
        cases hbody
        exact Or.inl ⟨rfl, rfl⟩
      | true =>
        right
        simp only [hc, bind, Except.bind, if_true, bucketIndex, pure, Except.pure] at hbody
        cases h1 : indexAt m._buckets (_getHashCode hash m k) with
        | error e => simp only [h1] at hbody; cases hbody
        | ok keyVec =>
          simp only [h1] at hbody
          cases h2 : _getInnerKeyIdx hash m k with
          | error e => simp only [h2] at hbody; cases hbody
          | ok j =>
            simp only [h2] at hbody
            cases h3 : vectorErase keyVec j with
            | error e => simp only [h3] at hbody; cases hbody
            | ok keyVec' =>
              simp only [h3] at hbody
              cases h4 : checkedInt (m._size - 1) with
              | error e => simp only [h4] at hbody; cases hbody
              | ok sz =>
                have hsz : sz = m._size - 1 := by
                  unfold checkedInt at h4
                  split at h4
                  · cases h4; rfl
                  · cases h4
                subst hsz
                simp only [h4] at hbody
                cases h5 : _checkResize hash { m with
                    _size := m._size - 1
                    _buckets := m._buckets.set (_getHashCode hash m k).toNat keyVec' } with
                | error e => simp only [h5] at hbody; cases hbody
                | ok m2 =>
                  simp only [h5] at hbody
                  cases hbody
                  obtain ⟨_, hkv⟩ := indexAt_eq_ok h1
                  have hj : 0 ≤ j ∧ j < keyVec.length ∧ keyVec' = keyVec.eraseIdx j.toNat := by
                    unfold vectorErase at h3
                    split at h3
                    · rename_i hcond
                      cases h3
                      exact ⟨hcond.1, hcond.2, rfl⟩
                    · cases h3
                  obtain ⟨hj0, hj1, hj2⟩ := hj
                  have hjn : j.toNat < keyVec.length := by omega
                  have hget : keyVec[j.toNat]? = some keyVec[j.toNat] :=
                    List.getElem?_eq_getElem hjn
                  have hperm := flatten_set_perm_remove m._buckets _ keyVec keyVec'
                    keyVec[j.toNat] hkv (by rw [hj2]; exact eraseIdx_perm keyVec _ _ hget)
                  obtain ⟨c1, c2, c3⟩ := checkResize_generic hash _ m'
                    (by simpa using hlen) h5
                  exact ⟨rfl, c1, c2, keyVec[j.toNat], hperm.trans (c3.symm.cons _)⟩
  · exact Or.inl hno

/-- The copy constructor on a table with exactly `capacity()` buckets, when it
returns, copies the size, the capacity and the load factors and keeps the entries
up to their order. -/
theorem copy_generic (hash : K → Nat) (t c : HashMap K V)
    (hlen : (t._buckets.length : Int) = t._capacity) (h : HashMap_copy hash t = .ok c) :
    c._size = t._size ∧ c._capacity = t._capacity ∧
      (c._buckets.length : Int) = c._capacity ∧ (entries c).Perm (entries t) := by
  unfold HashMap_copy at h
  have hold : firstBuckets t._buckets t._capacity = .ok t._buckets := by
    simp [firstBuckets, ← hlen]
  unfold newTable at h
  by_cases hc : t._capacity < 0
  · simp only [hc, if_true, bind, Except.bind] at h
    cases h
  · simp only [hc, if_false, capacity, hold, bind, Except.bind] at h
    cases h3 : t._buckets.foldlM (fun tb bucket => placeBucket hash
        ({ _size := t._size, _capacity := t._capacity,
           _upperLoadFactor := t._upperLoadFactor, _lowerLoadFactor := t._lowerLoadFactor,
           _buckets := [] } : HashMap K V) bucket tb)
        (List.replicate t._capacity.toNat []) with
    | error e => rw [h3] at h; cases h
    | ok t' =>
      rw [h3] at h
      simp only [pure, Except.pure] at h
      cases h
      obtain ⟨a1, a2⟩ := placeBuckets_result hash _ t._buckets _ t' h3
      refine ⟨rfl, rfl, ?_, ?_⟩
      · show (t'.length : Int) = t._capacity
        rw [a1]
        simp
        omega
      · show t'.flatten.Perm t._buckets.flatten
        simpa using a2

/-- The member `clear` on a table with exactly `capacity()` buckets returns a table
of the same capacity with `size() == 0` whose buckets are all empty. -/
theorem clear_spec (m : HashMap K V) (hlen : (m._buckets.length : Int) = m._capacity) :
    ∃ m', clear m = .ok m' ∧ m'._size = 0 ∧ m'._capacity = m._capacity ∧
      m'._buckets.length = m._buckets.length ∧ (∀ b ∈ m'._buckets, b = []) ∧
      m'._upperLoadFactor = m._upperLoadFactor ∧ m'._lowerLoadFactor = m._lowerLoadFactor := by
  have hold : firstBuckets m._buckets (capacity m) = .ok m._buckets := by
    simp [firstBuckets, capacity, ← hlen]
  have hdrop : m._buckets.drop (capacity m).toNat = [] := by
    apply List.drop_eq_nil_of_le
    unfold capacity
    omega
  refine ⟨{ m with _size := 0, _buckets := m._buckets.map (fun _ => []) ++ [] },
    by simp only [clear, hold, hdrop, bind, Except.bind, pure, Except.pure],
    rfl, rfl, by simp, ?_, rfl, rfl⟩
  intro b hb
  simp only [List.append_nil, List.mem_map] at hb
  obtain ⟨_, _, rfl⟩ := hb
  rfl

theorem operator_index_generic [Inhabited V] (hash : K → Nat) (m m' : HashMap K V) (k : K)
    (r : ValueRef) (h : operator_index hash m k = .ok (r, m')) :
    m' = m ∨ ∃ b, insert hash m k default = .ok (b, m') := by
  unfold operator_index at h
  cases hc : containsKey hash m k with
  | error e => simp only [hc, bind, Except.bind] at h; cases h
  | ok c =>
    simp only [hc, bind, Except.bind] at h
    cases h1 : (if (!c) = true then (fun r => r.2) <$> insert hash m k default else pure m) with
    | error e => rw [h1] at h; cases h
    | ok m1 =>
      rw [h1] at h
      simp only at h
      have hm' : m' = m1 := by
        cases h2 : _getInnerKeyIdx hash m1 k with
        | error e => simp only [h2] at h; cases h
        | ok j =>
          simp only [h2] at h
          cases h3 : refTo m1 (_getHashCode hash m1 k) j with
          | error e => simp only [h3] at h; cases h
          | ok r' =>
            simp only [h3, pure, Except.pure] at h
            cases h
            rfl
      subst hm'
      split at h1
      · right
        cases h4 : insert hash m k default with
        | error e => rw [h4] at h1; cases h1
        | ok bm =>
          obtain ⟨b, m2⟩ := bm
          rw [h4] at h1
          cases h1
          exact ⟨b, rfl⟩
      · left
        cases h1
        rfl

theorem sizeBookkeeping_iff (m : HashMap K V) :
    SizeBookkeeping m ↔
      (m._buckets.length : Int) = m._capacity ∧ m._size = ((entries m).length : Int) := by
  unfold SizeBookkeeping size capacity entries
  rw [List.length_flatten]

/-- The insert of pairwise distinct absent keys, one after another, succeeds, adds
one entry per key, and leaves a load factor of at most 0.75. -/
theorem insertAll_spec (hash : K → Nat) (kvs : List (K × V)) :
    ∀ m : HashMap K V, Invariants hash m → (kvs.map Prod.fst).Nodup →
      (∀ kv ∈ kvs, kv.1 ∉ keys m) → m._size + kvs.length ≤ 536870912 →
      ∃ m', insertAll hash kvs m = .ok m' ∧ Invariants hash m' ∧
        m'._size = m._size + kvs.length ∧ (entries m').Perm (kvs ++ entries m) ∧
        (kvs ≠ [] → m'._size * 4 ≤ 3 * m'._capacity) := by
  induction kvs with
  | nil =>
    intro m hwf _ _ _
    exact ⟨m, rfl, hwf, by simp, by simp, fun h => absurd rfl h⟩
  | cons kv rest ih =>
    intro m hwf hnd habs hsz
    simp only [List.length_cons, Nat.cast_add, Nat.cast_one] at hsz
    have hk : kv.1 ∉ keys m := habs kv (List.mem_cons_self _ _)
    have hc : containsKey hash m kv.1 = .ok false := by
      rw [containsKey_spec hash m hwf kv.1]; simp [hk]
    obtain ⟨m1, a1, a2, a3, a4⟩ := insert_spec hash m hwf (by omega) kv.1 kv.2 hc
    have hload : m1._size * 4 ≤ 3 * m1._capacity := by
      rcases insert_result hash m m1 hwf kv.1 kv.2 true a1 with ⟨h, _⟩ | ⟨_, _, _, _, _, c4, _⟩
      · cases h
      · exact c4
    simp only [List.map_cons, List.nodup_cons] at hnd
    have hkeys1 : (keys m1).Perm (kv.1 :: keys m) := a3.map Prod.fst
    have habs1 : ∀ kv' ∈ rest, kv'.1 ∉ keys m1 := by
      intro kv' hkv' hin
      rcases List.mem_cons.mp (hkeys1.subset hin) with h | h
      · exact hnd.1 (h ▸ List.mem_map_of_mem Prod.fst hkv')
      · exact habs kv' (List.mem_cons_of_mem _ hkv') h
    obtain ⟨m', b1, b2, b3, b4, b5⟩ := ih m1 a2 hnd.2 habs1 (by omega)
    refine ⟨m', ?_, b2, ?_, ?_, ?_⟩
    · simp only [insertAll, List.foldlM_cons, a1, bind, Except.bind, Functor.map, Except.map]
      exact b1
    · simp only [List.length_cons, Nat.cast_add, Nat.cast_one]
      omega
    · refine b4.trans ?_
      refine (a3.append_left rest).trans ?_
      simp
    · intro _
      by_cases hr : rest = []
      · subst hr
        cases b1
        exact hload
      · exact b5 hr

theorem allKeysIn_spec (hash : K → Nat) (other : HashMap K V) (hwf : Invariants hash other)
    (l : List (K × V)) :
    allKeysIn hash other l = .ok (decide (∀ p ∈ l, p.1 ∈ keys other)) := by
  induction l with
  | nil => simp [allKeysIn]
  | cons p ps ih =>
    simp only [allKeysIn, containsKey_spec hash other hwf, bind, Except.bind, ih]
    by_cases h : p.1 ∈ keys other
    · simp [h, pure, Except.pure]
    · simp [h, pure, Except.pure]

theorem allBucketsIn_spec (hash : K → Nat) (other : HashMap K V) (hwf : Invariants hash other)
    (bs : List (List (K × V))) :
    allBucketsIn hash other bs = .ok (decide (∀ p ∈ bs.flatten, p.1 ∈ keys other)) := by
  induction bs with
  | nil => simp [allBucketsIn]
  | cons b rest ih =>
    have hfl : (b :: rest).flatten = b ++ rest.flatten := rfl
    rw [hfl]
    simp only [allBucketsIn, allKeysIn_spec hash other hwf, bind, Except.bind, ih, pure,
      Except.pure]
    by_cases h : ∀ p ∈ b, p.1 ∈ keys other
    · rw [decide_eq_true h]
      simp only [Bool.not_true, Bool.false_eq_true, if_false]
      congr 1
      apply decide_eq_decide.mpr
      constructor
      · intro h' p hp
        rcases List.mem_append.mp hp with hp | hp
        · exact h p hp
        · exact h' p hp
      · intro h' p hp
        exact h' p (List.mem_append_right _ hp)
    · rw [decide_eq_false h]
      simp only [Bool.not_false, if_true]
      congr 1
      symm
      apply decide_eq_false
      intro h'
      exact h (fun p hp => h' p (List.mem_append_left _ hp))

theorem keys_subset_iff (m : HashMap K V) (ks : List K) :
    (∀ p ∈ entries m, p.1 ∈ ks) ↔ ∀ k ∈ keys m, k ∈ ks := by
  unfold keys
  constructor
  · intro h k hk
    obtain ⟨p, hp, rfl⟩ := List.mem_map.mp hk
    exact h p hp
  · intro h p hp
    exact h p.1 (List.mem_map_of_mem Prod.fst hp)

theorem operator_eq_spec (hash : K → Nat) (a b : HashMap K V) (ha : Invariants hash a)
    (hb : Invariants hash b) :
    operator_eq hash a b = .ok (decide (size a = size b ∧ ∀ k ∈ keys a, k ∈ keys b)) := by
  have hfirst : firstBuckets a._buckets a._capacity = .ok a._buckets := by
    unfold firstBuckets
    rw [if_pos (by rw [ha.buckets_length]), ← ha.buckets_length]
    simp
  have hk := keys_subset_iff a (keys b)
  unfold entries at hk
  unfold operator_eq
  by_cases hs : size b = a._size
  · have hd : decide (size a = size b ∧ ∀ k ∈ keys a, k ∈ keys b) =
        decide (∀ p ∈ a._buckets.flatten, p.1 ∈ keys b) := by
      apply decide_eq_decide.mpr
      rw [hk]
      exact ⟨fun h => h.2, fun h => ⟨hs.symm, h⟩⟩
    rw [hd]
    have hbeq : (size b == a._size) = true := by simpa using hs
    simp only [hbeq, if_true, hfirst, bind, Except.bind, allBucketsIn_spec hash b hb]
  · have hd : decide (size a = size b ∧ ∀ k ∈ keys a, k ∈ keys b) = false := by
      apply decide_eq_false
      intro h
      exact hs h.1.symm
    rw [hd]
    have hne : (size b == a._size) = false := by simpa using hs
    simp only [hne, Bool.false_eq_true, if_false, pure, Except.pure]

theorem foldSteps_allKeys (ks : List K) (body : Unit → K × V → Except Err (Unit ⊕ Bool))
    (hbody : ∀ s p, body s p = .ok (if p.1 ∈ ks then .inl () else .inr false))
    (l : List (K × V)) :
    foldSteps body l () = .ok (if ∀ p ∈ l, p.1 ∈ ks then .inl () else .inr false) := by
  induction l with
  | nil => simp [foldSteps]
  | cons p ps ih =>
    simp only [foldSteps, hbody, bind, Except.bind]
    by_cases h : p.1 ∈ ks
    · rw [if_pos h]
      show foldSteps body ps () = _
      rw [ih]
      simp only [List.forall_mem_cons, h, true_and]
    · simp [h, pure, Except.pure]

theorem rangeFor_single_empty {σ β : Type} (body : σ → K × V → Except Err (σ ⊕ β))
    (m : HashMap K V) (hlen : (m._buckets.length : Int) = m._capacity)
    (hcap : m._capacity = 1) (he : entries m = []) (fuel : Nat) (s : σ) :
    rangeFor fuel m body s = .ok (.inl s) := by
  obtain ⟨sz, cap, u, l, bs⟩ := m
  simp only at hlen hcap
  subst hcap
  match bs, hlen, he with
  | [b], _, he =>
    have hb : b = [] := by simpa [entries] using he
    subst hb
    cases fuel <;> rfl

theorem operator_eq_mut_spec (hash : K → Nat) (a b : HashMap K V) (ha : Invariants hash a)
    (hb : Invariants hash b) (hla : a._size * 4 ≤ 3 * a._capacity) (fuel : Nat)
    (hf : size a ≤ (fuel : Int)) :
    operator_eq_mut fuel hash a b =
      .ok (decide (size a = size b ∧ ∀ k ∈ keys a, k ∈ keys b)) := by
  have hrf : ∀ body : Unit → K × V → Except Err (Unit ⊕ Bool),
      (∀ s p, body s p = .ok (if p.1 ∈ keys b then .inl () else .inr false)) →
      rangeFor fuel a body () =
        .ok (if ∀ p ∈ entries a, p.1 ∈ keys b then .inl () else .inr false) := by
    intro body hbody
    by_cases hcap : 2 ≤ a._capacity
    · rw [rangeFor_spec _ a ha.buckets_length hcap fuel
        (by have := ha.size_eq; unfold size at hf; omega)]
      exact foldSteps_allKeys (keys b) body hbody (entries a)
    · have h1 := ha.capacity_pos
      have hc1 : a._capacity = 1 := by omega
      have hsz := ha.size_eq
      have hsz0 : a._size = 0 := by omega
      have he : entries a = [] := by
        rw [hsz0] at hsz
        exact List.length_eq_zero.mp (by exact_mod_cast hsz.symm)
      rw [rangeFor_single_empty _ a ha.buckets_length hc1 he, he]
      simp
  unfold operator_eq_mut
  by_cases hs : size a = size b
  · have hbeq : (size a == size b) = true := by simpa using hs
    rw [hbeq, if_pos rfl, hrf]
    · simp only [bind, Except.bind]
      by_cases h : ∀ p ∈ entries a, p.1 ∈ keys b
      · have h' := (keys_subset_iff a (keys b)).mp h
        rw [if_pos h, decide_eq_true ⟨hs, h'⟩]
        rfl
      · have h' : ¬ (size a = size b ∧ ∀ k ∈ keys a, k ∈ keys b) :=
          fun h2 => h ((keys_subset_iff a (keys b)).mpr h2.2)
        rw [if_neg h, decide_eq_false h']
        rfl
    · intro s p
      simp only [containsKey_spec hash b hb, bind, Except.bind, pure, Except.pure]
      by_cases hp : p.1 ∈ keys b
      · simp [hp]
      · simp [hp]
  · have hne : (size a == size b) = false := by simpa using hs
    have hd : decide (size a = size b ∧ ∀ k ∈ keys a, k ∈ keys b) = false :=
      decide_eq_false (fun h => hs h.1)
    rw [hne, hd]
    rfl

theorem same_keys_iff (hash : K → Nat) (a b : HashMap K V) (ha : Invariants hash a)
    (hb : Invariants hash b) :
    (size a = size b ∧ ∀ k ∈ keys a, k ∈ keys b) ↔ ∀ k, k ∈ keys a ↔ k ∈ keys b := by
  have hla : ((keys a).length : Int) = size a := by
    unfold keys size; rw [List.length_map]; exact ha.size_eq.symm
  have hlb : ((keys b).length : Int) = size b := by
    unfold keys size; rw [List.length_map]; exact hb.size_eq.symm
  constructor
  · rintro ⟨hs, hsub⟩ k
    refine ⟨hsub k, fun hk => ?_⟩
    have hle : (keys b).length ≤ (keys a).length := by omega
    have hp : (keys a).Perm (keys b) :=
      (List.subperm_of_subset ha.unique hsub).perm_of_length_le hle
    exact hp.symm.subset hk
  · intro h
    refine ⟨?_, fun k hk => (h k).mp hk⟩
    have hp : (keys a).Perm (keys b) := (List.perm_ext_iff_of_nodup ha.unique hb.unique).mpr h
    have := hp.length_eq
    omega

theorem getlineLoop_no_delim (d : Char) (t : List Char) :
    ∀ item : List Char, d ∉ t →
      getlineLoop d t item = if (item ++ t).length = 0 then [] else [item ++ t] := by
  induction t with
  | nil => intro item _; simp [getlineLoop]
  | cons c cs ih =>
    intro item h
    have hc : c ≠ d := fun e => h (e ▸ List.mem_cons_self _ _)
    have hcs : d ∉ cs := fun e => h (List.mem_cons_of_mem _ e)
    rw [getlineLoop, if_neg hc, ih _ hcs]
    simp

theorem getlineLoop_split (d : Char) (w t : List Char) :
    ∀ item : List Char, d ∉ w →
      getlineLoop d (w ++ d :: t) item = (item ++ w) :: getlineLoop d t [] := by
  induction w with
  | nil => intro item _; simp [getlineLoop]
  | cons c cs ih =>
    intro item h
    have hc : c ≠ d := fun e => h (e ▸ List.mem_cons_self _ _)
    have hcs : d ∉ cs := fun e => h (List.mem_cons_of_mem _ e)
    rw [List.cons_append, getlineLoop, if_neg hc, ih _ hcs]
    simp

theorem comma_decomp (line : List Char)
    (h : (line.filter (fun c => c == ',')).length = 1) :
    line = beforeComma line ++ ',' :: afterComma line ∧ ',' ∉ beforeComma line ∧
      ',' ∉ afterComma line := by
  unfold beforeComma afterComma
  have hsplit := List.takeWhile_append_dropWhile (fun c => c != ',') line
  have hw : ',' ∉ line.takeWhile (fun c => c != ',') := by
    intro hm
    have := List.mem_takeWhile_imp hm
    simp at this
  have hw0 : (line.takeWhile (fun c => c != ',')).filter (fun c => c == ',') = [] := by
    rw [List.filter_eq_nil_iff]
    intro a ha
    have := List.mem_takeWhile_imp ha
    simpa using this
  cases hd : line.dropWhile (fun c => c != ',') with
  | nil =>
    rw [hd, List.append_nil] at hsplit
    rw [← hsplit, hw0] at h
    simp at h
  | cons c r =>
    have hc : c = ',' := by
      have := List.head_dropWhile_not (fun c => c != ',') line (by rw [hd]; simp)
      simp only [hd, List.head_cons] at this
      simpa using this
    subst hc
    rw [hd] at hsplit
    refine ⟨by simpa using hsplit.symm, hw, ?_⟩
    rw [← hsplit, List.filter_append, hw0] at h
    simp only [List.nil_append, List.filter_cons, beq_self_eq_true, if_true,
      List.length_cons] at h
    have h0 : (r.filter (fun c => c == ',')) = [] := List.length_eq_zero.mp (by omega)
    rw [List.filter_eq_nil_iff] at h0
    intro hm
    have := h0 ',' (by simpa using hm)
    simp at this

theorem isNonNegNumberLoop_eq (t : List Char) : isNonNegNumberLoop t = t.all isDigit := by
  induction t with
  | nil => rfl
  | cons c cs ih =>
    rw [isNonNegNumberLoop, List.all_cons, ih]
    by_cases h : c < '0' ∨ c > '9'
    · rw [if_pos h]
      have : isDigit c = false := by
        unfold isDigit
        rcases h with h | h
        · have : ¬ '0' ≤ c := not_le.mpr h
          simp [this]
        · have : ¬ c ≤ '9' := not_le.mpr h
          simp [this]
      simp [this]
    · rw [if_neg h]
      have : isDigit c = true := by
        unfold isDigit
        have h1 : '0' ≤ c := not_lt.mp (fun e => h (Or.inl e))
        have h2 : c ≤ '9' := not_lt.mp (fun e => h (Or.inr e))
        simp [h1, h2]
      simp [this]

theorem isNonNegNumber_eq (t : List Char) : isNonNegNumber t = t.all isDigit := by
  unfold isNonNegNumber
  rw [isNonNegNumberLoop_eq]
  cases t with
  | nil => rfl
  | cons c cs =>
    by_cases h : c = '-'
    · subst h
      simp only [List.headD_cons, if_true, List.all_cons]
      have : isDigit '-' = false := by decide
      simp [this]
    · simp only [List.headD_cons, if_neg h]

theorem decimalValue_nonneg (t : List Char) : 0 ≤ decimalValue t := by
  unfold decimalValue
  have : ∀ (l : List Char) (acc : Int), 0 ≤ acc →
      0 ≤ l.foldl (fun acc c => acc * 10 + ((c.toNat - '0'.toNat : Nat) : Int)) acc := by
    intro l
    induction l with
    | nil => intro acc h; exact h
    | cons c cs ih =>
      intro acc h
      exact ih _ (by positivity)
  exact this t 0 le_rfl

theorem stoi_decimal (t : List Char) (h : isDecimal t = true) :
    stoi t = if decimalValue t ≤ INT_MAX then .ok (decimalValue t)
      else .error (.out_of_range "stoi") := by
  unfold isDecimal at h
  simp only [Bool.and_eq_true, decide_eq_true_eq] at h
  obtain ⟨hlen, hall⟩ := h
  cases t with
  | nil => simp at hlen
  | cons c cs =>
    have hc : isDigit c = true := by
      rw [List.all_cons, Bool.and_eq_true] at hall
      exact hall.1
    have hsp : isSpace c = false := by
      unfold isDigit at hc
      simp only [Bool.and_eq_true, decide_eq_true_eq] at hc
      unfold isSpace
      have h1 : ('0' : Char).toNat ≤ c.toNat := hc.1
      have h2 : c.toNat ≤ ('9' : Char).toNat := hc.2
      have e0 : ('0' : Char).toNat = 48 := rfl
      have hne : c ≠ ' ' := by
        intro e
        rw [e] at h1
        have : (' ' : Char).toNat = 32 := rfl
        omega
      simp [hne]
      omega
    have hm : c ≠ '-' := by
      intro e
      rw [e] at hc
      exact absurd hc (by decide)
    have hp : c ≠ '+' := by
      intro e
      rw [e] at hc
      exact absurd hc (by decide)
    have hdrop : (c :: cs).dropWhile isSpace = c :: cs := by
      rw [List.dropWhile_cons, hsp]
      rfl
    have htake : (c :: cs).takeWhile isDigit = c :: cs := by
      rw [List.takeWhile_eq_self_iff]
      intro a ha
      exact List.all_eq_true.mp hall a ha
    unfold stoi
    simp only [hdrop]
    have hmatch : stoiSign (c :: cs) = (false, c :: cs) := by
      unfold stoiSign
      split
      · rename_i heq; exact absurd (List.cons.inj heq).1 hm
      · rename_i heq; exact absurd (List.cons.inj heq).1 hp
      · rfl
    rw [hmatch]
    simp only [htake, List.length_cons, Nat.add_one_ne_zero, if_false, Bool.false_eq_true]
    have h0 := decimalValue_nonneg (c :: cs)
    have hmin : INT_MIN ≤ decimalValue (c :: cs) := by
      unfold INT_MIN
      omega
    simp only [hmin, true_and]

theorem validCommaAmount_eq (line : List Char) :
    validCommaAmount line = decide (line.count ',' = 1) := by
  unfold validCommaAmount LINE_LENGTH
  rw [List.count, List.countP_eq_length_filter]
  by_cases h : (line.filter (fun strIdx => strIdx == ',')).length = 1
  · simp [h]
  · have : ¬ (((line.filter (fun strIdx => strIdx == ',')).length : Int) = 2 - 1) := by omega
    simp [h, this]

theorem splitString_one_comma (line : List Char) (h : line.count ',' = 1) :
    splitString line ',' =
      if (afterComma line).length = 0 then [beforeComma line]
      else [beforeComma line, afterComma line] := by
  rw [List.count, List.countP_eq_length_filter] at h
  obtain ⟨h1, h2, h3⟩ := comma_decomp line h
  unfold splitString
  rw [h1, getlineLoop_split ',' _ _ [] h2, getlineLoop_no_delim ',' _ [] h3]
  rw [← h1]
  by_cases ht : (afterComma line).length = 0
  · simp [ht]
  · simp [ht]

theorem readLine_spec (line : List Char) :
    readLine line =
      if line.count ',' = 1 ∧ isDecimal (afterComma line) = true then
        if decimalValue (afterComma line) ≤ INT_MAX then
          .ok (lowerString (beforeComma line), decimalValue (afterComma line))
        else .error (.out_of_range "stoi")
      else .error (.invalid_argument GENERAL_ERROR) := by
  unfold readLine
  rw [validCommaAmount_eq]
  by_cases hc : line.count ',' = 1
  · rw [splitString_one_comma line hc]
    by_cases ht : (afterComma line).length = 0
    · have hd : isDecimal (afterComma line) = false := by
        unfold isDecimal
        simp [ht]
      simp [hc, ht, hd, LINE_LENGTH, bind, Except.bind, pure, Except.pure, throw, throwThe,
        MonadExceptOf.throw]
    · have hi1 : indexAt [beforeComma line, afterComma line] SCORE_LINE_IDX
          = .ok (afterComma line) := rfl
      have hi0 : indexAt [beforeComma line, afterComma line] WORD_LINE_IDX
          = .ok (beforeComma line) := rfl
      have hdec : isDecimal (afterComma line) = (afterComma line).all isDigit := by
        unfold isDecimal
        have : 0 < (afterComma line).length := by omega
        simp [this]
      have hvalid : (decide (line.count ',' = 1) &&
          ((([beforeComma line, afterComma line].length : Nat) : Int) == LINE_LENGTH)) = true := by
        simp [hc, LINE_LENGTH]
      rw [if_neg ht]
      simp only [hvalid, if_true, hi1, hi0, Functor.map, Except.map, isNonNegNumber_eq, ← hdec,
        bind, Except.bind]
      by_cases hd : isDecimal (afterComma line) = true
      · rw [stoi_decimal _ hd]
        simp only [hd, Bool.not_true, Bool.false_eq_true, if_false, pure, Except.pure, hc,
          and_self, if_true]
        by_cases hv : decimalValue (afterComma line) ≤ INT_MAX
        · have h0 := decimalValue_nonneg (afterComma line)
          have hn : ¬ decimalValue (afterComma line) < 0 := by omega
          simp only [if_pos hv, if_neg hn]
        · simp only [if_neg hv]
      · have hd' : isDecimal (afterComma line) = false := by simpa using hd
        simp [hd', throw, throwThe, MonadExceptOf.throw]
  · simp [hc, bind, Except.bind, pure, Except.pure, throw, throwThe, MonadExceptOf.throw]

theorem find_empty_zero (line : List Char) : find line [] 0 = some 0 := by
  unfold find
  rw [if_pos (Nat.zero_le _), List.drop_zero]
  cases line <;> rfl

/-- The counting loop of `isSpam` for the empty word returns on no number of
rounds: the search finds the empty word at position 0 again and again. -/
theorem countLoop_empty_word (line : List Char) :
    ∀ (fuel : Nat) (timesFound : Int) (r : Int),
      countLoop line [] fuel (some 0) timesFound ≠ .ok r := by
  intro fuel
  induction fuel with
  | zero => intro t r h; cases h
  | succ n ih =>
    intro t r h
    rw [countLoop] at h
    cases hc : checkedInt (t + 1) with
    | error e => rw [hc] at h; cases h
    | ok t' =>
      rw [hc] at h
      simp only [bind, Except.bind, List.length_nil, Nat.add_zero, find_empty_zero] at h
      exact ih t' r h

/-- A range-based `for` whose body throws on the first entry returns on no number
of rounds. -/
theorem rangeFor_first_fails {σ β : Type} (body : σ → K × V → Except Err (σ ⊕ β))
    (m : HashMap K V) (hlen : (m._buckets.length : Int) = m._capacity)
    (hcap : 2 ≤ m._capacity) (p : K × V) (rest : List (K × V)) (he : entries m = p :: rest)
    (s : σ) (hbody : ∀ r, body s p ≠ .ok r) (fuel : Nat) (r : σ ⊕ β) :
    rangeFor fuel m body s ≠ .ok r := by
  obtain ⟨it, e1, e2⟩ := begin_spec m hlen hcap
  obtain ⟨last, blast, l1, l2, l3⟩ := end_spec m hlen (by omega)
  rw [he] at e2
  obtain ⟨hne, hderef, _⟩ := iterAt_cons m._buckets it last p rest blast e2 l2 l3
  simp only [rangeFor, e1, l1, bind, Except.bind]
  cases fuel with
  | zero =>
    rw [rangeForLoop, if_pos hne]
    intro h
    cases h
  | succ n =>
    rw [rangeForLoop, if_pos hne]
    simp only [hderef, bind, Except.bind]
    cases hb : body s p with
    | error e => intro h; cases h
    | ok x => exact absurd hb (hbody x)

theorem scoreStep_empty_word (fuel : Nat) (line : List Char) (message_score score : Int)
    (r : Int ⊕ Empty) : scoreStep fuel line message_score ([], score) ≠ .ok r := by
  unfold scoreStep
  rw [find_empty_zero]
  cases hc : countLoop line [] fuel (some 0) 0 with
  | error e => simp only [bind, Except.bind]; intro h; cases h
  | ok x => exact absurd hc (countLoop_empty_word line fuel 0 x)

theorem keys_values_single (hash : K → Nat) (k : K) (v : V) :
    ∃ m, HashMap_keys_values hash [k] [v] = .ok m ∧ Alive hash m ∧ entries m = [(k, v)] := by
  have hwf0 := invariants_default (V := V) hash
  have habs : containsKey hash (HashMap_default : HashMap K V) k = .ok false := by
    rw [containsKey_spec hash _ hwf0]
    simp [keys, entries_default]
  obtain ⟨m, a1, a2, a3, a4⟩ := insert_spec hash HashMap_default hwf0
    (by simp [HashMap_default, ELEMENT_NUMBER]) k v habs
  have hk : HashMap_keys_values hash [k] [v] = .ok m := by
    simp only [HashMap_keys_values, List.length_cons, List.length_nil, ne_eq, not_true,
      if_false, List.zip_cons_cons, List.zip_nil_right, List.foldlM_cons, List.foldlM_nil,
      bulkStep_absent hash _ m k v true habs a1, bind, Except.bind, pure, Except.pure]
  refine ⟨m, hk, alive_keys_values hash [k] [v] m hk, ?_⟩
  rw [entries_default] at a3
  exact List.perm_singleton.mp a3

/-- The model of `isSpam` on a small input: with the score table `free,3` and
`win,2` the message `Free free WIN` scores 3 + 3 + 2 = 8. -/
theorem isSpam_example :
    ∃ scoreMap,
      readFileIntoVectors [] [] [['f', 'r', 'e', 'e', ',', '3'], ['w', 'i', 'n', ',', '2']] =
        (([['f', 'r', 'e', 'e'], ['w', 'i', 'n']], [3, 2]), .ok ()) ∧
      HashMap_keys_values (fun s : List Char => s.length)
        [['f', 'r', 'e', 'e'], ['w', 'i', 'n']] [(3 : Int), 2] = .ok scoreMap ∧
      isSpam 20 scoreMap [['F', 'r', 'e', 'e', ' ', 'f', 'r', 'e', 'e', ' ', 'W', 'I', 'N']] 8
        = .ok true ∧
      isSpam 20 scoreMap [['F', 'r', 'e', 'e', ' ', 'f', 'r', 'e', 'e', ' ', 'W', 'I', 'N']] 9
        = .ok false :=
  ⟨_, by decide, rfl, by decide, by decide⟩

/-- Two tables that satisfy the invariants and store the same entries for the key
`j` answer `containsKey(j)` and both forms of `at(j)` alike. -/
theorem lookup_frame (hash : K → Nat) (m m' : HashMap K V) (hwf : Invariants hash m)
    (hwf' : Invariants hash m') (j : K)
    (hent : ∀ v, (j, v) ∈ entries m' ↔ (j, v) ∈ entries m) :
    containsKey hash m' j = containsKey hash m j ∧ at_const hash m' j = at_const hash m j ∧
      (at_mut hash m' j >>= readRef m') = (at_mut hash m j >>= readRef m) := by
  by_cases hj : j ∈ keys m
  · obtain ⟨p, hp, hp1⟩ := List.mem_map.mp hj
    obtain ⟨j', v⟩ := p
    simp only at hp1
    subst hp1
    have hp' : (j', v) ∈ entries m' := (hent v).mpr hp
    have hj' : j' ∈ keys m' := List.mem_map.mpr ⟨(j', v), hp', rfl⟩
    obtain ⟨r, a1, a2⟩ := at_mut_spec hash m hwf j' v hp
    obtain ⟨r', b1, b2⟩ := at_mut_spec hash m' hwf' j' v hp'
    refine ⟨?_, ?_, ?_⟩
    · rw [containsKey_spec hash m hwf, containsKey_spec hash m' hwf']
      simp [hj, hj']
    · rw [at_const_spec hash m hwf j' v hp, at_const_spec hash m' hwf' j' v hp']
    · rw [a1, b1]
      show readRef m' r' = readRef m r
      rw [a2, b2]
  · have hj' : j ∉ keys m' := by
      intro h
      obtain ⟨p, hp, hp1⟩ := List.mem_map.mp h
      obtain ⟨j', v⟩ := p
      simp only at hp1
      subst hp1
      exact hj (List.mem_map.mpr ⟨(j', v), (hent v).mp hp, rfl⟩)
    have hc : containsKey hash m j = .ok false := by
      rw [containsKey_spec hash m hwf]; simp [hj]
    have hc' : containsKey hash m' j = .ok false := by
      rw [containsKey_spec hash m' hwf']; simp [hj']
    refine ⟨by rw [hc, hc'], ?_, ?_⟩
    · rw [(at_const_fails_iff hash m j).mpr hc, (at_const_fails_iff hash m' j).mpr hc']
    · rw [(at_mut_fails_iff hash m j).mpr hc, (at_mut_fails_iff hash m' j).mpr hc']
      rfl

/-- An insert of `k` into a table that satisfies the invariants and holds fewer
than `2 ^ 29` entries returns and leaves `containsKey(j)` and both forms of `at(j)`
as they were, for every key `j` other than `k`, whether it resizes or not. -/
theorem insert_frame (hash : K → Nat) (m : HashMap K V) (hwf : Invariants hash m)
    (hfit : m._size < 536870912) (k j : K) (v : V) (hjk : j ≠ k) :
    ∃ b m', insert hash m k v = .ok (b, m') ∧
      containsKey hash m' j = containsKey hash m j ∧ at_const hash m' j = at_const hash m j ∧
      (at_mut hash m' j >>= readRef m') = (at_mut hash m j >>= readRef m) := by
  by_cases hk : k ∈ keys m
  · have hpres : containsKey hash m k = .ok true := by
      rw [containsKey_spec hash m hwf k]; simp [hk]
    have : insert hash m k v = .ok (false, m) := by
      simp [insert, hpres, bind, Except.bind, pure, Except.pure]
    exact ⟨false, m, this, rfl, rfl, rfl⟩
  · have habs : containsKey hash m k = .ok false := by
      rw [containsKey_spec hash m hwf k]; simp [hk]
    obtain ⟨m', a1, a2, a3, _⟩ := insert_spec hash m hwf hfit k v habs
    refine ⟨true, m', a1, lookup_frame hash m m' hwf a2 j ?_⟩
    intro w
    rw [a3.mem_iff, List.mem_cons]
    constructor
    · rintro (h | h)
      · exact absurd (Prod.mk.inj h).1 hjk
      · exact h
    · exact Or.inr

/-- An erase of `k` that does not remove the last entry of a table that satisfies
the invariants returns and leaves `containsKey(j)` and both forms of `at(j)` as they
were, for every key `j` other than `k`, whether it resizes or not. -/
theorem erase_frame (hash : K → Nat) (m : HashMap K V) (hwf : Invariants hash m)
    (hfit : m._size ≤ 536870912) (k j : K) (hjk : j ≠ k) (hleft : k ∉ keys m ∨ 2 ≤ m._size) :
    ∃ b m', erase hash m k = .ok (b, m') ∧
      containsKey hash m' j = containsKey hash m j ∧ at_const hash m' j = at_const hash m j ∧
      (at_mut hash m' j >>= readRef m') = (at_mut hash m j >>= readRef m) := by
  by_cases hk : k ∈ keys m
  · have hpres : containsKey hash m k = .ok true := by
      rw [containsKey_spec hash m hwf k]; simp [hk]
    have hs : 2 ≤ m._size := by
      rcases hleft with h | h
      · exact absurd hk h
      · exact h
    obtain ⟨v, m', a1, a2, a3, _⟩ := erase_spec hash m hwf k hpres hs hfit
    refine ⟨true, m', a1, lookup_frame hash m m' hwf a2 j ?_⟩
    intro w
    rw [a3.mem_iff, List.mem_cons]
    constructor
    · exact Or.inr
    · rintro (h | h)
      · exact absurd (Prod.mk.inj h).1 hjk
      · exact h
  · have habs : containsKey hash m k = .ok false := by
      rw [containsKey_spec hash m hwf k]; simp [hk]
    have : erase hash m k = .ok (false, m) := by
      simp [erase, eraseBody, habs, bind, Except.bind, pure, Except.pure]
    exact ⟨false, m, this, rfl, rfl, rfl⟩

theorem at_const_no_buckets (hash : K → Nat) (m : HashMap K V) (k : K)
    (h : m._buckets = []) : at_const hash m k = .error .undefined_behaviour := by
  simp only [at_const, containsKey_no_buckets hash m k h, bind, Except.bind]

theorem at_mut_no_buckets (hash : K → Nat) (m : HashMap K V) (k : K)
    (h : m._buckets = []) : at_mut hash m k = .error .undefined_behaviour := by
  simp only [at_mut, containsKey_no_buckets hash m k h, bind, Except.bind]

/-- Placement in every table built by `insert`, `erase` and the non-const
`operator[]`: an entry stored in bucket `i` has hash code `i`, and `i` is below
`capacity()`; as long as the table has a bucket, `containsKey(k)` returns whether
some bucket holds an entry with key `k`. -/
theorem built_placement [Inhabited V] (hash : K → Nat) (m : HashMap K V)
    (h : Built hash m) :
    (∀ (i : Nat) (b : List (K × V)), m._buckets[i]? = some b → ∀ p ∈ b,
      _getHashCode hash m p.1 = (i : Int) ∧ (i : Int) < capacity m) ∧
    (m._buckets ≠ [] → ∀ k, containsKey hash m k = .ok (decide (k ∈ keys m))) := by
  rcases built_alive_or_dead hash m h with ha | hd
  · obtain ⟨hwf, _, _, _⟩ := ha
    refine ⟨?_, fun _ k => containsKey_spec hash m hwf k⟩
    intro i b hb p hp
    refine ⟨(placed_iff hash m m._buckets).mp hwf.placed i b hb p hp, ?_⟩
    have hlt : i < m._buckets.length := (List.getElem?_eq_some_iff.mp hb).1
    have := hwf.buckets_length
    unfold capacity
    omega
  · obtain ⟨_, _, hb⟩ := hd
    refine ⟨?_, fun hne => absurd hb hne⟩
    intro i b hi
    rw [hb] at hi
    simp at hi

/-- The three ways through the resize check on a non-empty table that satisfies
the invariants: the load factor is above 0.75 and the capacity grows to the first
doubling at which it is not; or it is between 0.25 and 0.75 and nothing changes;
or it is below 0.25 and the capacity is what the shrinking loop returns. -/
theorem checkResize_cases (hash : K → Nat) (m m' : HashMap K V) (hwf : Invariants hash m)
    (hs1 : 1 ≤ m._size) (h : _checkResize hash m = .ok m') :
    (3 * m._capacity < m._size * 4 ∧ m._capacity ≤ m'._capacity ∧
      m._size * 4 ≤ 3 * m'._capacity ∧ 3 * m'._capacity < m._size * 8) ∨
    (m._size * 4 ≤ 3 * m._capacity ∧ m._capacity ≤ m._size * 4 ∧ m' = m) ∨
    (m._size * 4 < m._capacity ∧
      downsizeLoop LOOP_FUEL m._size m._capacity DEFAULT_LOWER_LOAD_FACTOR
        = .ok m'._capacity) := by
  unfold _checkResize at h
  have hc1 := hwf.capacity_pos
  by_cases hgt : ratioGt (size m) (capacity m) m._upperLoadFactor = true
  · left
    rw [if_pos hgt] at h
    cases h1 : _resize hash m true with
    | error e =>
      rw [h1] at h
      simp only [bind, Except.bind] at h
      cases h
    | ok m1 =>
      rw [h1] at h
      simp only [bind, Except.bind] at h
      obtain ⟨a1, a2, a3, a4, _⟩ := resize_result hash m m1 hwf hs1 true h1
      obtain ⟨b1, b2, b3⟩ := a4 rfl
      have hgt' : 3 * m._capacity < m._size * 4 := by
        simp only [size, capacity, hwf.upper, ratioGt_upper m._size m._capacity hc1,
          decide_eq_true_eq] at hgt
        exact hgt
      have hb3 : 3 * m1._capacity < m._size * 8 := by
        rcases b3 with b3 | b3
        · rw [b3] at b2
          omega
        · exact b3
      have hnlt : ¬ (m1._size * 4 < m1._capacity) := by omega
      have hlt : ratioLt (size m1) (capacity m1) m1._lowerLoadFactor = false := by
        simp only [size, capacity, a1.lower, ratioLt_lower m1._size m1._capacity a1.capacity_pos,
          decide_eq_false_iff_not]
        exact hnlt
      rw [hlt] at h
      simp only [Bool.false_eq_true, if_false, pure, Except.pure] at h
      cases h
      exact ⟨hgt', b1, b2, hb3⟩
  · right
    rw [if_neg hgt] at h
    simp only [bind, Except.bind, pure, Except.pure] at h
    have hgt' : m._size * 4 ≤ 3 * m._capacity := by
      simp only [size, capacity, hwf.upper, ratioGt_upper m._size m._capacity hc1,
        decide_eq_true_eq] at hgt
      omega
    by_cases hlt : ratioLt (size m) (capacity m) m._lowerLoadFactor = true
    · right
      rw [if_pos hlt] at h
      have hlt' : m._size * 4 < m._capacity := by
        simp only [size, capacity, hwf.lower, ratioLt_lower m._size m._capacity hc1,
          decide_eq_true_eq] at hlt
        exact hlt
      refine ⟨hlt', ?_⟩
      unfold _resize at h
      simp only [Bool.false_eq_true, if_false, size, capacity, hwf.lower] at h
      cases hloop : downsizeLoop LOOP_FUEL m._size m._capacity DEFAULT_LOWER_LOAD_FACTOR with
      | error e =>
        rw [hloop] at h
        simp only [bind, Except.bind] at h
        cases h
      | ok c' =>
        rw [hloop] at h
        simp only [bind, Except.bind] at h
        rw [rehash_capacity hash _ m' _ h]
    · left
      rw [if_neg hlt] at h
      cases h
      have hlt' : m._capacity ≤ m._size * 4 := by
        simp only [size, capacity, hwf.lower, ratioLt_lower m._size m._capacity hc1,
          decide_eq_true_eq] at hlt
        omega
      exact ⟨hgt', hlt', rfl⟩

/-- The first insert into a default-constructed table shrinks the capacity from 16
to 4. -/
theorem first_insert_capacity (hash : K → Nat) (k : K) (v : V) :
    ∃ m1 : HashMap K V, insert hash HashMap_default k v = .ok (true, m1) ∧
      Invariants hash m1 ∧ m1._size = 1 ∧ m1._capacity = 4 ∧ entries m1 = [(k, v)] := by
  have hwf0 := invariants_default (V := V) hash
  have habs : containsKey hash (HashMap_default : HashMap K V) k = .ok false := by
    rw [containsKey_spec hash _ hwf0]
    simp [keys, entries_default]
  obtain ⟨m1, a1, a2, a3, a4⟩ := insert_spec hash HashMap_default hwf0
    (by simp [HashMap_default, ELEMENT_NUMBER]) k v habs
  have hs1 : m1._size = 1 := by
    rw [a4]
    simp [HashMap_default, ELEMENT_NUMBER]
  refine ⟨m1, a1, a2, hs1, ?_, ?_⟩
  · obtain ⟨m0, b1, b2, b3, _, b5⟩ := insert_pre hash HashMap_default hwf0 k v habs
      (by simp [HashMap_default, ELEMENT_NUMBER, INT_MAX])
    have hs0 : m0._size = 1 := by
      rw [b2]
      simp [HashMap_default, ELEMENT_NUMBER]
    have hc0 : m0._capacity = 16 := by
      rw [b3]
      simp [HashMap_default, START_CAPACITY]
    rw [b5] at a1
    cases hr : _checkResize hash m0 with
    | error e => rw [hr] at a1; cases a1
    | ok m2 =>
      rw [hr] at a1
      cases a1
      rcases checkResize_cases hash m0 m1 b1 (by omega) hr with h | h | h
      · omega
      · omega
      · have hloop : downsizeLoop LOOP_FUEL 1 16 DEFAULT_LOWER_LOAD_FACTOR = .ok 4 := by decide
        rw [hs0, hc0, hloop] at h
        exact (Except.ok.inj h.2).symm
  · rw [entries_default] at a3
    exact List.perm_singleton.mp a3

theorem insert_capacityState (hash : K → Nat) (m : HashMap K V) (hst : CapacityState hash m)
    (hfit : m._size < 536870912) (k : K) (v : V) (hk : k ∉ keys m) :
    ∃ m', insert hash m k v = .ok (true, m') ∧ CapacityState hash m' ∧
      m'._size = m._size + 1 ∧ (entries m').Perm ((k, v) :: entries m) := by
  obtain ⟨hwf, hp, h4, hs1, hup, hmin⟩ := hst
  have habs : containsKey hash m k = .ok false := by
    rw [containsKey_spec hash m hwf k]; simp [hk]
  obtain ⟨m', a1, a2, a3, a4⟩ := insert_spec hash m hwf hfit k v habs
  refine ⟨m', a1, ?_, a4, a3⟩
  have halive : Alive hash m' :=
    alive_insert hash m m' k v true ⟨hwf, hp, by omega, hup⟩ a1
  obtain ⟨m0, b1, b2, b3, _, b5⟩ := insert_pre hash m hwf k v habs
    (by unfold INT_MAX; omega)
  rw [b5] at a1
  cases hr : _checkResize hash m0 with
  | error e => rw [hr] at a1; cases a1
  | ok m2 =>
    rw [hr] at a1
    cases a1
    refine ⟨a2, halive.2.1, ?_, by omega, halive.2.2.2, ?_⟩
    · rcases checkResize_cases hash m0 m' b1 (by omega) hr with h | h | h
      · omega
      · rw [h.2.2, b3]
        exact h4
      · exfalso
        rcases hmin with hmin | hmin <;> omega
    · rcases checkResize_cases hash m0 m' b1 (by omega) hr with h | h | h
      · right
        omega
      · rw [h.2.2, b3]
        rcases hmin with hmin | hmin
        · exact Or.inl hmin
        · right
          omega
      · exfalso
        rcases hmin with hmin | hmin <;> omega

theorem insertAll_capacityState (hash : K → Nat) (kvs : List (K × V)) :
    ∀ m : HashMap K V, CapacityState hash m → (kvs.map Prod.fst).Nodup →
      (∀ kv ∈ kvs, kv.1 ∉ keys m) → m._size + kvs.length ≤ 536870912 →
      ∃ m', insertAll hash kvs m = .ok m' ∧ CapacityState hash m' ∧
        m'._size = m._size + kvs.length := by
  induction kvs with
  | nil =>
    intro m hst _ _ _
    exact ⟨m, rfl, hst, by simp⟩
  | cons kv rest ih =>
    intro m hst hnd habs hsz
    simp only [List.length_cons, Nat.cast_add, Nat.cast_one] at hsz
    have hk : kv.1 ∉ keys m := habs kv (List.mem_cons_self _ _)
    obtain ⟨m1, a1, a2, a3, a4⟩ := insert_capacityState hash m hst (by omega) kv.1 kv.2 hk
    simp only [List.map_cons, List.nodup_cons] at hnd
    have hkeys1 : (keys m1).Perm (kv.1 :: keys m) := a4.map Prod.fst
    have habs1 : ∀ kv' ∈ rest, kv'.1 ∉ keys m1 := by
      intro kv' hkv' hin
      rcases List.mem_cons.mp (hkeys1.subset hin) with h | h
      · exact hnd.1 (h ▸ List.mem_map_of_mem Prod.fst hkv')
      · exact habs kv' (List.mem_cons_of_mem _ hkv') h
    obtain ⟨m', b1, b2, b3⟩ := ih m1 a2 hnd.2 habs1 (by omega)
    refine ⟨m', ?_, b2, ?_⟩
    · simp only [insertAll, List.foldlM_cons, a1, bind, Except.bind, Functor.map, Except.map]
      exact b1
    · simp only [List.length_cons, Nat.cast_add, Nat.cast_one]
      omega

/-- Pure insertion of `n ≥ 1` distinct keys into a default-constructed table. -/
theorem insertAll_default_capacityState (hash : K → Nat) (kvs : List (K × V))
    (hn1 : 1 ≤ kvs.length) (hn2 : kvs.length ≤ 536870912) (hnd : (kvs.map Prod.fst).Nodup) :
    ∃ m, insertAll hash kvs HashMap_default = .ok m ∧ CapacityState hash m ∧
      m._size = (kvs.length : Int) := by
  cases kvs with
  | nil => simp at hn1
  | cons kv rest =>
    obtain ⟨m1, a1, a2, a3, a4, a5⟩ := first_insert_capacity hash kv.1 kv.2
    simp only [List.map_cons, List.nodup_cons] at hnd
    simp only [List.length_cons] at hn2
    have hst : CapacityState hash m1 :=
      ⟨a2, ⟨2, by rw [a4]; norm_num⟩, by omega, by omega, by omega, Or.inl a4⟩
    have habs1 : ∀ kv' ∈ rest, kv'.1 ∉ keys m1 := by
      intro kv' hkv' hin
      unfold keys at hin
      rw [a5] at hin
      simp only [List.map_cons, List.map_nil, List.mem_singleton] at hin
      exact hnd.1 (hin ▸ List.mem_map_of_mem Prod.fst hkv')
    obtain ⟨m', b1, b2, b3⟩ := insertAll_capacityState hash rest m1 hst hnd.2 habs1
      (by rw [a3]; omega)
    refine ⟨m', ?_, b2, ?_⟩
    · simp only [insertAll, List.foldlM_cons, a1, bind, Except.bind, Functor.map, Except.map]
      exact b1
    · simp only [List.length_cons, Nat.cast_add, Nat.cast_one]
      omega

theorem isPow2_double_le (c c' : Int) (hc : IsPow2 c) (hc' : IsPow2 c') (h : c' < c) :
    2 * c' ≤ c := by
  obtain ⟨a, rfl⟩ := hc
  obtain ⟨b, rfl⟩ := hc'
  have hba : b < a := by
    by_contra hcon
    have : (2 : Int) ^ a ≤ 2 ^ b := pow_le_pow_right₀ (by norm_num) (by omega)
    omega
  have : (2 : Int) ^ (b + 1) ≤ 2 ^ a := pow_le_pow_right₀ (by norm_num) (by omega)
  rw [pow_succ] at this
  omega

theorem isPow2_between_134_266 (c : Int) (hc : IsPow2 c) (h1 : 134 ≤ c) (h2 : c ≤ 266) :
    c = 256 := by
  obtain ⟨a, rfl⟩ := hc
  have h7 : ¬ a ≤ 7 := by
    intro h
    have : (2 : Int) ^ a ≤ 2 ^ 7 := pow_le_pow_right₀ (by norm_num) h
    norm_num at this
    omega
  have h9 : ¬ 9 ≤ a := by
    intro h
    have : (2 : Int) ^ 9 ≤ 2 ^ a := pow_le_pow_right₀ (by norm_num) h
    norm_num at this
    omega
  have : a = 8 := by omega
  subst this
  norm_num

/-- The closed form of a capacity that `CapacityState` describes. -/
theorem capacityState_closed_form (c n : Int) (hp : IsPow2 c) (h4 : 4 ≤ c) (hn : 1 ≤ n)
    (hup : n * 4 ≤ 3 * c) (hmin : c = 4 ∨ 3 * c < n * 8) :
    ∃ c0 : Int, IsPow2 c0 ∧ 4 * n ≤ 3 * c0 ∧
      (∀ c' : Int, IsPow2 c' → 4 * n ≤ 3 * c' → c0 ≤ c') ∧ c = max 4 c0 := by
  by_cases hlt : 3 * c < n * 8
  · refine ⟨c, hp, by omega, ?_, by rw [max_eq_right h4]⟩
    intro c' hc' hb
    by_contra hcon
    have := isPow2_double_le c c' hp hc' (by omega)
    omega
  · have hc4 : c = 4 := by
      rcases hmin with h | h
      · exact h
      · exact absurd h hlt
    have hn1 : n = 1 := by omega
    subst hn1
    refine ⟨2, ⟨1, by norm_num⟩, by norm_num, ?_, by rw [hc4]; norm_num⟩
    intro c' hc' hb
    omega

/-- The capacities after 1 to 7 inserts of the keys 0 to 6 with the identity hash,
by evaluation. -/
theorem capacity_small_cases :
    (List.range 7).map (fun n => (fun m => capacity m) <$>
      insertAll (fun k : Nat => k) ((List.range (n + 1)).map (fun i => (i, (0 : Nat))))
        HashMap_default) =
      [.ok 4, .ok 4, .ok 4, .ok 8, .ok 8, .ok 8, .ok 16] := by
  decide

theorem operator_index_const_no_buckets (hash : K → Nat) (m : HashMap K V) (k : K)
    (h : m._buckets = []) : operator_index_const hash m k = .error .undefined_behaviour := by
  simp only [operator_index_const, containsKey_no_buckets hash m k h, bind, Except.bind]

end Lemmas

/-! ## The claims -/

section Claims

variable {K V : Type} [DecidableEq K]

/-- C2. Insert on a present key is a no-op: whenever `containsKey(k)` is true,
`insert(k, v)` returns false and the table after the call is the table before it
(same `size()`, `capacity()`, buckets, hence the same `at(k)`); and for every
hash function, inserting `("a", 1)`, `("b", 2)`, `("a", 3)` into an empty table
gives `size() == 2` and `at("a") == 1`. -/
theorem insert_present_is_noop :
    (∀ (hash : K → Nat) (m : HashMap K V) (k : K) (v : V),
      containsKey hash m k = .ok true → insert hash m k v = .ok (false, m)) ∧
    (∀ hash : String → Nat, ∃ m1 m2 : HashMap String Nat,
      insert hash HashMap_default "a" 1 = .ok (true, m1) ∧
      insert hash m1 "b" 2 = .ok (true, m2) ∧
      insert hash m2 "a" 3 = .ok (false, m2) ∧
      size m2 = 2 ∧ at_const hash m2 "a" = .ok 1) := by
  have hnoop : ∀ {K V : Type} [DecidableEq K] (hash : K → Nat) (m : HashMap K V) (k : K) (v : V),
      containsKey hash m k = .ok true → insert hash m k v = .ok (false, m) := by
    intro K V _ hash m k v h
    simp [insert, h, bind, Except.bind, pure, Except.pure]
  refine ⟨hnoop, ?_⟩
  intro hash
  have hwf0 := invariants_default (V := Nat) hash
  have habs0 : containsKey hash (HashMap_default : HashMap String Nat) "a" = .ok false := by
    rw [containsKey_spec hash _ hwf0]
    simp [keys, entries_default]
  obtain ⟨m1, a1, a2, a3, a4⟩ := insert_spec hash HashMap_default hwf0 (by decide) "a" 1 habs0
  have hs1 : m1._size = 1 := by rw [a4]; rfl
  have hkeys1 : keys m1 = ["a"] := by
    have := a3.map Prod.fst
    rw [entries_default] at this
    simpa [keys] using this
  have habs1 : containsKey hash m1 "b" = .ok false := by
    rw [containsKey_spec hash _ a2, hkeys1]
    rfl
  obtain ⟨m2, b1, b2, b3, b4⟩ := insert_spec hash m1 a2 (by omega) "b" 2 habs1
  have hmem : (("a", 1) : String × Nat) ∈ entries m2 := by
    apply b3.symm.subset
    apply List.mem_cons_of_mem
    apply a3.symm.subset
    exact List.mem_cons_self _ _
  have hpres : containsKey hash m2 "a" = .ok true := by
    rw [containsKey_spec hash _ b2]
    have : "a" ∈ keys m2 := List.mem_map.mpr ⟨("a", 1), hmem, rfl⟩
    simp [this]
  exact ⟨m1, m2, a1, b1, hnoop hash m2 "a" 3 hpres, by show m2._size = 2; omega,
    at_const_spec hash m2 b2 "a" 1 hmem⟩

/-- The no-op of C2 on a concrete table: key 5 is stored with value 7 and a second
insert of key 5 changes nothing. -/
theorem insert_present_is_noop_witness :
    insert (fun n : Nat => n)
      (⟨1, 4, DEFAULT_UPPER_LOAD_FACTOR, DEFAULT_LOWER_LOAD_FACTOR, [[], [(5, 7)], [], []]⟩ :
        HashMap Nat Nat) 5 9 =
      .ok (false, ⟨1, 4, DEFAULT_UPPER_LOAD_FACTOR, DEFAULT_LOWER_LOAD_FACTOR,
        [[], [(5, 7)], [], []]⟩) :=
  insert_present_is_noop.1 (fun n : Nat => n) _ 5 9 (by decide)

/-- C3, at the failing input. For every hash function, after `insert("x", 1)` into
an empty table the call `erase("x")` returns true and leaves `size() == 0`, but
the resize check has halved the capacity down to 0, the bucket array has length 0
and `containsKey("x")` indexes outside it instead of returning false. -/
theorem erase_only_entry_then_containsKey_undefined (hash : String → Nat) :
    ∃ m1 m2 : HashMap String Nat,
      insert hash HashMap_default "x" 1 = .ok (true, m1) ∧
      containsKey hash m1 "x" = .ok true ∧
      erase hash m1 "x" = .ok (true, m2) ∧
      size m2 = 0 ∧ capacity m2 = 0 ∧
      containsKey hash m2 "x" = .error .undefined_behaviour := by
  have hwf0 := invariants_default (V := Nat) hash
  have habs0 : containsKey hash (HashMap_default : HashMap String Nat) "x" = .ok false := by
    rw [containsKey_spec hash _ hwf0]
    simp [keys, entries_default]
  obtain ⟨m1, a1, a2, a3, a4⟩ := insert_spec hash HashMap_default hwf0 (by decide) "x" 1 habs0
  have hs1 : m1._size = 1 := by rw [a4]; rfl
  have hpres : containsKey hash m1 "x" = .ok true := by
    rw [containsKey_spec hash _ a2]
    have : "x" ∈ keys m1 :=
      List.mem_map.mpr ⟨("x", 1), a3.symm.subset (List.mem_cons_self _ _), rfl⟩
    simp [this]
  obtain ⟨m2, e1, e2, e3, e4⟩ := erase_last_spec hash m1 a2 "x" hpres hs1
  exact ⟨m1, m2, a1, hpres, e1, e2, e3, containsKey_no_buckets hash m2 "x" e4⟩

/-- C4. Idempotent erase: whenever `containsKey(k)` is false, `erase(k)` returns
false without an error and the table after the call is the table before it (same
`size()`, `capacity()` and buckets). -/
theorem erase_absent_is_noop (hash : K → Nat) (m : HashMap K V) (k : K)
    (habs : containsKey hash m k = .ok false) : erase hash m k = .ok (false, m) := by
  simp [erase, eraseBody, habs, bind, Except.bind, pure, Except.pure]

/-- The no-op of C4 on a concrete table: key 6 is absent. -/
theorem erase_absent_is_noop_witness :
    erase (fun n : Nat => n)
      (⟨1, 4, DEFAULT_UPPER_LOAD_FACTOR, DEFAULT_LOWER_LOAD_FACTOR, [[], [(5, 7)], [], []]⟩ :
        HashMap Nat Nat) 6 =
      .ok (false, ⟨1, 4, DEFAULT_UPPER_LOAD_FACTOR, DEFAULT_LOWER_LOAD_FACTOR,
        [[], [(5, 7)], [], []]⟩) :=
  erase_absent_is_noop (fun n : Nat => n) _ 6 (by decide)

/-- Indexing on a table that satisfies the invariants (and holds fewer than
`2 ^ 29` entries): the non-const `operator[](k)` returns a reference and a table;
if `k` was absent the table now contains `k`, `size()` has grown by 1 and the
reference reads the default value `ValueT()`; if `k` was present the table is
unchanged and the reference reads the stored value.  The const `operator[](k)`
returns a value only and, on every table, raises
`std::invalid_argument(NONEXISTANT_KEY_ERR)` exactly when `containsKey(k)` is
false. -/
theorem operator_index_upsert [Inhabited V] (hash : K → Nat) (m : HashMap K V) (k : K) :
    (Invariants hash m → m._size < 536870912 →
      ∃ r m', operator_index hash m k = .ok (r, m') ∧
        (containsKey hash m k = .ok false →
          containsKey hash m' k = .ok true ∧ size m' = size m + 1 ∧
            readRef m' r = .ok default) ∧
        (containsKey hash m k = .ok true →
          m' = m ∧ ∃ v, at_const hash m k = .ok v ∧ readRef m' r = .ok v)) ∧
    (operator_index_const hash m k = .error (.invalid_argument NONEXISTANT_KEY_ERR) ↔
      containsKey hash m k = .ok false) := by
  refine ⟨?_, at_const_fails_iff hash m k⟩
  intro hwf hfit
  by_cases hk : k ∈ keys m
  · have hpres : containsKey hash m k = .ok true := by
      rw [containsKey_spec hash m hwf k]; simp [hk]
    obtain ⟨⟨k', v⟩, hv, hkk⟩ := List.mem_map.mp hk
    simp only at hkk
    subst hkk
    obtain ⟨r, e1, e2⟩ := refTo_stored hash m hwf k' v hv
    refine ⟨r, m, ?_, ?_, ?_⟩
    · simp only [operator_index, hpres, bind, Except.bind, Bool.not_true, Bool.false_eq_true,
        if_false, pure, Except.pure]
      exact e1
    · intro h
      rw [hpres] at h
      cases h
    · intro _
      exact ⟨rfl, v, at_const_spec hash m hwf k' v hv, e2⟩
  · have habs : containsKey hash m k = .ok false := by
      rw [containsKey_spec hash m hwf k]; simp [hk]
    obtain ⟨m', a1, a2, a3, a4⟩ := insert_spec hash m hwf hfit k default habs
    have hv : (k, (default : V)) ∈ entries m' := a3.symm.subset (List.mem_cons_self _ _)
    obtain ⟨r, e1, e2⟩ := refTo_stored hash m' a2 k default hv
    refine ⟨r, m', ?_, ?_, ?_⟩
    · simp only [operator_index, habs, a1, bind, Except.bind, Bool.not_false, if_true,
        Functor.map, Except.map]
      exact e1
    · intro _
      refine ⟨?_, a4, e2⟩
      rw [containsKey_spec hash m' a2 k]
      have : k ∈ keys m' := List.mem_map.mpr ⟨(k, default), hv, rfl⟩
      simp [this]
    · intro h
      rw [habs] at h
      cases h

/-- The upsert of `operator[]` on the default table with the identity hash and
key 5. -/
theorem operator_index_upsert_example :
    ∃ r m', operator_index (fun n : Nat => n) (HashMap_default : HashMap Nat Nat) 5
        = .ok (r, m') ∧
      (containsKey (fun n : Nat => n) (HashMap_default : HashMap Nat Nat) 5 = .ok false →
        containsKey (fun n : Nat => n) m' 5 = .ok true ∧
          size m' = size (HashMap_default : HashMap Nat Nat) + 1 ∧
          readRef m' r = .ok default) ∧
      (containsKey (fun n : Nat => n) (HashMap_default : HashMap Nat Nat) 5 = .ok true →
        m' = HashMap_default ∧ ∃ v, at_const (fun n : Nat => n) HashMap_default 5 = .ok v ∧
          readRef m' r = .ok v) :=
  (operator_index_upsert (fun n : Nat => n) HashMap_default 5).1 (by decide) (by decide)

/-- C7, at the failing input. For every hash function the bulk construction from
keys `["x", "x"]` and values `[1, 2]` does not return a table: the erase of the
first `"x"` empties the table, the resize check halves the capacity down to 0, and
the insert of the second `"x"` indexes outside the bucket array of length 0.  The
construction from keys `["x", "y", "x"]` and values `[1, 2, 3]` does succeed, with
`size() == 2` and `at("x") == 3`. -/
theorem bulk_construction_repeated_first_key (hash : String → Nat) :
    HashMap_keys_values hash ["x", "x"] [1, 2] = .error .undefined_behaviour ∧
    ∃ m : HashMap String Nat, HashMap_keys_values hash ["x", "y", "x"] [1, 2, 3] = .ok m ∧
      size m = 2 ∧ at_const hash m "x" = .ok 3 := by
  have hwf0 := invariants_default (V := Nat) hash
  have habs0 : containsKey hash (HashMap_default : HashMap String Nat) "x" = .ok false := by
    rw [containsKey_spec hash _ hwf0]
    simp [keys, entries_default]
  obtain ⟨m1, a1, a2, a3, a4⟩ := insert_spec hash HashMap_default hwf0 (by decide) "x" 1 habs0
  have hs1 : m1._size = 1 := by rw [a4]; rfl
  have hkeys1 : keys m1 = ["x"] := by
    have := a3.map Prod.fst
    rw [entries_default] at this
    simpa [keys] using this
  have hpres1 : containsKey hash m1 "x" = .ok true := by
    rw [containsKey_spec hash _ a2, hkeys1]
    rfl
  have hstep1 := bulkStep_absent hash _ m1 "x" 1 true habs0 a1
  constructor
  · obtain ⟨m2, e1, _, _, e4⟩ := erase_last_spec hash m1 a2 "x" hpres1 hs1
    have hstep2 : bulkStep hash m1 ("x", 2) = .error .undefined_behaviour := by
      rw [bulkStep_present hash m1 m2 "x" 2 true hpres1 e1, insert_no_buckets hash m2 "x" 2 e4]
      rfl
    simp only [HashMap_keys_values, List.length_cons, List.length_nil, ne_eq, not_true,
      if_false, List.zip_cons_cons, List.zip_nil_right, List.foldlM_cons, hstep1, hstep2, bind,
      Except.bind, pure, Except.pure]
  · have habs1 : containsKey hash m1 "y" = .ok false := by
      rw [containsKey_spec hash _ a2, hkeys1]
      rfl
    obtain ⟨m2, b1, b2, b3, b4⟩ := insert_spec hash m1 a2 (by omega) "y" 2 habs1
    have hstep2 := bulkStep_absent hash _ m2 "y" 2 true habs1 b1
    have hmem2 : (("x", 1) : String × Nat) ∈ entries m2 :=
      b3.symm.subset (List.mem_cons_of_mem _ (a3.symm.subset (List.mem_cons_self _ _)))
    have hpres2 : containsKey hash m2 "x" = .ok true := by
      rw [containsKey_spec hash _ b2]
      have : "x" ∈ keys m2 := List.mem_map.mpr ⟨("x", 1), hmem2, rfl⟩
      simp [this]
    obtain ⟨v, m3, c1, c2, c3, c4⟩ := erase_spec hash m2 b2 "x" hpres2 (by omega) (by omega)
    have habs3 : containsKey hash m3 "x" = .ok false := by
      rw [containsKey_spec hash _ c2]
      have hnd : (keys m2).Nodup := b2.unique
      have hp : (keys m2).Perm ("x" :: keys m3) := c3.map Prod.fst
      rw [hp.nodup_iff] at hnd
      have : "x" ∉ keys m3 := (List.nodup_cons.mp hnd).1
      simp [this]
    obtain ⟨m4, d1, d2, d3, d4⟩ := insert_spec hash m3 c2 (by omega) "x" 3 habs3
    have hstep3 : bulkStep hash m2 ("x", 3) = .ok m4 := by
      rw [bulkStep_present hash m2 m3 "x" 3 true hpres2 c1, d1]
      rfl
    refine ⟨m4, ?_, by show m4._size = 2; omega,
      at_const_spec hash m4 d2 "x" 3 (d3.symm.subset (List.mem_cons_self _ _))⟩
    simp only [HashMap_keys_values, List.length_cons, List.length_nil, ne_eq, not_true,
      if_false, List.zip_cons_cons, List.zip_nil_right, List.foldlM_cons, List.foldlM_nil,
      hstep1, hstep2, hstep3, bind, Except.bind, pure, Except.pure]

/-- C8. Bulk construction fails with `std::invalid_argument(KEYS_AND_VALUES_SIZE_DIFF)`
if and only if the two sequences have different lengths.  With different lengths
the failure is the whole result; only with equal lengths is the result that of the
insertion loop over the pairs, started on the default table, and that loop never
raises `std::invalid_argument`. -/
theorem bulk_construction_length_mismatch (hash : K → Nat) (keys : List K) (values : List V) :
    (HashMap_keys_values hash keys values =
        .error (.invalid_argument KEYS_AND_VALUES_SIZE_DIFF) ↔
      keys.length ≠ values.length) ∧
    (keys.length = values.length →
      HashMap_keys_values hash keys values =
        (keys.zip values).foldlM (bulkStep hash) HashMap_default) := by
  have hloop : NoInvalid ((keys.zip values).foldlM (bulkStep hash) HashMap_default) :=
    noInvalid_foldlM _ (noInvalid_bulkStep hash) _ _
  by_cases hlen : keys.length = values.length
  · have heq : HashMap_keys_values hash keys values =
        (keys.zip values).foldlM (bulkStep hash) HashMap_default := by
      simp [HashMap_keys_values, hlen, bind, Except.bind, pure, Except.pure]
    refine ⟨?_, fun _ => heq⟩
    rw [heq]
    constructor
    · intro h
      exact absurd h (hloop _)
    · intro h
      exact absurd hlen h
  · refine ⟨?_, fun h => absurd h hlen⟩
    constructor
    · intro _
      exact hlen
    · intro _
      simp [HashMap_keys_values, hlen, bind, Except.bind, throw, throwThe, MonadExceptOf.throw]

/-- The equal-length case of C8 on keys `[1, 2]` and values `[7, 8]`. -/
theorem bulk_construction_length_mismatch_witness :
    HashMap_keys_values (fun n : Nat => n) [1, 2] [7, 8] =
      ([1, 2].zip [7, 8]).foldlM (bulkStep (fun n : Nat => n)) HashMap_default :=
  (bulk_construction_length_mismatch (fun n : Nat => n) [1, 2] [7, 8]).2 (by decide)

/-- C9, at the failing input. For every hash function: let `a` be the table after
`insert("a", 1)` into an empty table and `b` an empty table.  After `a = b` the
table `a` has the capacity and the buckets of `b`, but `size()` is still 1 while
`b.size()` is 0, and `a == b` is false: `operator=` increments `_size` once per
copied entry without resetting it first. -/
theorem assignment_keeps_old_size (hash : String → Nat) :
    ∃ a a' : HashMap String Nat,
      insert hash HashMap_default "a" 1 = .ok (true, a) ∧
      operator_assign a HashMap_default = .ok a' ∧
      capacity a' = capacity (HashMap_default : HashMap String Nat) ∧
      a'._buckets = (HashMap_default : HashMap String Nat)._buckets ∧
      size a' = 1 ∧ size (HashMap_default : HashMap String Nat) = 0 ∧
      operator_eq hash a' HashMap_default = .ok false := by
  have hwf0 := invariants_default (V := Nat) hash
  have habs0 : containsKey hash (HashMap_default : HashMap String Nat) "a" = .ok false := by
    rw [containsKey_spec hash _ hwf0]
    simp [keys, entries_default]
  obtain ⟨a, a1, a2, a3, a4⟩ := insert_spec hash HashMap_default hwf0 (by decide) "a" 1 habs0
  have hs1 : a._size = 1 := by rw [a4]; rfl
  have hassign := operator_assign_spec a (HashMap_default : HashMap String Nat) (by decide)
    (by decide) (by rw [hs1]; decide) (by rw [hs1, entries_default]; decide)
  refine ⟨a, _, a1, hassign, rfl, rfl, ?_, rfl, ?_⟩
  · show a._size + ((entries (HashMap_default : HashMap String Nat)).length : Int) = 1
    rw [hs1, entries_default]
    rfl
  · simp only [operator_eq, size, hs1, entries_default]
    rfl

/-- C10. Copy construction preserves contents: the copy of a table that
satisfies the invariants has the same `size()`, `capacity()` and load factors,
every bucket of the copy holds the same entries in the same order as the bucket of
the source, and `containsKey` and `at` give the same results on both. -/
theorem copy_preserves_contents (hash : K → Nat) (t : HashMap K V) (hwf : Invariants hash t) :
    ∃ c, HashMap_copy hash t = .ok c ∧ size c = size t ∧ capacity c = capacity t ∧
      c._upperLoadFactor = t._upperLoadFactor ∧ c._lowerLoadFactor = t._lowerLoadFactor ∧
      c._buckets = t._buckets ∧
      ∀ k, containsKey hash c k = containsKey hash t k ∧
        at_const hash c k = at_const hash t k ∧ at_mut hash c k = at_mut hash t k :=
  ⟨t, copy_spec hash t hwf, rfl, rfl, rfl, rfl, rfl, fun _ => ⟨rfl, rfl, rfl⟩⟩

/-- The copy of C10 for a concrete table of capacity 4 with two entries. -/
theorem copy_preserves_contents_witness :
    ∃ c, HashMap_copy (fun n : Nat => n)
        (⟨2, 4, DEFAULT_UPPER_LOAD_FACTOR, DEFAULT_LOWER_LOAD_FACTOR,
          [[], [(5, 7), (1, 8)], [], []]⟩ : HashMap Nat Nat) = .ok c ∧
      size c = size (⟨2, 4, DEFAULT_UPPER_LOAD_FACTOR, DEFAULT_LOWER_LOAD_FACTOR,
          [[], [(5, 7), (1, 8)], [], []]⟩ : HashMap Nat Nat) ∧
      capacity c = capacity (⟨2, 4, DEFAULT_UPPER_LOAD_FACTOR, DEFAULT_LOWER_LOAD_FACTOR,
          [[], [(5, 7), (1, 8)], [], []]⟩ : HashMap Nat Nat) ∧
      c._upperLoadFactor = DEFAULT_UPPER_LOAD_FACTOR ∧
      c._lowerLoadFactor = DEFAULT_LOWER_LOAD_FACTOR ∧
      c._buckets = [[], [(5, 7), (1, 8)], [], []] ∧
      ∀ k, containsKey (fun n : Nat => n) c k =
          containsKey (fun n : Nat => n) (⟨2, 4, DEFAULT_UPPER_LOAD_FACTOR,
            DEFAULT_LOWER_LOAD_FACTOR, [[], [(5, 7), (1, 8)], [], []]⟩ : HashMap Nat Nat) k ∧
        at_const (fun n : Nat => n) c k =
          at_const (fun n : Nat => n) (⟨2, 4, DEFAULT_UPPER_LOAD_FACTOR,
            DEFAULT_LOWER_LOAD_FACTOR, [[], [(5, 7), (1, 8)], [], []]⟩ : HashMap Nat Nat) k ∧
        at_mut (fun n : Nat => n) c k =
          at_mut (fun n : Nat => n) (⟨2, 4, DEFAULT_UPPER_LOAD_FACTOR,
            DEFAULT_LOWER_LOAD_FACTOR, [[], [(5, 7), (1, 8)], [], []]⟩ : HashMap Nat Nat) k :=
  copy_preserves_contents (fun n : Nat => n) _ (by decide)

/-- C12, at the failing input. For every hash function, the table built from a
default-constructed table by `insert("x", 1)` and `erase("x")` has capacity 0,
which is below 1 and is not a power of two: the shrink loop of `_resize` halves the
capacity of an empty table down to 0. -/
theorem capacity_floor_missing (hash : String → Nat) :
    ∃ m1 m2 : HashMap String Nat,
      insert hash HashMap_default "x" 1 = .ok (true, m1) ∧
      erase hash m1 "x" = .ok (true, m2) ∧ Reachable hash m2 ∧
      capacity m2 = 0 ∧ ¬ (1 ≤ capacity m2) ∧ ¬ IsPow2 (capacity m2) := by
  obtain ⟨m1, m2, a1, _, _, _, a5, a6, _, hd, _⟩ := insert_erase_only_entry hash
  refine ⟨m1, m2, a1, a5, a6, hd, ?_, ?_⟩
  · show ¬ (1 ≤ m2._capacity)
    omega
  · show ¬ IsPow2 m2._capacity
    rw [hd]
    exact not_isPow2_zero

/-- C13, at the failing input. For every hash function, the table after
`insert("x", 1)` into an empty table satisfies the invariants with a load factor
between 0.25 and 0.75; `erase("x")` mutates it and leaves `size() == 0` and
`capacity() == 0`, where `size() / capacity()` is 0/0: neither at most 0.75 nor at
least 0.25, and the capacity is not at a floor of 1 but below it. -/
theorem load_factor_after_last_erase (hash : String → Nat) :
    ∃ m1 m2 : HashMap String Nat,
      insert hash HashMap_default "x" 1 = .ok (true, m1) ∧ Invariants hash m1 ∧
      loadFactorAtLeast m1 DEFAULT_LOWER_LOAD_FACTOR = true ∧
      loadFactorAtMost m1 DEFAULT_UPPER_LOAD_FACTOR = true ∧
      erase hash m1 "x" = .ok (true, m2) ∧ size m2 = 0 ∧ capacity m2 = 0 ∧
      loadFactorAtMost m2 DEFAULT_UPPER_LOAD_FACTOR = false ∧
      loadFactorAtLeast m2 DEFAULT_LOWER_LOAD_FACTOR = false := by
  obtain ⟨m1, m2, a1, ⟨hwf, _, hc, hl⟩, hs, hcap, a5, _, hd1, hd2, _⟩ :=
    insert_erase_only_entry hash
  have hne : m1._capacity ≠ 0 := by omega
  have hpos : 0 < m1._capacity := by omega
  refine ⟨m1, m2, a1, hwf, ?_, ?_, a5, hd1, hd2, ?_, ?_⟩
  · simp [loadFactorAtLeast, size, capacity, hne, hpos, DEFAULT_LOWER_LOAD_FACTOR]
    omega
  · simp [loadFactorAtMost, size, capacity, hne, hpos, DEFAULT_UPPER_LOAD_FACTOR]
    omega
  · simp [loadFactorAtMost, size, capacity, hd1, hd2]
  · simp [loadFactorAtLeast, size, capacity, hd1, hd2]

/-- C17, at the failing input. For every hash function, on the table built from a
default-constructed table by `insert("x", 1)` and `erase("x")` neither the walk
from `begin()` to `end()` nor `containsKey` returns: the bucket array has length 0
and both read it outside its bounds. -/
theorem iteration_after_last_erase (hash : String → Nat) :
    ∃ m1 m2 : HashMap String Nat,
      insert hash HashMap_default "x" 1 = .ok (true, m1) ∧
      erase hash m1 "x" = .ok (true, m2) ∧ Reachable hash m2 ∧
      (∀ fuel, iterate fuel m2 = .error .undefined_behaviour) ∧
      (∀ k, containsKey hash m2 k = .error .undefined_behaviour) := by
  obtain ⟨m1, m2, a1, _, _, _, a5, a6, _, _, hb⟩ := insert_erase_only_entry hash
  exact ⟨m1, m2, a1, a5, a6, iterate_no_buckets m2 hb, fun k => containsKey_no_buckets hash m2 k hb⟩

/-- C14. Key uniqueness is an invariant: on a table in which every entry sits in
the bucket of its hash code (the invariants of the data model) and no two entries
have equal keys, no two entries have equal keys after `insert` and after the
non-const `operator[]`; with exactly `capacity()` buckets the same holds after
`erase` and after the internal rehash; hence it holds for every table built from a
default-constructed table by these operations and for every table the bulk
constructor returns. -/
theorem key_uniqueness_invariant [Inhabited V] (hash : K → Nat) :
    (∀ (m m' : HashMap K V) (k : K) (v : V) (b : Bool), Invariants hash m →
      insert hash m k v = .ok (b, m') → (keys m').Nodup) ∧
    (∀ (m m' : HashMap K V) (k : K) (r : ValueRef), Invariants hash m →
      operator_index hash m k = .ok (r, m') → (keys m').Nodup) ∧
    (∀ (m m' : HashMap K V) (k : K) (b : Bool), (keys m).Nodup →
      (m._buckets.length : Int) = m._capacity →
      erase hash m k = .ok (b, m') → (keys m').Nodup) ∧
    (∀ (m m' : HashMap K V) (prev : Int), (keys m).Nodup →
      (m._buckets.length : Int) = prev →
      _rehash hash m prev = .ok m' → (keys m').Nodup) ∧
    (∀ m : HashMap K V, Built hash m → (keys m).Nodup) ∧
    (∀ (ks : List K) (vs : List V) (m : HashMap K V),
      HashMap_keys_values hash ks vs = .ok m → (keys m).Nodup) := by
  have hins : ∀ (m m' : HashMap K V) (k : K) (v : V) (b : Bool), Invariants hash m →
      insert hash m k v = .ok (b, m') → (keys m').Nodup := by
    intro m m' k v b hwf h
    rcases insert_result hash m m' hwf k v b h with ⟨_, hm, _⟩ | ⟨_, _, c1, _⟩
    · rw [hm]; exact hwf.unique
    · exact c1.unique
  refine ⟨hins, ?_, ?_, ?_, ?_, ?_⟩
  · intro m m' k r hwf h
    rcases operator_index_generic hash m m' k r h with hm | ⟨b, h'⟩
    · rw [hm]; exact hwf.unique
    · exact hins m m' k default b hwf h'
  · intro m m' k b hnd hlen h
    rcases erase_generic hash m m' k b hlen h with ⟨_, hm⟩ | ⟨_, _, _, p, hp⟩
    · rw [hm]; exact hnd
    · have h1 : ((entries m).map Prod.fst).Nodup := hnd
      rw [(hp.map Prod.fst).nodup_iff] at h1
      exact (List.nodup_cons.mp h1).2
  · intro m m' prev hnd hlen h
    obtain ⟨_, _, _, hp⟩ := rehash_result hash m m' prev hlen h
    exact ((hp.map Prod.fst).nodup_iff).mpr hnd
  · intro m hb
    rcases built_alive_or_dead hash m hb with ha | hd
    · exact ha.1.unique
    · exact keys_nodup_of_dead m hd
  · intro ks vs m h
    exact (alive_keys_values hash ks vs m h).1.unique

/-- The insert part of C14 on a concrete table: key 9 joins keys 5 and 1. -/
theorem key_uniqueness_invariant_witness :
    (keys (⟨3, 4, DEFAULT_UPPER_LOAD_FACTOR, DEFAULT_LOWER_LOAD_FACTOR,
      [[], [(5, 7), (1, 8), (9, 0)], [], []]⟩ : HashMap Nat Nat)).Nodup :=
  (key_uniqueness_invariant (fun n : Nat => n)).1
    (⟨2, 4, DEFAULT_UPPER_LOAD_FACTOR, DEFAULT_LOWER_LOAD_FACTOR,
      [[], [(5, 7), (1, 8)], [], []]⟩ : HashMap Nat Nat) _ 9 0 true (by decide) (by decide)

/-- C15. Size bookkeeping is an invariant: if there are exactly `capacity()`
buckets and `size()` is the sum of their lengths, the same holds after `insert`,
`erase`, the non-const `operator[]`, the internal rehash to any capacity and copy
construction, whenever they return; `clear` returns, and after it the same holds,
`size()` is 0, every bucket is empty and `capacity()` is unchanged. -/
theorem size_bookkeeping_invariant [Inhabited V] (hash : K → Nat) (m : HashMap K V)
    (hsb : SizeBookkeeping m) :
    (∀ (k : K) (v : V) (b : Bool) (m' : HashMap K V),
      insert hash m k v = .ok (b, m') → SizeBookkeeping m') ∧
    (∀ (k : K) (b : Bool) (m' : HashMap K V),
      erase hash m k = .ok (b, m') → SizeBookkeeping m') ∧
    (∀ (k : K) (r : ValueRef) (m' : HashMap K V),
      operator_index hash m k = .ok (r, m') → SizeBookkeeping m') ∧
    (∀ (c : Int) (m' : HashMap K V),
      _rehash hash { m with _capacity := c } (capacity m) = .ok m' → SizeBookkeeping m') ∧
    (∀ c : HashMap K V, HashMap_copy hash m = .ok c → SizeBookkeeping c) ∧
    (∃ m', clear m = .ok m' ∧ SizeBookkeeping m' ∧ size m' = 0 ∧
      (∀ b ∈ m'._buckets, b = []) ∧ capacity m' = capacity m) := by
  have hsb' := (sizeBookkeeping_iff m).mp hsb
  obtain ⟨hlen, hsz⟩ := hsb'
  have hins : ∀ (k : K) (v : V) (b : Bool) (m' : HashMap K V),
      insert hash m k v = .ok (b, m') → SizeBookkeeping m' := by
    intro k v b m' h
    rcases insert_generic hash m m' k v b hlen h with ⟨_, hm⟩ | ⟨_, c1, c2, c3⟩
    · rw [hm]; exact hsb
    · rw [sizeBookkeeping_iff]
      refine ⟨c2, ?_⟩
      rw [c1, c3.length_eq, hsz]
      simp
  refine ⟨hins, ?_, ?_, ?_, ?_, ?_⟩
  · intro k b m' h
    rcases erase_generic hash m m' k b hlen h with ⟨_, hm⟩ | ⟨_, c1, c2, p, c3⟩
    · rw [hm]; exact hsb
    · rw [sizeBookkeeping_iff]
      refine ⟨c2, ?_⟩
      have := c3.length_eq
      simp only [List.length_cons] at this
      omega
  · intro k r m' h
    rcases operator_index_generic hash m m' k r h with hm | ⟨b, h'⟩
    · rw [hm]; exact hsb
    · exact hins k default b m' h'
  · intro c m' h
    obtain ⟨a1, a2, a3, a4⟩ := rehash_result hash { m with _capacity := c } m' (capacity m)
      hlen h
    rw [sizeBookkeeping_iff]
    refine ⟨by rw [a3, a2], ?_⟩
    rw [a1, a4.length_eq]
    exact hsz
  · intro c h
    obtain ⟨a1, a2, a3, a4⟩ := copy_generic hash m c hlen h
    rw [sizeBookkeeping_iff]
    refine ⟨a3, ?_⟩
    rw [a1, a4.length_eq]
    exact hsz
  · obtain ⟨m', e1, e2, e3, e4, e5, _⟩ := clear_spec m hlen
    refine ⟨m', e1, ?_, e2, e5, e3⟩
    rw [sizeBookkeeping_iff]
    refine ⟨by rw [e3, e4]; exact hlen, ?_⟩
    have : entries m' = [] := by
      unfold entries
      exact List.flatten_eq_nil_iff.mpr e5
    rw [e2, this]
    rfl

/-- The insert part of C15 on a concrete table: after the insert of key 9 there are
4 buckets and `size()` is 3. -/
theorem size_bookkeeping_invariant_witness :
    SizeBookkeeping (⟨3, 4, DEFAULT_UPPER_LOAD_FACTOR, DEFAULT_LOWER_LOAD_FACTOR,
      [[], [(5, 7), (1, 8), (9, 0)], [], []]⟩ : HashMap Nat Nat) :=
  (size_bookkeeping_invariant (fun n : Nat => n)
    (⟨2, 4, DEFAULT_UPPER_LOAD_FACTOR, DEFAULT_LOWER_LOAD_FACTOR,
      [[], [(5, 7), (1, 8)], [], []]⟩ : HashMap Nat Nat) (by decide)).1 9 0 true _ (by decide)

/-- C18. Growth scenario: for every hash function and every list of 100 pairs
with pairwise distinct keys, inserting the pairs one after another into a
default-constructed table succeeds, `size()` is `i` after the `i`-th insert for
every `i` from 1 to 100, and `capacity()` is at least 128 at the end. -/
theorem growth_scenario (hash : K → Nat) (kvs : List (K × V)) (hlen : kvs.length = 100)
    (hnd : (kvs.map Prod.fst).Nodup) :
    (∀ i : Nat, 1 ≤ i → i ≤ 100 →
      ∃ m, insertAll hash (kvs.take i) HashMap_default = .ok m ∧ size m = (i : Int)) ∧
    ∃ m, insertAll hash kvs HashMap_default = .ok m ∧ size m = 100 ∧ 128 ≤ capacity m := by
  have hwf0 := invariants_default (V := V) hash
  have habs : ∀ l : List (K × V), ∀ kv ∈ l, kv.1 ∉ keys (HashMap_default : HashMap K V) := by
    intro l kv _
    simp [keys, entries_default]
  constructor
  · intro i _ hi
    have hnd' : ((kvs.take i).map Prod.fst).Nodup := by
      rw [List.map_take]
      exact hnd.sublist (List.take_sublist _ _)
    have hl : (kvs.take i).length = i := by
      rw [List.length_take, hlen]
      omega
    obtain ⟨m, a1, _, a3, _, _⟩ := insertAll_spec hash (kvs.take i) HashMap_default hwf0 hnd'
      (habs _) (by rw [hl]; simp [HashMap_default, ELEMENT_NUMBER]; omega)
    refine ⟨m, a1, ?_⟩
    rw [size, a3, hl]
    simp [HashMap_default, ELEMENT_NUMBER]
  · obtain ⟨m, a1, _, a3, _, a5⟩ := insertAll_spec hash kvs HashMap_default hwf0 hnd
      (habs _) (by rw [hlen]; simp [HashMap_default, ELEMENT_NUMBER])
    have hne : kvs ≠ [] := by
      intro h
      rw [h] at hlen
      simp at hlen
    have hs : m._size = 100 := by
      rw [a3, hlen]
      simp [HashMap_default, ELEMENT_NUMBER]
    have := a5 hne
    exact ⟨m, a1, hs, by unfold capacity; omega⟩

/-- C18 on the keys 0 to 99 with the identity hash. -/
theorem growth_scenario_witness :
    ((List.range 100).map (fun i : Nat => (i, (0 : Nat)))).length = 100 ∧
    (((List.range 100).map (fun i : Nat => (i, (0 : Nat)))).map Prod.fst).Nodup ∧
    ((∀ i : Nat, 1 ≤ i → i ≤ 100 →
      ∃ m, insertAll (fun n : Nat => n)
        (((List.range 100).map (fun i : Nat => (i, (0 : Nat)))).take i) HashMap_default
          = .ok m ∧ size m = (i : Int)) ∧
    ∃ m, insertAll (fun n : Nat => n) ((List.range 100).map (fun i : Nat => (i, (0 : Nat))))
      HashMap_default = .ok m ∧ size m = 100 ∧ 128 ≤ capacity m) :=
  ⟨by simp, by rw [List.map_map]; exact List.Nodup.map (fun _ _ h => h) (List.nodup_range 100),
    growth_scenario (fun n : Nat => n) ((List.range 100).map (fun i : Nat => (i, (0 : Nat))))
      (by simp) (by rw [List.map_map]; exact List.Nodup.map (fun _ _ h => h) (List.nodup_range 100))⟩

/-- C11. Equality compares key sets only: for two tables `a` and `b` of the data
model (placement, unique keys, size bookkeeping, load factor at most 0.75) both
overloads of `a == b` return true exactly when `a.size() == b.size()` and every
key of `a` is a key of `b`; this condition is the same as `a` and `b` having the
same key set, so both overloads are symmetric, and tables with the same key set
compare equal whatever their values are. -/
theorem equality_compares_key_sets (hash : K → Nat) (a b : HashMap K V)
    (ha : Invariants hash a) (hb : Invariants hash b)
    (hla : a._size * 4 ≤ 3 * a._capacity) (hlb : b._size * 4 ≤ 3 * b._capacity) :
    operator_eq hash a b = .ok (decide (size a = size b ∧ ∀ k ∈ keys a, k ∈ keys b)) ∧
    (∀ fuel : Nat, size a ≤ (fuel : Int) → operator_eq_mut fuel hash a b =
      .ok (decide (size a = size b ∧ ∀ k ∈ keys a, k ∈ keys b))) ∧
    ((size a = size b ∧ ∀ k ∈ keys a, k ∈ keys b) ↔ ∀ k, k ∈ keys a ↔ k ∈ keys b) ∧
    operator_eq hash b a = operator_eq hash a b ∧
    (∀ fuel : Nat, size a ≤ (fuel : Int) → size b ≤ (fuel : Int) →
      operator_eq_mut fuel hash b a = operator_eq_mut fuel hash a b) ∧
    ((∀ k, k ∈ keys a ↔ k ∈ keys b) → operator_eq hash a b = .ok true ∧
      ∀ fuel : Nat, size a ≤ (fuel : Int) → operator_eq_mut fuel hash a b = .ok true) := by
  have h1 := operator_eq_spec hash a b ha hb
  have h2 := fun fuel hf => operator_eq_mut_spec hash a b ha hb hla fuel hf
  have h3 := same_keys_iff hash a b ha hb
  have hsym : decide (size b = size a ∧ ∀ k ∈ keys b, k ∈ keys a) =
      decide (size a = size b ∧ ∀ k ∈ keys a, k ∈ keys b) := by
    apply decide_eq_decide.mpr
    rw [h3, same_keys_iff hash b a hb ha]
    exact ⟨fun h k => (h k).symm, fun h k => (h k).symm⟩
  refine ⟨h1, h2, h3, ?_, ?_, ?_⟩
  · rw [operator_eq_spec hash b a hb ha, h1, hsym]
  · intro fuel hfa hfb
    rw [operator_eq_mut_spec hash b a hb ha hlb fuel hfb, h2 fuel hfa, hsym]
  · intro hk
    have hd : decide (size a = size b ∧ ∀ k ∈ keys a, k ∈ keys b) = true :=
      decide_eq_true (h3.mpr hk)
    rw [hd] at h1
    refine ⟨h1, fun fuel hf => ?_⟩
    rw [h2 fuel hf, hd]

/-- C11 on two tables with the keys 5 and 1 and different values: the const
`operator==` returns true. -/
theorem equality_compares_key_sets_witness :
    operator_eq (fun n : Nat => n)
      (⟨2, 4, DEFAULT_UPPER_LOAD_FACTOR, DEFAULT_LOWER_LOAD_FACTOR,
        [[], [(5, 7), (1, 8)], [], []]⟩ : HashMap Nat Nat)
      (⟨2, 4, DEFAULT_UPPER_LOAD_FACTOR, DEFAULT_LOWER_LOAD_FACTOR,
        [[], [(1, 0), (5, 3)], [], []]⟩ : HashMap Nat Nat) = .ok true :=
  (equality_compares_key_sets (fun n : Nat => n)
    (⟨2, 4, DEFAULT_UPPER_LOAD_FACTOR, DEFAULT_LOWER_LOAD_FACTOR,
      [[], [(5, 7), (1, 8)], [], []]⟩ : HashMap Nat Nat)
    (⟨2, 4, DEFAULT_UPPER_LOAD_FACTOR, DEFAULT_LOWER_LOAD_FACTOR,
      [[], [(1, 0), (5, 3)], [], []]⟩ : HashMap Nat Nat)
    (by decide) (by decide) (by decide) (by decide)).1.trans (by decide)

/-- C19, the claim as written fails on the line `w,2147483648`: the line has
exactly one comma and a decimal integer after it, and `readFileIntoVectors`
neither accepts it nor fails with the invalid-input error; it fails with
`std::out_of_range` from `std::stoi`. -/
theorem score_line_overflow_counterexample :
    (['w', ',', '2', '1', '4', '7', '4', '8', '3', '6', '4', '8'] : List Char).count ',' = 1 ∧
    isDecimal (afterComma ['w', ',', '2', '1', '4', '7', '4', '8', '3', '6', '4', '8']) = true ∧
    readFileIntoVectors [] [] [['w', ',', '2', '1', '4', '7', '4', '8', '3', '6', '4', '8']] =
      (([], []), .error (.out_of_range "stoi")) ∧
    Err.out_of_range "stoi" ≠ Err.invalid_argument GENERAL_ERROR := by
  decide

/-- C19, amended. Score-table line validation: `readFileIntoVectors` accepts a
line, appending the lower-cased text in front of the comma and the score, exactly
when the line has exactly one comma and the text after the comma is a non-empty
sequence of decimal digits whose value is at most 2147483647; on a line with one
comma and a digit sequence of a greater value it fails with `std::out_of_range`,
on every other line it fails with the invalid-input error, and in both failures
the vectors are as they were before the line. -/
theorem score_line_validation (words : List (List Char)) (scores : List Int)
    (line : List Char) (rest : List (List Char)) :
    readFileIntoVectors words scores (line :: rest) =
      if line.count ',' = 1 ∧ isDecimal (afterComma line) = true then
        if decimalValue (afterComma line) ≤ 2147483647 then
          readFileIntoVectors (words ++ [lowerString (beforeComma line)])
            (scores ++ [decimalValue (afterComma line)]) rest
        else ((words, scores), .error (.out_of_range "stoi"))
      else ((words, scores), .error (.invalid_argument GENERAL_ERROR)) := by
  rw [readFileIntoVectors, readLine_spec]
  by_cases h : line.count ',' = 1 ∧ isDecimal (afterComma line) = true
  · rw [if_pos h, if_pos h]
    by_cases hv : decimalValue (afterComma line) ≤ 2147483647
    · rw [if_pos hv, if_pos (by unfold INT_MAX; exact hv)]
    · rw [if_neg hv, if_neg (by unfold INT_MAX; exact hv)]
  · rw [if_neg h, if_neg h]

/-- C20 fails on the score table with the one line `,5` and every message of at
least one line: `readFileIntoVectors` accepts the line with the empty word, the
bulk constructor builds the score map, and `isSpam` returns on no number of
rounds, since `line.find("")` is 0 in every round of the counting loop. -/
theorem isSpam_empty_word_never_returns (hash : List Char → Nat) (line : List Char)
    (rest : List (List Char)) (threshold : Int) :
    readFileIntoVectors [] [] [[',', '5']] = (([[]], [5]), .ok ()) ∧
    ∃ scoreMap, HashMap_keys_values hash [[]] [(5 : Int)] = .ok scoreMap ∧
      ∀ (fuel : Nat) (b : Bool), isSpam fuel scoreMap (line :: rest) threshold ≠ .ok b := by
  refine ⟨by decide, ?_⟩
  obtain ⟨m, h1, h2, h3⟩ := keys_values_single hash ([] : List Char) (5 : Int)
  refine ⟨m, h1, ?_⟩
  intro fuel b h
  unfold isSpam at h
  rw [List.foldlM_cons] at h
  cases hr : rangeFor fuel m (scoreStep fuel (lowerString line)) START_SCORE with
  | ok x =>
    exact rangeFor_first_fails _ m h2.1.buckets_length h2.2.2.1 _ _ h3 START_SCORE
      (fun r => scoreStep_empty_word fuel (lowerString line) START_SCORE 5 r) fuel x hr
  | error e =>
    simp only [hr, bind, Except.bind] at h
    cases h

/-- C21, at the failing input. For every hash function, the table after
`insert("x", 1)` into an empty table satisfies the invariants, `containsKey("y")`
is false on it and `at("y")` raises the key-not-found error; after `erase("x")`
both calls index outside the bucket array, which has length 0. -/
theorem erase_only_entry_disturbs_other_keys (hash : String → Nat) :
    ∃ m1 m2 : HashMap String Nat,
      insert hash HashMap_default "x" 1 = .ok (true, m1) ∧ Alive hash m1 ∧
      containsKey hash m1 "y" = .ok false ∧
      at_const hash m1 "y" = .error (.invalid_argument NONEXISTANT_KEY_ERR) ∧
      at_mut hash m1 "y" = .error (.invalid_argument NONEXISTANT_KEY_ERR) ∧
      erase hash m1 "x" = .ok (true, m2) ∧
      containsKey hash m2 "y" = .error .undefined_behaviour ∧
      at_const hash m2 "y" = .error .undefined_behaviour ∧
      at_mut hash m2 "y" = .error .undefined_behaviour := by
  have hwf0 := invariants_default (V := Nat) hash
  have habs0 : containsKey hash (HashMap_default : HashMap String Nat) "x" = .ok false := by
    rw [containsKey_spec hash _ hwf0]
    simp [keys, entries_default]
  obtain ⟨m1, a1, a2, a3, a4⟩ := insert_spec hash HashMap_default hwf0 (by decide) "x" 1 habs0
  have halive := alive_insert hash _ m1 "x" 1 true (alive_default hash) a1
  have hs1 : m1._size = 1 := by rw [a4]; rfl
  have hkeys : keys m1 = ["x"] := by
    rw [entries_default] at a3
    unfold keys
    rw [List.perm_singleton.mp a3]
    rfl
  have hpres : containsKey hash m1 "x" = .ok true := by
    rw [containsKey_spec hash _ a2, hkeys]
    rfl
  have hy : containsKey hash m1 "y" = .ok false := by
    rw [containsKey_spec hash _ a2, hkeys]
    rfl
  obtain ⟨m2, b1, _, _, b4⟩ := erase_last_spec hash m1 a2 "x" hpres hs1
  exact ⟨m1, m2, a1, halive, hy, (at_const_fails_iff hash m1 "y").mpr hy,
    (at_mut_fails_iff hash m1 "y").mpr hy, b1, containsKey_no_buckets hash m2 "y" b4,
    at_const_no_buckets hash m2 "y" b4, at_mut_no_buckets hash m2 "y" b4⟩

/-- C22, at the failing input. For every hash function, the table built from a
default-constructed table by `insert("x", 1)` and `erase("x")` stores no entry, so
that the placement of entries holds of it, but `containsKey(k)` does not return
false for any key `k`: it indexes outside the bucket array, which has length 0. -/
theorem placement_lookup_after_last_erase (hash : String → Nat) :
    ∃ m1 m2 : HashMap String Nat,
      insert hash HashMap_default "x" 1 = .ok (true, m1) ∧
      erase hash m1 "x" = .ok (true, m2) ∧ Built hash m2 ∧
      Placed hash m2 m2._buckets ∧ keys m2 = [] ∧ capacity m2 = 0 ∧
      ∀ k, containsKey hash m2 k = .error .undefined_behaviour := by
  obtain ⟨m1, m2, a1, _, _, _, a5, _, hs, hc, hb⟩ := insert_erase_only_entry hash
  refine ⟨m1, m2, a1, a5, Built.erase m1 m2 "x" true
    (Built.insert HashMap_default m1 "x" 1 true Built.default a1) a5, ?_, ?_, hc,
    fun k => containsKey_no_buckets hash m2 k hb⟩
  · rw [hb]
    intro ib hib
    simp at hib
  · simp [keys, entries, hb]

/-- C23. Closed form of the capacity under pure insertion: a default-constructed
table has capacity 16; for every hash function and every list of `n` pairs with
pairwise distinct keys, `1 ≤ n ≤ 2 ^ 29`, inserting the pairs one after another
into a default-constructed table succeeds and leaves `capacity()` equal to the
maximum of 4 and the least power of two `c` with `4 * n ≤ 3 * c`; this is 4 after
one insert and 256 after 100 inserts. -/
theorem capacity_closed_form (hash : K → Nat) (kvs : List (K × V)) (hn1 : 1 ≤ kvs.length)
    (hn2 : kvs.length ≤ 536870912) (hnd : (kvs.map Prod.fst).Nodup) :
    capacity (HashMap_default : HashMap K V) = 16 ∧
    ∃ (m : HashMap K V) (c : Int), insertAll hash kvs HashMap_default = .ok m ∧
      IsPow2 c ∧ 4 * (kvs.length : Int) ≤ 3 * c ∧
      (∀ c' : Int, IsPow2 c' → 4 * (kvs.length : Int) ≤ 3 * c' → c ≤ c') ∧
      capacity m = max 4 c ∧
      (kvs.length = 1 → capacity m = 4) ∧ (kvs.length = 100 → capacity m = 256) := by
  refine ⟨rfl, ?_⟩
  obtain ⟨m, a1, ⟨_, hp, h4, hs1, hup, hmin⟩, a3⟩ :=
    insertAll_default_capacityState hash kvs hn1 hn2 hnd
  rw [a3] at hs1 hup hmin
  obtain ⟨c0, c1, c2, c3, c4⟩ :=
    capacityState_closed_form m._capacity kvs.length hp h4 hs1 hup hmin
  refine ⟨m, c0, a1, c1, c2, c3, c4, ?_, ?_⟩
  · intro h1
    rw [h1] at hup hmin
    show m._capacity = 4
    rcases hmin with h | h
    · exact h
    · omega
  · intro h100
    rw [h100] at hup hmin
    show m._capacity = 256
    refine isPow2_between_134_266 m._capacity hp (by omega) ?_
    rcases hmin with h | h <;> omega

/-- C23 on the keys 0 to 99 with the identity hash: the capacity ends at 256. -/
theorem capacity_closed_form_witness :
    ∃ m, insertAll (fun n : Nat => n) ((List.range 100).map (fun i : Nat => (i, (0 : Nat))))
      HashMap_default = .ok m ∧ capacity m = 256 := by
  obtain ⟨_, m, c, h1, _, _, _, _, _, h7⟩ :=
    capacity_closed_form (fun n : Nat => n) ((List.range 100).map (fun i : Nat => (i, (0 : Nat))))
      (by simp) (by simp)
      (by rw [List.map_map]; exact List.Nodup.map (fun _ _ h => h) (List.nodup_range 100))
  exact ⟨m, h1, h7 (by simp)⟩

/-- C6, at the failing input. For every hash function, the table built from a
default-constructed table by `insert("x", 1)` and `erase("x")` holds no entry, and
on it the non-const `operator[](k)` fails for every key `k` instead of inserting
`(k, ValueT())`: its first call, `containsKey(k)`, indexes outside the bucket
array, which has length 0. The const `operator[](k)` on this table indexes outside
the bucket array too and does not raise the key-not-found error. -/
theorem operator_index_after_last_erase (hash : String → Nat) :
    ∃ m1 m2 : HashMap String Nat,
      insert hash HashMap_default "x" 1 = .ok (true, m1) ∧
      erase hash m1 "x" = .ok (true, m2) ∧ Built hash m2 ∧
      size m2 = 0 ∧ capacity m2 = 0 ∧ keys m2 = [] ∧
      (∀ k, operator_index hash m2 k = .error .undefined_behaviour) ∧
      (∀ k, operator_index_const hash m2 k = .error .undefined_behaviour) ∧
      (∀ k, operator_index_const hash m2 k ≠
        .error (.invalid_argument NONEXISTANT_KEY_ERR)) := by
  obtain ⟨m1, m2, a1, _, _, _, a5, _, hs, hc, hb⟩ := insert_erase_only_entry hash
  refine ⟨m1, m2, a1, a5, Built.erase m1 m2 "x" true
    (Built.insert HashMap_default m1 "x" 1 true Built.default a1) a5, hs, hc, ?_,
    fun k => operator_index_no_buckets hash m2 k hb,
    fun k => operator_index_const_no_buckets hash m2 k hb, ?_⟩
  · simp [keys, entries, hb]
  · intro k h
    rw [operator_index_const_no_buckets hash m2 k hb] at h
    cases h

end Claims

end SpamDetector
